import Mathlib

/-!
# Verification of `programming-questions`: heap-based selection, monotonic stacks and array scans

Shallow embedding of `src/07-top-k-elements.go` (package `topk`), of
`src/06-monotonic-stack.go` (package `monotonicstack`: `StockSpanner`,
`NextGreaterElement`, `DailyTemperatures`, `LargestRectangleArea`), and of
`SubarraySum` (`src/01-prefix-sum.go`), `TwoSum` and `ContainerWithMostWater`
(`src/02-two-pointers.go`), `Search` (`src/09-binary-search.go`),
`MergeIntervals` (`src/08-overlapping-intervals.go`), `Permutations`
(`src/14-back-tracking.go`), and `KnapsackTopDown` and `KnapsackBottomUp`
(`src/15-dynamic-programming.go`).

Go slices are Lean lists (index `0` first, `append` adds at the end).  Go `int`
values are `Int`.  Where the code adds, subtracts or multiplies the values it
is given (the squared distance of `KClosestPoints`, the sums of `TwoSum` and
`SubarraySum`, the areas of `ContainerWithMostWater` and
`LargestRectangleArea`, the values and capacities of the knapsack functions,
`k - 1` in `KthSmallestInMatrix`), the result is wrapped to 64 bits as Go does
(`goint.add`, `goint.sub`, `goint.mul`, `goint.pred`), and the theorems about
these functions carry the bound under which no result wraps.  Counters and
positions that are bounded by the length of a slice (frequencies, spans,
indices and their differences) are not wrapped.  A run-time panic (index out of
range, negative `make` length) is the result `none`.

The heaps of package `topk` are driven by the Go standard library
`container/heap`; its `Init`, `Push`, `Pop`, `up` and `down` are embedded in
namespace `heap`, generically in the `Less` method of the heap type.  The loops
of `up` and `down` are unrolled by structural recursion on a fuel argument that
the caller sets to the slice length; `heap.up_fuel` and `heap.down_fuel` show
that this bound is never the reason for leaving the loop.

The `for` loops of the other packages that are not bounded by a range are
unrolled on a fuel argument as well; running out of fuel is the result `none`,
so a theorem that gives a result `some r` also shows that the loop ends within
the bound.  The order in which `sort.Slice` leaves elements with equal keys is
an argument (`sorted`) of `MergeIntervals`.  The memo table of `knapsackHelper`
is passed in and returned.

Quantities that the code does not store but that properties of a run speak of
are defined next to the loop they observe: `StockSpanner.popCount` and
`StockSpanner.sessionPops` count the pops of `Next`, and
`KthSmallestInMatrix.extracted` lists the cells taken off the heap.
-/

set_option autoImplicit false

/-! ## Part 1: definitions -/

namespace goint

/-- Value of a Go `int` expression whose mathematical value is `x`: the
integer congruent to `x` modulo `2^64` that lies between `math.MinInt64`
(`-9223372036854775808`) and `math.MaxInt64` (`9223372036854775807`). -/
def wrap (x : Int) : Int :=
  (x + 9223372036854775808) % 18446744073709551616 - 9223372036854775808

/-- Go `a + b` on `int`. -/
def add (a b : Int) : Int := wrap (a + b)

/-- Go `a - b` on `int`. -/
def sub (a b : Int) : Int := wrap (a - b)

/-- Go `a * b` on `int`. -/
def mul (a b : Int) : Int := wrap (a * b)

/-- Go `k - 1` for an `int` `k`: the only value of `k` at which the result
wraps is `math.MinInt64`, where it is `math.MaxInt64`. -/
def pred (k : Int) : Int :=
  if k = -9223372036854775808 then 9223372036854775807 else k - 1

end goint

namespace heap

variable {α : Type}

/-- Method `Swap(i, j)` shared by all heap types: `h[i], h[j] = h[j], h[i]`.
Both indices are in range at every call site; out of range the slice is left
unchanged. -/
def swap (h : List α) (i j : Nat) : List α :=
  match h[i]?, h[j]? with
  | some a, some b => (h.set i b).set j a
  | _, _ => h

/-- Method `Less(i, j)` of a heap type whose comparison on elements is `less`. -/
def lessAt (less : α → α → Bool) (h : List α) (i j : Nat) : Bool :=
  match h[i]?, h[j]? with
  | some a, some b => less a b
  | _, _ => false

/-- Function `up(h, j)` of `container/heap`:
`for { i := (j - 1) / 2; if i == j || !h.Less(j, i) { break }; h.Swap(i, j); j = i }`.
In Go `(0 - 1) / 2 = 0`, as with truncated subtraction on `Nat`. -/
def up (less : α → α → Bool) : Nat → List α → Nat → List α
  | 0, h, _ => h
  | fuel + 1, h, j =>
    let i := (j - 1) / 2
    if i = j || !lessAt less h j i then h
    else up less fuel (swap h i j) i

/-- Function `down(h, i0, n)` of `container/heap` (its boolean result is unused
by `Push` and `Pop` and is not modelled; the test `j1 < 0` for overflow is void
on natural numbers):
`j1 := 2*i + 1; if j1 >= n { break }; j := j1;
 if j2 := j1 + 1; j2 < n && h.Less(j2, j1) { j = j2 };
 if !h.Less(j, i) { break }; h.Swap(i, j); i = j`. -/
def down (less : α → α → Bool) : Nat → List α → Nat → Nat → List α
  | 0, h, _, _ => h
  | fuel + 1, h, i, n =>
    let j1 := 2 * i + 1
    if j1 ≥ n then h
    else
      let j := if j1 + 1 < n && lessAt less h (j1 + 1) j1 then j1 + 1 else j1
      if !lessAt less h j i then h
      else down less fuel (swap h i j) j n

/-- Function `heap.Init(h)`: `n := h.Len(); for i := n/2 - 1; i >= 0; i-- { down(h, i, n) }`. -/
def init (less : α → α → Bool) (h : List α) : List α :=
  (List.range (h.length / 2)).reverse.foldl
    (fun acc i => down less acc.length acc i acc.length) h

/-- Function `heap.Push(h, x)`: `h.Push(x); up(h, h.Len()-1)`, where the method
`Push` of every heap type is `*h = append(*h, x)`. -/
def push (less : α → α → Bool) (h : List α) (x : α) : List α :=
  up less (h ++ [x]).length (h ++ [x]) ((h ++ [x]).length - 1)

/-- Function `heap.Pop(h)`: `n := h.Len() - 1; h.Swap(0, n); down(h, 0, n); return h.Pop()`,
where the method `Pop` of every heap type removes and returns the last element.
On an empty heap `h.Swap(0, -1)` panics. -/
def pop (less : α → α → Bool) (h : List α) : Option (α × List α) :=
  match h with
  | [] => none
  | _ :: _ =>
    let n := h.length - 1
    let h1 := down less n (swap h 0 n) 0 n
    match h1.getLast? with
    | some x => some (x, h1.dropLast)
    | none => none

/-- One round of the insert-then-evict loop of `FindKthLargest` and
`KClosestPoints`: `heap.Push(h, x); if h.Len() > k { heap.Pop(h) }`. -/
def pushEvict (less : α → α → Bool) (k : Int) (h : List α) (x : α) : Option (List α) :=
  let h1 := push less h x
  if (h1.length : Int) > k then (pop less h1).map Prod.snd else some h1

/-- Repetition `for i := 0; i < n; i++ { heap.Pop(h) }`, returning the popped
elements in the order of extraction and the heap that is left. -/
def popN (less : α → α → Bool) : Nat → List α → Option (List α × List α)
  | 0, h => some ([], h)
  | n + 1, h =>
    match pop less h with
    | none => none
    | some (x, h1) =>
      match popN less n h1 with
      | none => none
      | some (xs, h2) => some (x :: xs, h2)

/-- Ordering key read at position `i` of a slice (`0` outside the slice). -/
def keyAt (key : α → Int) (h : List α) (i : Nat) : Int :=
  match h[i]? with
  | some a => key a
  | none => 0

/-- Heap invariant on the first `n` positions: no element has a smaller key
than its parent, the parent of position `i` being position `(i - 1) / 2`. -/
def IsHeapUpTo (key : α → Int) (h : List α) (n : Nat) : Prop :=
  ∀ i, 0 < i → i < n → keyAt key h ((i - 1) / 2) ≤ keyAt key h i

/-- Heap invariant of a whole slice. -/
def IsHeap (key : α → Int) (h : List α) : Prop := IsHeapUpTo key h h.length

end heap

namespace topk

/-- Method `MinHeap.Less`: `h[i] < h[j]`. -/
def MinHeap.less (a b : Int) : Bool := decide (a < b)

/-- State of the heap `h` when the loop of `FindKthLargest` ends:
`h := &MinHeap{}; heap.Init(h); for _, num := range nums { heap.Push(h, num); if h.Len() > k { heap.Pop(h) } }`. -/
def FindKthLargest.loop (nums : List Int) (k : Int) : Option (List Int) :=
  nums.foldlM (heap.pushEvict MinHeap.less k) (heap.init MinHeap.less [])

/-- Function `FindKthLargest(nums, k)`: the loop above, then `return (*h)[0]`. -/
def FindKthLargest (nums : List Int) (k : Int) : Option Int :=
  match FindKthLargest.loop nums k with
  | some h => h[0]?
  | none => none

/-- Struct `Pair`: a value and its number of occurrences. -/
structure Pair where
  Num : Int
  Count : Int
deriving DecidableEq, Repr

/-- Method `PairHeap.Less`: `h[i].Count > h[j].Count`. -/
def PairHeap.less (a b : Pair) : Bool := decide (a.Count > b.Count)

/-- Statement `freqMap[num]++` on a map held as a list of entries with
distinct keys: an absent key is read as `0` and stored as `1`. -/
def freqIncr : List Pair → Int → List Pair
  | [], num => [⟨num, 1⟩]
  | p :: m, num =>
    if p.Num = num then ⟨p.Num, p.Count + 1⟩ :: m else p :: freqIncr m num

/-- First loop of `TopKFrequent`: `for _, num := range nums { freqMap[num]++ }`. -/
def freqMap (nums : List Int) : List Pair := nums.foldl freqIncr []

/-- Expression `freqMap[v]` read from a map held as a list of entries: the
count of the first entry with key `v`, and `0` when there is none. -/
def freqGet (m : List Pair) (v : Int) : Int :=
  match m.find? (fun p => decide (p.Num = v)) with
  | some p => p.Count
  | none => 0

/-- Function `TopKFrequent(nums, k)`.  The order in which `range freqMap`
yields the entries is not fixed by Go; it is the argument `iter`, a
permutation of `freqMap nums`.  `make([]int, k)` panics for negative `k`, and
`heap.Pop` panics once the heap is empty. -/
def TopKFrequent (iter : List Pair) (k : Int) : Option (List Int) :=
  let h := iter.foldl (heap.push PairHeap.less) (heap.init PairHeap.less [])
  if k < 0 then none
  else
    match heap.popN PairHeap.less k.toNat h with
    | some (ps, _) => some (ps.map Pair.Num)
    | none => none

/-- Struct `Point`. -/
structure Point where
  x : Int
  y : Int
  distance : Int
deriving DecidableEq, Repr

/-- Method `PointHeap.Less`: `h[i].distance > h[j].distance`. -/
def PointHeap.less (a b : Point) : Bool := decide (a.distance > b.distance)

/-- Loop body prefix of `KClosestPoints`:
`distance := point[0]*point[0] + point[1]*point[1]; p := Point{point[0], point[1], distance}`,
each product and the sum wrapped to 64 bits. -/
def mkPoint (point : List Int) : Option Point :=
  match point[0]?, point[1]? with
  | some x, some y => some ⟨x, y, goint.add (goint.mul x x) (goint.mul y y)⟩
  | _, _ => none

/-- Body of the first loop of `KClosestPoints`: the point is built, then
`heap.Push(h, p); if h.Len() > k { heap.Pop(h) }`. -/
def KClosestPoints.body (k : Int) (h : List Point) (point : List Int) : Option (List Point) :=
  match mkPoint point with
  | some p => heap.pushEvict PointHeap.less k h p
  | none => none

/-- State of the heap when the first loop of `KClosestPoints` ends:
`h := &PointHeap{}; heap.Init(h); for _, point := range points { ... }`. -/
def KClosestPoints.loop (points : List (List Int)) (k : Int) : Option (List Point) :=
  points.foldlM (KClosestPoints.body k) (heap.init PointHeap.less [])

/-- Function `KClosestPoints(points, k)`: the loop, then
`result := make([][]int, k); for i := k - 1; i >= 0; i-- { p := heap.Pop(h); result[i] = []int{p.x, p.y} }`. -/
def KClosestPoints (points : List (List Int)) (k : Int) : Option (List (List Int)) :=
  match KClosestPoints.loop points k with
  | none => none
  | some h =>
    if k < 0 then none
    else
      match heap.popN PointHeap.less k.toNat h with
      | some (ps, _) => some (ps.reverse.map (fun p => [p.x, p.y]))
      | none => none

/-- Squared Euclidean distance `x*x + y*y` of a point `[x, y]` to the origin,
as a mathematical integer: the measure in which the claims about
`KClosestPoints` are stated. -/
def sqDist (point : List Int) : Int :=
  point.getD 0 0 * point.getD 0 0 + point.getD 1 0 * point.getD 1 0

/-- The `Point` that the loop body of `KClosestPoints` builds from a point
with two coordinates; its `distance` is the 64-bit value that the code
computes, which is `sqDist point` when that fits. -/
def toPoint (point : List Int) : Point :=
  ⟨point.getD 0 0, point.getD 1 0,
    goint.add (goint.mul (point.getD 0 0) (point.getD 0 0))
      (goint.mul (point.getD 1 0) (point.getD 1 0))⟩

/-- Struct `MatrixCell`. -/
structure MatrixCell where
  val : Int
  row : Nat
  col : Nat
deriving DecidableEq, Repr

/-- Method `MatrixHeap.Less`: `h[i].val < h[j].val`. -/
def MatrixHeap.less (a b : MatrixCell) : Bool := decide (a.val < b.val)

/-- Expression `matrix[i][j]`, `none` when an index is out of range. -/
def matrixAt (matrix : List (List Int)) (i j : Nat) : Option Int :=
  match matrix[i]? with
  | some r => r[j]?
  | none => none

/-- Body of the seeding loop of `KthSmallestInMatrix`:
`heap.Push(h, MatrixCell{matrix[i][0], i, 0})`. -/
def KthSmallestInMatrix.seedBody (matrix : List (List Int)) (h : List MatrixCell) (i : Nat) :
    Option (List MatrixCell) :=
  match matrixAt matrix i 0 with
  | some v => some (heap.push MatrixHeap.less h ⟨v, i, 0⟩)
  | none => none

/-- Seeding loop of `KthSmallestInMatrix`:
`for i := 0; i < n; i++ { heap.Push(h, MatrixCell{matrix[i][0], i, 0}) }`. -/
def KthSmallestInMatrix.seed (matrix : List (List Int)) (n : Nat) : Option (List MatrixCell) :=
  (List.range n).foldlM (KthSmallestInMatrix.seedBody matrix) (heap.init MatrixHeap.less [])

/-- Body of the merge loop of `KthSmallestInMatrix`:
`cell := heap.Pop(h); if cell.col < n-1 { heap.Push(h, MatrixCell{matrix[cell.row][cell.col+1], cell.row, cell.col + 1}) }`. -/
def KthSmallestInMatrix.step (matrix : List (List Int)) (n : Nat) (h : List MatrixCell) :
    Option (List MatrixCell) :=
  match heap.pop MatrixHeap.less h with
  | none => none
  | some (cell, h1) =>
    if cell.col < n - 1 then
      match matrixAt matrix cell.row (cell.col + 1) with
      | some v => some (heap.push MatrixHeap.less h1 ⟨v, cell.row, cell.col + 1⟩)
      | none => none
    else some h1

/-- Merge loop of `KthSmallestInMatrix` run `t` times. -/
def KthSmallestInMatrix.loop (matrix : List (List Int)) (n : Nat) :
    Nat → List MatrixCell → Option (List MatrixCell)
  | 0, h => some h
  | t + 1, h =>
    match KthSmallestInMatrix.step matrix n h with
    | none => none
    | some h1 => KthSmallestInMatrix.loop matrix n t h1

/-- Function `KthSmallestInMatrix(matrix, k)`: the guard
`len(matrix) == 0 || len(matrix[0]) == 0` returns `0`; otherwise the heap is
seeded, the merge loop runs for `i := 0; i < k-1; i++` (with `k - 1` as Go
computes it), and the value of `heap.Pop(h)` is returned. -/
def KthSmallestInMatrix (matrix : List (List Int)) (k : Int) : Option Int :=
  match matrix with
  | [] => some 0
  | [] :: _ => some 0
  | (_ :: _) :: _ =>
    let n := matrix.length
    match KthSmallestInMatrix.seed matrix n with
    | none => none
    | some h0 =>
      match KthSmallestInMatrix.loop matrix n (goint.pred k).toNat h0 with
      | none => none
      | some h =>
        match heap.pop MatrixHeap.less h with
        | some (cell, _) => some cell.val
        | none => none

/-- Entries of the row of cursor `c` that are still to be merged: the first
`n` entries of row `c.row`, from column `c.col` on. -/
def KthSmallestInMatrix.tailOf (matrix : List (List Int)) (n : Nat) (c : MatrixCell) : List Int :=
  ((matrix.getD c.row []).take n).drop c.col

/-- Entries still to be merged when the heap of cursors is `h`. -/
def KthSmallestInMatrix.rem (matrix : List (List Int)) (n : Nat) (h : List MatrixCell) :
    List Int :=
  h.flatMap (KthSmallestInMatrix.tailOf matrix n)

/-- Invariant of the merge loop of `KthSmallestInMatrix`, `E` being the values
extracted so far: `h` is a heap on `val`, every cursor points at the entry it
carries, the extracted values and the entries still to be merged make up the
first `n` columns of the matrix, and no extracted value exceeds an entry that
is still to be merged. -/
def KthSmallestInMatrix.Inv (matrix : List (List Int)) (n : Nat) (h : List MatrixCell)
    (E : List Int) : Prop :=
  heap.IsHeap MatrixCell.val h ∧
  (∀ c ∈ h, c.col < n ∧ matrixAt matrix c.row c.col = some c.val) ∧
  (E ++ KthSmallestInMatrix.rem matrix n h).Perm ((matrix.map (List.take n)).flatten) ∧
  ∀ e ∈ E, ∀ x ∈ KthSmallestInMatrix.rem matrix n h, e ≤ x

/-- Number of entries that the cursors of `h` still have in front of them in
rows of `m` entries: a cursor at column `col` counts for `m - col`. -/
def KthSmallestInMatrix.pot (m : Nat) (h : List MatrixCell) : Nat :=
  (h.map (fun c => m - c.col)).sum

end topk

namespace monotonicstack

/-- Struct `StockSpanner`. -/
structure StockSpanner where
  prices : List Int
  spans : List Int
deriving DecidableEq, Repr

/-- Function `NewStockSpanner()`. -/
def NewStockSpanner : StockSpanner := ⟨[], []⟩

/-- Loop of `Next`:
`for len(ss.prices) > 0 && price >= ss.prices[len(ss.prices)-1] { span += ss.spans[len(ss.spans)-1]; ss.prices = ss.prices[:len(ss.prices)-1]; ss.spans = ss.spans[:len(ss.spans)-1] }`.
Reading `ss.spans` when it is empty panics; running out of fuel is `none` too. -/
def StockSpanner.nextLoop : Nat → Int → StockSpanner → Int → Option (StockSpanner × Int)
  | 0, _, _, _ => none
  | fuel + 1, price, ss, span =>
    match ss.prices.getLast? with
    | none => some (ss, span)
    | some top =>
      if price ≥ top then
        match ss.spans.getLast? with
        | none => none
        | some s =>
          StockSpanner.nextLoop fuel price ⟨ss.prices.dropLast, ss.spans.dropLast⟩ (span + s)
      else some (ss, span)

/-- Method `(ss *StockSpanner) Next(price)`: `span := 1`, the loop, then
`ss.prices = append(ss.prices, price); ss.spans = append(ss.spans, span); return span`.
The result is the new state and the returned span. -/
def StockSpanner.Next (ss : StockSpanner) (price : Int) : Option (StockSpanner × Int) :=
  match StockSpanner.nextLoop (ss.prices.length + 1) price ss 1 with
  | none => none
  | some (s1, span) => some (⟨s1.prices ++ [price], s1.spans ++ [span]⟩, span)

/-- A session: `Next` is called on the prices one by one, as in
`TestStockSpanner`; the result is the final state and the returned spans in
order. -/
def StockSpanner.feed : StockSpanner → List Int → Option (StockSpanner × List Int)
  | ss, [] => some (ss, [])
  | ss, p :: ps =>
    match ss.Next p with
    | none => none
    | some (s1, r) =>
      match StockSpanner.feed s1 ps with
      | none => none
      | some (s2, rs) => some (s2, r :: rs)

/-- Concatenation of the runs of a block decomposition: block `(v, t)` is the
run `v :: t`. -/
def StockSpanner.flat (blocks : List (Int × List Int)) : List Int :=
  blocks.flatMap (fun b => b.1 :: b.2)

/-- Representation invariant relating the two stacks to the prices observed so
far.  The observed prices, most recent first, are `flat blocks`; the stack
entry at depth `d` from the top is the first price `v` of block `d`, its span
is the length of the block, and no price of a block exceeds the first one. -/
def StockSpanner.Inv (blocks : List (Int × List Int)) (ss : StockSpanner) : Prop :=
  ss.prices = (blocks.map Prod.fst).reverse ∧
  ss.spans = (blocks.map (fun b => (b.2.length : Int) + 1)).reverse ∧
  ∀ b ∈ blocks, ∀ x ∈ b.2, x ≤ b.1

/-- Inner loop of `NextGreaterElement` at position `idx`:
`for len(stack) > 0 && nums[idx] > nums[stack[len(stack)-1]] { result[stack[len(stack)-1]] = nums[idx]; stack = stack[:len(stack)-1] }`.
The index written to was read from `nums` just before, and `result` is as long
as `nums`. -/
def NextGreaterElement.popLoop (nums : List Int) (idx : Nat) :
    Nat → List Nat → List Int → Option (List Nat × List Int)
  | 0, _, _ => none
  | fuel + 1, stack, result =>
    match stack.getLast? with
    | none => some (stack, result)
    | some top =>
      match nums[idx]?, nums[top]? with
      | some a, some b =>
        if a > b then NextGreaterElement.popLoop nums idx fuel stack.dropLast (result.set top a)
        else some (stack, result)
      | _, _ => none

/-- Body of the loop `for i := 0; i < n*2; i++` of `NextGreaterElement`:
`idx := i % n`, the inner loop, then `if i < n { stack = append(stack, idx) }`. -/
def NextGreaterElement.body (nums : List Int) (st : List Nat × List Int) (i : Nat) :
    Option (List Nat × List Int) :=
  match NextGreaterElement.popLoop nums (i % nums.length) (st.1.length + 1) st.1 st.2 with
  | none => none
  | some (stack, result) =>
    some (if i < nums.length then stack ++ [i % nums.length] else stack, result)

/-- Function `NextGreaterElement(nums)`: `result` starts as `n` times `-1`, the
stack of indices starts empty, and `i` runs over `0 .. 2n-1`. -/
def NextGreaterElement (nums : List Int) : Option (List Int) :=
  ((List.range (nums.length * 2)).foldlM (NextGreaterElement.body nums)
    ([], List.replicate nums.length (-1))).map Prod.snd

/-- Inner loop of `DailyTemperatures` on day `i`:
`for len(stack) > 0 && temperatures[i] > temperatures[stack[len(stack)-1]] { prevDay := stack[len(stack)-1]; stack = stack[:len(stack)-1]; result[prevDay] = i - prevDay }`. -/
def DailyTemperatures.popLoop (temperatures : List Int) (i : Nat) :
    Nat → List Nat → List Int → Option (List Nat × List Int)
  | 0, _, _ => none
  | fuel + 1, stack, result =>
    match stack.getLast? with
    | none => some (stack, result)
    | some top =>
      match temperatures[i]?, temperatures[top]? with
      | some a, some b =>
        if a > b then
          DailyTemperatures.popLoop temperatures i fuel stack.dropLast
            (result.set top ((i : Int) - (top : Int)))
        else some (stack, result)
      | _, _ => none

/-- Body of the loop `for i := 0; i < n; i++` of `DailyTemperatures`: the inner
loop, then `stack = append(stack, i)`. -/
def DailyTemperatures.body (temperatures : List Int) (st : List Nat × List Int) (i : Nat) :
    Option (List Nat × List Int) :=
  match DailyTemperatures.popLoop temperatures i (st.1.length + 1) st.1 st.2 with
  | none => none
  | some (stack, result) => some (stack ++ [i], result)

/-- Function `DailyTemperatures(temperatures)`: `result` starts as `n` zeros. -/
def DailyTemperatures (temperatures : List Int) : Option (List Int) :=
  ((List.range temperatures.length).foldlM (DailyTemperatures.body temperatures)
    ([], List.replicate temperatures.length 0)).map Prod.snd

/-- Inner loop of `LargestRectangleArea` at position `i`, on the heights with
the final `0` appended:
`for len(stack) > 0 && heights[i] < heights[stack[len(stack)-1]] { height := heights[stack[len(stack)-1]]; stack = stack[:len(stack)-1]; width := i; if len(stack) > 0 { width = i - stack[len(stack)-1] - 1 }; area := height * width; if area > maxArea { maxArea = area } }`.
The product `height * width` is wrapped to 64 bits; `width` is a difference of
positions. -/
def LargestRectangleArea.popLoop (heights : List Int) (i : Nat) :
    Nat → List Nat → Int → Option (List Nat × Int)
  | 0, _, _ => none
  | fuel + 1, stack, maxArea =>
    match stack.getLast? with
    | none => some (stack, maxArea)
    | some top =>
      match heights[i]?, heights[top]? with
      | some a, some height =>
        if a < height then
          let width : Int :=
            match stack.dropLast.getLast? with
            | some below => (i : Int) - (below : Int) - 1
            | none => (i : Int)
          let area := goint.mul height width
          LargestRectangleArea.popLoop heights i fuel stack.dropLast
            (if area > maxArea then area else maxArea)
        else some (stack, maxArea)
      | _, _ => none

/-- Body of the loop `for i := 0; i <= n; i++` of `LargestRectangleArea`: the
inner loop, then `stack = append(stack, i)`. -/
def LargestRectangleArea.body (heights : List Int) (st : List Nat × Int) (i : Nat) :
    Option (List Nat × Int) :=
  match LargestRectangleArea.popLoop heights i (st.1.length + 1) st.1 st.2 with
  | none => none
  | some (stack, maxArea) => some (stack ++ [i], maxArea)

/-- Function `LargestRectangleArea(heights)`: `0` for the empty slice; otherwise
`heights = append(heights, 0)` and `i` runs over `0 .. n`. -/
def LargestRectangleArea (heights : List Int) : Option Int :=
  if heights.length = 0 then some 0
  else
    ((List.range (heights.length + 1)).foldlM (LargestRectangleArea.body (heights ++ [0]))
      ([], 0)).map Prod.snd

/-- Invariant of `DailyTemperatures` while the days before `t` have been
pushed: the stack holds increasing days before `t`; a day on the stack has
result `0` and no warmer day before `t`; a day before `t` that left the stack
has its first warmer day `j < u` and result `j - p`; later days have result
`0`. -/
def DailyTemperatures.Inv (temperatures : List Int) (stack : List Nat) (result : List Int)
    (t u : Nat) : Prop :=
  result.length = temperatures.length ∧
  stack.Pairwise (fun a b => a < b) ∧
  (∀ s ∈ stack, s < t) ∧
  (∀ p, p ∈ stack → result.getD p 0 = 0 ∧
    ∀ j, p < j → j < t → temperatures.getD j 0 ≤ temperatures.getD p 0) ∧
  (∀ p, p < t → p ∉ stack → ∃ j, p < j ∧ j < u ∧
    temperatures.getD p 0 < temperatures.getD j 0 ∧
    (∀ j2, p < j2 → j2 < j → temperatures.getD j2 0 ≤ temperatures.getD p 0) ∧
    result.getD p 0 = (j : Int) - (p : Int)) ∧
  (∀ p, t ≤ p → result.getD p 0 = 0)

/-- Ranges accounted for by the bar `p` of the histogram `H`: every range
`[a, b]` in which `p` is the leftmost lowest bar has area at most `M`. -/
def LargestRectangleArea.Covered (H : List Int) (p : Nat) (M : Int) : Prop :=
  ∀ a b : Nat, a ≤ p → p ≤ b →
    (∀ x, a ≤ x → x ≤ b → H.getD p 0 ≤ H.getD x 0) →
    (∀ x, a ≤ x → x < p → H.getD p 0 < H.getD x 0) →
    ((b : Int) - (a : Int) + 1) * H.getD p 0 ≤ M

/-- Invariant of `LargestRectangleArea` on the extended histogram `H` while the
bars before `t` have been pushed: the stack holds increasing positions before
`t`; no bar between a stack entry and `t` is lower than the entry; no bar
between a stack entry and the entry below it is lower than the entry; every bar
before `t` that left the stack is accounted for by `maxArea`; `maxArea` is `0`
or the area of a range of the histogram. -/
def LargestRectangleArea.Inv (H : List Int) (stack : List Nat) (maxArea : Int) (t : Nat) :
    Prop :=
  stack.Pairwise (fun a b => a < b) ∧
  (∀ s ∈ stack, s < t) ∧
  (∀ p ∈ stack, ∀ x, p < x → x < t → H.getD p 0 ≤ H.getD x 0) ∧
  (∀ p ∈ stack, ∀ x, x < p → (∀ s ∈ stack, s < p → s < x) → H.getD p 0 ≤ H.getD x 0) ∧
  (∀ p, p < t → p ∉ stack → LargestRectangleArea.Covered H p maxArea) ∧
  0 ≤ maxArea ∧
  (maxArea = 0 ∨ ∃ a b p : Nat, a ≤ p ∧ p ≤ b ∧ b + 1 < H.length ∧
    (∀ x, a ≤ x → x ≤ b → H.getD p 0 ≤ H.getD x 0) ∧
    maxArea = ((b : Int) - (a : Int) + 1) * H.getD p 0)

end monotonicstack

namespace slice

/-- Expression `s[i]` for a slice of `int` and an `int` index: `none` (a panic)
when `i` is negative or not below the length. -/
def index (s : List Int) (i : Int) : Option Int :=
  if i < 0 then none else s[i.toNat]?

end slice

namespace prefixsum

/-- Lookup `m[key]` with the comma-ok form, on a map held as a list of entries
with distinct keys: `none` when the key is absent. -/
def mapGet : List (Int × Int) → Int → Option Int
  | [], _ => none
  | (k, v) :: m, key => if k = key then some v else mapGet m key

/-- Statement `m[key]++` on a map held as a list of entries: an absent key is
read as `0` and stored as `1`. -/
def mapIncr : List (Int × Int) → Int → List (Int × Int)
  | [], key => [(key, 1)]
  | (k, v) :: m, key => if k = key then (k, v + 1) :: m else (k, v) :: mapIncr m key

/-- State of the loop of `SubarraySum`. -/
structure SubarraySum.State where
  count : Int
  sum : Int
  sumCount : List (Int × Int)

/-- Body of the loop of `SubarraySum`:
`sum += num; if prevCount, exists := sumCount[sum-k]; exists { count += prevCount }; sumCount[sum]++`.
The running sum, the key `sum-k` and the count are wrapped to 64 bits; an entry
of `sumCount` counts positions of the slice. -/
def SubarraySum.body (k : Int) (st : SubarraySum.State) (num : Int) : SubarraySum.State :=
  let sum := goint.add st.sum num
  let count :=
    match mapGet st.sumCount (goint.sub sum k) with
    | some prevCount => goint.add st.count prevCount
    | none => st.count
  ⟨count, sum, mapIncr st.sumCount sum⟩

/-- Function `SubarraySum(nums, k)`: `count := 0; sum := 0; sumCount := map[int]int{0: 1}`,
the loop over `nums`, then `return count`. -/
def SubarraySum (nums : List Int) (k : Int) : Int :=
  (nums.foldl (SubarraySum.body k) ⟨0, 0, [(0, 1)]⟩).count

/-- Number of index pairs `(i, j)` with `0 ≤ i ≤ j < len(nums)` whose subarray
`nums[i] + ... + nums[j]` sums to `k`, counted position by position of `j`: the
reference value for `SubarraySum`. -/
def subarrayCount (nums : List Int) (k : Int) : Nat :=
  ((List.range nums.length).map (fun j =>
    ((List.range (j + 1)).filter
      (fun i => decide (((nums.take (j + 1)).drop i).sum = k))).length)).sum

end prefixsum

namespace twopointers

/-- Loop of `TwoSum`:
`for left < right { currentSum := numbers[left] + numbers[right]; if currentSum == target { return []int{left + 1, right + 1} }; if currentSum < target { left++ } else { right-- } }; return []int{}`.
The sum `currentSum` is wrapped to 64 bits. -/
def TwoSum.loop (numbers : List Int) (target : Int) : Nat → Int → Int → Option (List Int)
  | 0, _, _ => none
  | fuel + 1, left, right =>
    if left < right then
      match slice.index numbers left, slice.index numbers right with
      | some a, some b =>
        if goint.add a b = target then some [left + 1, right + 1]
        else if goint.add a b < target then TwoSum.loop numbers target fuel (left + 1) right
        else TwoSum.loop numbers target fuel left (right - 1)
      | _, _ => none
    else some []

/-- Function `TwoSum(numbers, target)`: `left, right := 0, len(numbers)-1`, then
the loop. -/
def TwoSum (numbers : List Int) (target : Int) : Option (List Int) :=
  TwoSum.loop numbers target (numbers.length + 1) 0 ((numbers.length : Int) - 1)

/-- Function `min(a, b)` of the package: `if a < b { return a }; return b`. -/
def min (a b : Int) : Int := if a < b then a else b

/-- Function `max(a, b)` of the package: `if a > b { return a }; return b`. -/
def max (a b : Int) : Int := if a > b then a else b

/-- Loop of `ContainerWithMostWater`:
`for left < right { width := right - left; h := min(height[left], height[right]); area := width * h; maxArea = max(maxArea, area); if height[left] < height[right] { left++ } else { right-- } }; return maxArea`.
The product `width * h` is wrapped to 64 bits. -/
def ContainerWithMostWater.loop (height : List Int) : Nat → Int → Int → Int → Option Int
  | 0, _, _, _ => none
  | fuel + 1, maxArea, left, right =>
    if left < right then
      match slice.index height left, slice.index height right with
      | some a, some b =>
        let area := goint.mul (right - left) (min a b)
        if a < b then ContainerWithMostWater.loop height fuel (max maxArea area) (left + 1) right
        else ContainerWithMostWater.loop height fuel (max maxArea area) left (right - 1)
      | _, _ => none
    else some maxArea

/-- Function `ContainerWithMostWater(height)`: `maxArea := 0; left, right := 0, len(height)-1`,
then the loop. -/
def ContainerWithMostWater (height : List Int) : Option Int :=
  ContainerWithMostWater.loop height (height.length + 1) 0 0 ((height.length : Int) - 1)

end twopointers

namespace binarysearch

/-- Loop of `Search`:
`for left <= right { mid := left + (right-left)/2; if nums[mid] == target { return mid }; if nums[mid] < target { left = mid + 1 } else { right = mid - 1 } }; return -1`.
The dividend `right-left` is not negative inside the loop, where the truncated
division of Go and `/` agree. -/
def Search.loop (nums : List Int) (target : Int) : Nat → Int → Int → Option Int
  | 0, _, _ => none
  | fuel + 1, left, right =>
    if left ≤ right then
      match slice.index nums (left + (right - left) / 2) with
      | some v =>
        if v = target then some (left + (right - left) / 2)
        else if v < target then Search.loop nums target fuel (left + (right - left) / 2 + 1) right
        else Search.loop nums target fuel left (left + (right - left) / 2 - 1)
      | none => none
    else some (-1)

/-- Function `Search(nums, target)`: `left, right := 0, len(nums)-1`, then the
loop. -/
def Search (nums : List Int) (target : Int) : Option Int :=
  Search.loop nums target (nums.length + 1) 0 ((nums.length : Int) - 1)

end binarysearch

namespace intervals

/-- Loop `for i := 1; i < len(intervals); i++` of `MergeIntervals` over the
rest of the sorted slice:
`if current[1] >= intervals[i][0] { if intervals[i][1] > current[1] { current[1] = intervals[i][1] } } else { merged = append(merged, current); current = intervals[i] }`,
and after the loop `merged = append(merged, current)`. -/
def MergeIntervals.loop : List (List Int) → List (List Int) → List Int → Option (List (List Int))
  | [], merged, current => some (merged ++ [current])
  | iv :: rest, merged, current =>
    match current[1]?, iv[0]? with
    | some ce, some s =>
      if ce ≥ s then
        match iv[1]? with
        | some e =>
          if e > ce then MergeIntervals.loop rest merged (current.set 1 e)
          else MergeIntervals.loop rest merged current
        | none => none
      else MergeIntervals.loop rest (merged ++ [current]) iv
    | _, _ => none

/-- Function `MergeIntervals(intervals)`.  `sort.Slice` orders the slice by
`intervals[i][0] < intervals[j][0]`; it is not stable, so which ordered
permutation it leaves is not fixed: that slice is the argument `sorted`.  The
comparison panics on an interval without elements. -/
def MergeIntervals (intervals sorted : List (List Int)) : Option (List (List Int)) :=
  if intervals.length ≤ 1 then some intervals
  else if intervals.any (fun iv => iv.isEmpty) then none
  else
    match sorted with
    | [] => none
    | first :: rest => MergeIntervals.loop rest [] first

end intervals

namespace backtracking

/-- Function `permuteHelper(nums, start, result)`; the slice `nums` is modified
in place and `result` is appended to, so both are returned.
`if start == len(nums) { *result = append(*result, copy of nums); return }`
`for i := start; i < len(nums); i++ { nums[start], nums[i] = nums[i], nums[start]; permuteHelper(nums, start+1, result); nums[start], nums[i] = nums[i], nums[start] }`.
The fuel bounds the depth of the recursion. -/
def permuteHelper : Nat → List Int → Nat → List (List Int) → Option (List Int × List (List Int))
  | fuel, nums, start, result =>
    if start = nums.length then some (nums, result ++ [nums])
    else
      match fuel with
      | 0 => none
      | fuel + 1 =>
        (List.range' start (nums.length - start)).foldlM
          (fun (st : List Int × List (List Int)) i =>
            match permuteHelper fuel (heap.swap st.1 start i) (start + 1) st.2 with
            | none => none
            | some (nums1, result1) => some (heap.swap nums1 start i, result1))
          (nums, result)

/-- Function `Permutations(nums)`: `result := make([][]int, 0); permuteHelper(nums, 0, &result); return result`. -/
def Permutations (nums : List Int) : Option (List (List Int)) :=
  (permuteHelper nums.length nums 0 []).map Prod.snd

end backtracking

namespace topk

/-- Cells that the first `t` iterations of the merge loop of
`KthSmallestInMatrix` take off the heap `h`, in the order of extraction: each
iteration starts with `cell := heap.Pop(h)` and goes on as
`KthSmallestInMatrix.step`. -/
def KthSmallestInMatrix.extracted (matrix : List (List Int)) (n : Nat) :
    Nat → List MatrixCell → Option (List MatrixCell)
  | 0, _ => some []
  | t + 1, h =>
    match heap.pop MatrixHeap.less h, KthSmallestInMatrix.step matrix n h with
    | some (cell, _), some h1 =>
      match KthSmallestInMatrix.extracted matrix n t h1 with
      | some cells => some (cell :: cells)
      | none => none
    | _, _ => none

/-- Cursor invariant of the merge loop of `KthSmallestInMatrix` on the first
`n` columns of `n` rows, `P` being the cells extracted so far: the cursors of
`h` are in different rows, every cursor is inside the `n × n` block and carries
the entry it points at, and every position of the block has been extracted or
is at or after the cursor of its row. -/
def KthSmallestInMatrix.Cursors (matrix : List (List Int)) (n : Nat) (h P : List MatrixCell) :
    Prop :=
  (h.map MatrixCell.row).Nodup ∧
  (∀ c ∈ h, c.row < n ∧ c.col < n ∧ matrixAt matrix c.row c.col = some c.val) ∧
  ∀ r j, r < n → j < n →
    (∃ p ∈ P, p.row = r ∧ p.col = j) ∨ (∃ c ∈ h, c.row = r ∧ c.col ≤ j)

end topk

namespace monotonicstack

/-- Number of times the body of the loop of `Next` runs (one pop of both stacks
each time) when `Next(price)` is called in state `ss`; it follows the loop
`StockSpanner.nextLoop` test by test. -/
def StockSpanner.popCount : Nat → Int → StockSpanner → Nat
  | 0, _, _ => 0
  | fuel + 1, price, ss =>
    match ss.prices.getLast? with
    | none => 0
    | some top =>
      if price ≥ top then
        match ss.spans.getLast? with
        | none => 0
        | some _ =>
          1 + StockSpanner.popCount fuel price ⟨ss.prices.dropLast, ss.spans.dropLast⟩
      else 0

/-- Total number of pops in a session that calls `Next` on the prices one by
one, starting in state `ss`. -/
def StockSpanner.sessionPops : StockSpanner → List Int → Nat
  | _, [] => 0
  | ss, p :: ps =>
    StockSpanner.popCount (ss.prices.length + 1) p ss +
      match ss.Next p with
      | some (s1, _) => StockSpanner.sessionPops s1 ps
      | none => 0

end monotonicstack

namespace dp

/-- Function `max` of package `dp`: `if a > b { return a }; return b`. -/
def max (a b : Int) : Int := if a > b then a else b

/-- Lookup `val, exists := memo[key]` in the memo table of `knapsackHelper`.
The Go key is the string `fmt.Sprintf("%d,%d", index, capacity)`, which
determines the pair `(index, capacity)`; the table is a list of bindings, the
most recent first. -/
def memoGet : List ((Int × Int) × Int) → Int × Int → Option Int
  | [], _ => none
  | (k, v) :: m, key => if k = key then some v else memoGet m key

/-- Assignment `memo[key] = result`. -/
def memoSet (memo : List ((Int × Int) × Int)) (key : Int × Int) (result : Int) :
    List ((Int × Int) × Int) :=
  (key, result) :: memo

/-- Function `knapsackHelper(weights, values, capacity, index, memo)`; the memo
table is passed in and returned.
`if index < 0 || capacity <= 0 { return 0 }`;
`if val, exists := memo[key]; exists { return val }`;
`result := knapsackHelper(weights, values, capacity, index-1, memo)`;
`if weights[index] <= capacity { include := values[index] + knapsackHelper(weights, values, capacity-weights[index], index-1, memo); result = max(result, include) }`;
`memo[key] = result; return result`.
The sum and the difference of values are wrapped to 64 bits.  The recursion
lowers `index` by one at each call; the fuel bounds its depth. -/
def knapsackHelper (weights values : List Int) :
    Nat → Int → Int → List ((Int × Int) × Int) → Option (Int × List ((Int × Int) × Int))
  | fuel, capacity, index, memo =>
    if index < 0 ∨ capacity ≤ 0 then some (0, memo)
    else
      match memoGet memo (index, capacity) with
      | some val => some (val, memo)
      | none =>
        match fuel with
        | 0 => none
        | fuel + 1 =>
          match knapsackHelper weights values fuel capacity (index - 1) memo with
          | none => none
          | some (result, memo1) =>
            match slice.index weights index with
            | none => none
            | some w =>
              if w ≤ capacity then
                match slice.index values index with
                | none => none
                | some v =>
                  match knapsackHelper weights values fuel (goint.sub capacity w) (index - 1)
                      memo1 with
                  | none => none
                  | some (r, memo2) =>
                    some (max result (goint.add v r),
                      memoSet memo2 (index, capacity) (max result (goint.add v r)))
              else some (result, memoSet memo1 (index, capacity) result)

/-- Function `KnapsackTopDown(weights, values, capacity)`:
`memo := make(map[string]int); return knapsackHelper(weights, values, capacity, len(weights)-1, memo)`. -/
def KnapsackTopDown (weights values : List Int) (capacity : Int) : Option Int :=
  (knapsackHelper weights values weights.length capacity ((weights.length : Int) - 1) []).map
    Prod.fst

/-- Entry `dp[i][w]` as the inner loop of `KnapsackBottomUp` computes it from the
row `prev = dp[i-1]`:
`if weights[i-1] <= w { dp[i][w] = max(values[i-1]+dp[i-1][w-weights[i-1]], dp[i-1][w]) } else { dp[i][w] = dp[i-1][w] }`. -/
def KnapsackBottomUp.cell (weights values : List Int) (prev : List Int) (i : Nat) (w : Nat) :
    Option Int :=
  match weights[i - 1]? with
  | none => none
  | some wt =>
    if wt ≤ (w : Int) then
      match values[i - 1]?, slice.index prev (goint.sub (w : Int) wt), prev[w]? with
      | some v, some a, some b => some (max (goint.add v a) b)
      | _, _, _ => none
    else prev[w]?

/-- Row `dp[i]` after the inner loop `for w := 0; w <= capacity; w++`, from the
row `prev = dp[i-1]`; every entry of the row is assigned, and only row `i-1` is
read. -/
def KnapsackBottomUp.row (weights values : List Int) (capacity : Int) (prev : List Int)
    (i : Nat) : Option (List Int) :=
  (List.range (goint.add capacity 1).toNat).mapM (KnapsackBottomUp.cell weights values prev i)

/-- Function `KnapsackBottomUp(weights, values, capacity)`: the rows of `dp` are
`make([]int, capacity+1)` (a panic when `capacity + 1 < 0`), row `0` stays
zero, the rows `1 .. n` are filled in order, and `dp[n][capacity]` is returned. -/
def KnapsackBottomUp (weights values : List Int) (capacity : Int) : Option Int :=
  if goint.add capacity 1 < 0 then none
  else
    match (List.range' 1 weights.length).foldlM
        (KnapsackBottomUp.row weights values capacity)
        (List.replicate (goint.add capacity 1).toNat 0) with
    | none => none
    | some last => slice.index last capacity

/-- Reference value for the knapsack functions: the largest total value of a
selection of items (a sublist of the weight-value pairs) whose total weight is
at most `capacity`; the empty selection gives `0`. -/
def knapsackBest (weights values : List Int) (capacity : Int) : Int :=
  (((weights.zip values).sublists.filter
    (fun s => decide ((s.map Prod.fst).sum ≤ capacity))).map
      (fun s => (s.map Prod.snd).sum)).foldl Max.max 0

end dp


/-! ## Part 2: theorems

### Arithmetic on `int` that stays within 64 bits -/

namespace goint

theorem wrap_of_fits (x : Int) (h1 : -9223372036854775808 ≤ x)
    (h2 : x ≤ 9223372036854775807) : wrap x = x := by
  unfold wrap
  omega

theorem add_of_fits (a b : Int) (h1 : -9223372036854775808 ≤ a + b)
    (h2 : a + b ≤ 9223372036854775807) : add a b = a + b :=
  wrap_of_fits _ h1 h2

theorem sub_of_fits (a b : Int) (h1 : -9223372036854775808 ≤ a - b)
    (h2 : a - b ≤ 9223372036854775807) : sub a b = a - b :=
  wrap_of_fits _ h1 h2

theorem mul_of_fits (a b : Int) (h1 : -9223372036854775808 ≤ a * b)
    (h2 : a * b ≤ 9223372036854775807) : mul a b = a * b :=
  wrap_of_fits _ h1 h2

theorem pred_of_ne (k : Int) (h : k ≠ -9223372036854775808) : pred k = k - 1 := by
  unfold pred
  rw [if_neg h]

end goint

/-! ### The heap of `container/heap` -/

namespace heap
variable {α : Type}

theorem swap_length (h : List α) (i j : Nat) : (swap h i j).length = h.length := by
  unfold swap
  split <;> simp

theorem swap_getElem? (h : List α) (i j k : Nat) (hi : i < h.length) (hj : j < h.length) :
    (swap h i j)[k]? = if k = j then h[i]? else if k = i then h[j]? else h[k]? := by
  unfold swap
  simp only [List.getElem?_eq_getElem hi, List.getElem?_eq_getElem hj]
  simp only [List.getElem?_set, List.length_set]
  by_cases h1 : j = k
  · subst h1; simp [hj]
  · by_cases h2 : i = k
    · subst h2; simp [h1, hi, hj, Ne.symm h1]
    · simp [h1, h2, Ne.symm h1, Ne.symm h2]

theorem swap_perm (h : List α) (i j : Nat) : (swap h i j).Perm h := by
  classical
  unfold swap
  split
  · rename_i a b ha hb
    obtain ⟨hi, rfl⟩ := List.getElem?_eq_some.1 ha
    obtain ⟨hj, rfl⟩ := List.getElem?_eq_some.1 hb
    rw [List.perm_iff_count]
    intro c
    rw [List.count_set _ _ _ _ (by simpa using hj), List.count_set _ _ _ _ hi]
    have hj2 : j < (h.set i h[j]).length := by simpa using hj
    have e1 : (h.set i h[j])[j] = h[j] := by
      rw [List.getElem_set]; simp
    rw [e1]
    have c1 : (if h[i] == c then 1 else 0) ≤ h.count c := by
      split
      · rename_i hc
        have : c ∈ h := by
          have := List.getElem_mem hi
          simp at hc; rw [← hc]; exact this
        exact List.count_pos_iff.2 this
      · omega
    have c2 : (if h[j] == c then 1 else 0) ≤ h.count c := by
      split
      · rename_i hc
        have : c ∈ h := by
          have := List.getElem_mem hj
          simp at hc; rw [← hc]; exact this
        exact List.count_pos_iff.2 this
      · omega
    omega
  · exact List.Perm.refl _


theorem keyAt_swap (key : α → Int) (h : List α) (i j k : Nat) (hi : i < h.length)
    (hj : j < h.length) :
    keyAt key (swap h i j) k =
      if k = j then keyAt key h i else if k = i then keyAt key h j else keyAt key h k := by
  unfold keyAt
  rw [swap_getElem? h i j k hi hj]
  split_ifs <;> rfl

theorem lessAt_iff (key : α → Int) (less : α → α → Bool)
    (hk : ∀ a b, less a b = true ↔ key a < key b) (h : List α) (i j : Nat)
    (hi : i < h.length) (hj : j < h.length) :
    lessAt less h i j = true ↔ keyAt key h i < keyAt key h j := by
  unfold lessAt keyAt
  simp only [List.getElem?_eq_getElem hi, List.getElem?_eq_getElem hj]
  exact hk _ _

theorem up_length (less : α → α → Bool) :
    ∀ (fuel : Nat) (h : List α) (j : Nat), (up less fuel h j).length = h.length := by
  intro fuel
  induction fuel with
  | zero => intro h j; rfl
  | succ fuel ih =>
    intro h j
    unfold up
    simp only
    split_ifs
    · rfl
    · rw [ih, swap_length]

theorem up_perm (less : α → α → Bool) :
    ∀ (fuel : Nat) (h : List α) (j : Nat), (up less fuel h j).Perm h := by
  intro fuel
  induction fuel with
  | zero => intro h j; exact List.Perm.refl _
  | succ fuel ih =>
    intro h j
    unfold up
    simp only
    split_ifs
    · exact List.Perm.refl _
    · exact (ih _ _).trans (swap_perm _ _ _)

theorem up_heap (key : α → Int) (less : α → α → Bool)
    (hk : ∀ a b, less a b = true ↔ key a < key b) :
    ∀ (fuel : Nat) (h : List α) (j : Nat), j < fuel → j < h.length →
      (∀ i, 0 < i → i < h.length → i ≠ j → keyAt key h ((i - 1) / 2) ≤ keyAt key h i) →
      (∀ i, 0 < i → i < h.length → (i - 1) / 2 = j → 0 < j →
        keyAt key h ((j - 1) / 2) ≤ keyAt key h i) →
      IsHeap key (up less fuel h j) := by
  intro fuel
  induction fuel with
  | zero => intro h j hf; omega
  | succ fuel ih =>
    intro h j hf hj H1 H2
    unfold up
    simp only
    have hp : (j - 1) / 2 < h.length := by omega
    split_ifs with hc
    · intro i hi0 hil
      by_cases hij : i = j
      · subst hij
        rcases Bool.or_eq_true _ _ ▸ hc with h1 | h1
        · simp at h1; omega
        · have := lessAt_iff key less hk h i ((i - 1) / 2) hj hp
          simp at h1
          have h2 : ¬ (keyAt key h i < keyAt key h ((i - 1) / 2)) := by
            rw [← this]; simp [h1]
          omega
      · exact H1 i hi0 hil hij
    · simp only [Bool.or_eq_true, decide_eq_true_eq, Bool.not_eq_true', not_or,
        Bool.not_eq_false] at hc
      obtain ⟨hne, hlt⟩ := hc
      have hlt' := (lessAt_iff key less hk h j ((j - 1) / 2) hj hp).1 hlt
      have hj0 : 0 < j := by omega
      have hpj : (j - 1) / 2 < j := by omega
      apply ih
      · omega
      · rw [swap_length]; exact hp
      · intro i hi0 hil hip
        rw [swap_length] at hil
        rw [keyAt_swap key h _ _ _ hp hj, keyAt_swap key h _ _ _ hp hj]
        by_cases e1 : i = j
        · subst e1
          rw [if_neg (by omega), if_pos rfl, if_pos rfl]
          omega
        · rw [if_neg e1, if_neg hip]
          by_cases e2 : (i - 1) / 2 = j
          · rw [if_pos e2]
            exact H2 i hi0 hil e2 hj0
          · rw [if_neg e2]
            by_cases e3 : (i - 1) / 2 = (j - 1) / 2
            · rw [if_pos e3]
              have := H1 i hi0 hil e1
              rw [e3] at this
              omega
            · rw [if_neg e3]
              exact H1 i hi0 hil e1
      · intro i hi0 hil hip hp0
        rw [swap_length] at hil
        rw [keyAt_swap key h _ _ _ hp hj, keyAt_swap key h _ _ _ hp hj]
        rw [if_neg (by omega), if_neg (by omega)]
        have g1 := H1 ((j - 1) / 2) hp0 hp (by omega)
        by_cases e1 : i = j
        · rw [if_pos e1]; exact g1
        · rw [if_neg e1, if_neg (by omega)]
          have g2 := H1 i hi0 hil e1
          rw [hip] at g2
          omega


theorem down_length (less : α → α → Bool) :
    ∀ (fuel : Nat) (h : List α) (i n : Nat), (down less fuel h i n).length = h.length := by
  intro fuel
  induction fuel with
  | zero => intro h i n; rfl
  | succ fuel ih =>
    intro h i n
    unfold down
    simp only
    split_ifs <;> first | rfl | (rw [ih, swap_length])

theorem down_perm (less : α → α → Bool) :
    ∀ (fuel : Nat) (h : List α) (i n : Nat), (down less fuel h i n).Perm h := by
  intro fuel
  induction fuel with
  | zero => intro h i n; exact List.Perm.refl _
  | succ fuel ih =>
    intro h i n
    unfold down
    simp only
    split_ifs <;> first | exact List.Perm.refl _ | exact (ih _ _ _).trans (swap_perm _ _ _)

theorem down_getElem?_ge (less : α → α → Bool) :
    ∀ (fuel : Nat) (h : List α) (i n k : Nat), n ≤ h.length → n ≤ k →
      (down less fuel h i n)[k]? = h[k]? := by
  intro fuel
  induction fuel with
  | zero => intro h i n k _ _; rfl
  | succ fuel ih =>
    intro h i n k hn hk
    unfold down
    simp only
    by_cases c1 : 2 * i + 1 ≥ n
    · rw [if_pos c1]
    · rw [if_neg c1]
      generalize hjdef :
        (if (2 * i + 1 + 1 < n && lessAt less h (2 * i + 1 + 1) (2 * i + 1)) = true
          then 2 * i + 1 + 1 else 2 * i + 1) = j
      have hjn : j < n := by
        rw [← hjdef]; split_ifs with c <;> simp at c <;> omega
      split_ifs
      · rfl
      · rw [ih _ _ _ _ (by rw [swap_length]; exact hn) hk,
          swap_getElem? h _ _ _ (by omega) (by omega),
          if_neg (show ¬ k = j by omega), if_neg (show ¬ k = i by omega)]

theorem down_heap (key : α → Int) (less : α → α → Bool)
    (hk : ∀ a b, less a b = true ↔ key a < key b) :
    ∀ (fuel : Nat) (h : List α) (i n : Nat), n ≤ i + fuel → n ≤ h.length →
      (∀ c, 0 < c → c < n → (c - 1) / 2 ≠ i → keyAt key h ((c - 1) / 2) ≤ keyAt key h c) →
      (∀ c, 0 < c → c < n → (c - 1) / 2 = i → 0 < i →
        keyAt key h ((i - 1) / 2) ≤ keyAt key h c) →
      IsHeapUpTo key (down less fuel h i n) n := by
  intro fuel
  induction fuel with
  | zero =>
    intro h i n hf hn H1 H2 c hc0 hcn
    exact H1 c hc0 hcn (by omega)
  | succ fuel ih =>
    intro h i n hf hn H1 H2
    unfold down
    simp only
    by_cases c1 : 2 * i + 1 ≥ n
    · rw [if_pos c1]
      intro c hc0 hcn
      exact H1 c hc0 hcn (by omega)
    · rw [if_neg c1]
      have hi : i < h.length := by omega
      have h1 : 2 * i + 1 < h.length := by omega
      -- the chosen child
      generalize hjdef :
        (if (2 * i + 1 + 1 < n && lessAt less h (2 * i + 1 + 1) (2 * i + 1)) = true
          then 2 * i + 1 + 1 else 2 * i + 1) = j
      have hjn : j < n := by
        rw [← hjdef]; split_ifs with c <;> simp at c <;> omega
      have hjpar : (j - 1) / 2 = i := by
        rw [← hjdef]; split_ifs <;> omega
      have hj0 : 0 < j := by
        rw [← hjdef]; split_ifs <;> omega
      have hjl : j < h.length := by omega
      -- the chosen child is no larger than any child of `i`
      have hmin : ∀ c, 0 < c → c < n → (c - 1) / 2 = i → keyAt key h j ≤ keyAt key h c := by
        intro c hc0 hcn hcp
        have hc : c = 2 * i + 1 ∨ c = 2 * i + 2 := by omega
        by_cases c2 : (2 * i + 1 + 1 < n && lessAt less h (2 * i + 1 + 1) (2 * i + 1)) = true
        · rw [if_pos c2] at hjdef
          simp only [Bool.and_eq_true, decide_eq_true_eq] at c2
          have := (lessAt_iff key less hk h _ _ (by omega) h1).1 c2.2
          subst hjdef
          rcases hc with hc | hc
          · subst hc; omega
          · subst hc; exact le_refl _
        · rw [if_neg c2] at hjdef
          rcases hc with hc | hc
          · subst hc; subst hjdef; omega
          · subst hc
            have hlt : ¬ lessAt less h (2 * i + 1 + 1) (2 * i + 1) = true := by
              intro hh; apply c2; simp [hh]; omega
            rw [lessAt_iff key less hk h _ _ (by omega) h1] at hlt
            subst hjdef
            have hlt2 : keyAt key h (2 * i + 1) ≤ keyAt key h (2 * i + 1 + 1) := by omega
            exact hlt2
      by_cases c3 : (!lessAt less h j i) = true
      · rw [if_pos c3]
        simp only [Bool.not_eq_true', ← Bool.not_eq_true] at c3
        rw [lessAt_iff key less hk h _ _ hjl hi] at c3
        intro c hc0 hcn
        by_cases hcp : (c - 1) / 2 = i
        · have := hmin c hc0 hcn hcp
          rw [hcp]; omega
        · exact H1 c hc0 hcn hcp
      · rw [if_neg c3]
        simp only [Bool.not_eq_true', Bool.not_eq_false] at c3
        rw [lessAt_iff key less hk h _ _ hjl hi] at c3
        apply ih
        · omega
        · rw [swap_length]; exact hn
        · intro c hc0 hcn hcp
          rw [keyAt_swap key h _ _ _ hi hjl, keyAt_swap key h _ _ _ hi hjl]
          rw [if_neg hcp]
          by_cases e1 : c = j
          · rw [if_pos e1]
            subst e1
            rw [if_pos hjpar]; omega
          · rw [if_neg e1]
            by_cases e2 : (c - 1) / 2 = i
            · rw [if_pos e2]
              have := hmin c hc0 hcn e2
              rw [if_neg (by omega)]
              exact this
            · rw [if_neg e2]
              by_cases e3 : c = i
              · rw [if_pos e3]
                subst e3
                exact H2 j hj0 hjn hjpar hc0
              · rw [if_neg e3]
                exact H1 c hc0 hcn e2
        · intro c hc0 hcn hcp _
          rw [hjpar, keyAt_swap key h _ _ _ hi hjl, keyAt_swap key h _ _ _ hi hjl]
          rw [if_neg (show ¬ i = j by omega), if_pos rfl, if_neg (show ¬ c = j by omega),
            if_neg (show ¬ c = i by omega)]
          have := H1 c hc0 hcn (by omega)
          rw [hcp] at this
          exact this


/-- The loop of `up` leaves by its own `break` within `j + 1` rounds: any two
amounts of fuel above `j` give the same slice. -/
theorem up_fuel (less : α → α → Bool) :
    ∀ (fuel1 fuel2 : Nat) (h : List α) (j : Nat), j < fuel1 → j < fuel2 →
      up less fuel1 h j = up less fuel2 h j := by
  intro fuel1
  induction fuel1 with
  | zero => intro fuel2 h j hj; omega
  | succ f1 ih =>
    intro fuel2 h j h1 h2
    cases fuel2 with
    | zero => omega
    | succ f2 =>
      unfold up
      simp only
      split_ifs with c
      · rfl
      · simp only [Bool.or_eq_true, decide_eq_true_eq, not_or] at c
        exact ih f2 _ _ (by omega) (by omega)

/-- The loop of `down` leaves by its own `break` within `n - i` rounds: any two
amounts of fuel that reach `n` from `i` give the same slice. -/
theorem down_fuel (less : α → α → Bool) :
    ∀ (fuel1 fuel2 : Nat) (h : List α) (i n : Nat), n ≤ i + fuel1 → n ≤ i + fuel2 →
      down less fuel1 h i n = down less fuel2 h i n := by
  intro fuel1
  induction fuel1 with
  | zero =>
    intro fuel2 h i n h1 h2
    cases fuel2 with
    | zero => rfl
    | succ f2 =>
      unfold down
      simp only
      rw [if_pos (by omega)]
  | succ f1 ih =>
    intro fuel2 h i n h1 h2
    cases fuel2 with
    | zero =>
      unfold down
      simp only
      rw [if_pos (by omega)]
    | succ f2 =>
      unfold down
      simp only
      by_cases c1 : 2 * i + 1 ≥ n
      · rw [if_pos c1, if_pos c1]
      · rw [if_neg c1, if_neg c1]
        split_ifs with c2 c3
        · rfl
        · exact ih f2 _ _ _ (by omega) (by omega)
        · rfl
        · exact ih f2 _ _ _ (by omega) (by omega)

theorem keyAt_of_getElem? (key : α → Int) (h : List α) (i : Nat) (a : α)
    (e : h[i]? = some a) : keyAt key h i = key a := by
  unfold keyAt; rw [e]

theorem keyAt_congr (key : α → Int) (h g : List α) (i : Nat) (e : h[i]? = g[i]?) :
    keyAt key h i = keyAt key g i := by
  unfold keyAt; rw [e]

theorem isHeap_nil (key : α → Int) : IsHeap key ([] : List α) := by
  intro i _ hi; simp at hi

theorem init_nil (less : α → α → Bool) : init less ([] : List α) = [] := by
  simp [init]

theorem root_le (key : α → Int) (h : List α) (n : Nat) (hh : IsHeapUpTo key h n) :
    ∀ i, i < n → keyAt key h 0 ≤ keyAt key h i := by
  intro i
  induction i using Nat.strong_induction_on with
  | _ i ih =>
    intro hi
    by_cases h0 : i = 0
    · subst h0; exact le_refl _
    · have h1 := hh i (by omega) hi
      have h2 := ih ((i - 1) / 2) (by omega) (by omega)
      omega

theorem root_min (key : α → Int) (h : List α) (hh : IsHeap key h) (x : α)
    (hx : h[0]? = some x) : ∀ a ∈ h, key x ≤ key a := by
  intro a ha
  obtain ⟨i, hi, rfl⟩ := List.getElem_of_mem ha
  have := root_le key h h.length hh i hi
  rw [keyAt_of_getElem? key h 0 x hx,
    keyAt_of_getElem? key h i h[i] (List.getElem?_eq_getElem hi)] at this
  exact this

theorem push_length (less : α → α → Bool) (h : List α) (x : α) :
    (push less h x).length = h.length + 1 := by
  unfold push; rw [up_length]; simp

theorem push_perm (less : α → α → Bool) (h : List α) (x : α) :
    (push less h x).Perm (x :: h) := by
  unfold push
  exact (up_perm _ _ _ _).trans (List.perm_append_comm)

theorem push_heap (key : α → Int) (less : α → α → Bool)
    (hk : ∀ a b, less a b = true ↔ key a < key b) (h : List α) (x : α)
    (hh : IsHeap key h) : IsHeap key (push less h x) := by
  unfold push
  have hl : (h ++ [x]).length = h.length + 1 := by simp
  apply up_heap key less hk
  · omega
  · omega
  · intro i hi0 hil hij
    rw [hl] at hil hij
    have hi : i < h.length := by omega
    have e1 : (h ++ [x])[i]? = h[i]? := List.getElem?_append_left hi
    have e2 : (h ++ [x])[(i - 1) / 2]? = h[(i - 1) / 2]? :=
      List.getElem?_append_left (by omega)
    rw [keyAt_congr key _ _ _ e1, keyAt_congr key _ _ _ e2]
    exact hh i hi0 hi
  · intro i hi0 hil hij
    rw [hl] at hil hij
    omega

theorem pop_spec (key : α → Int) (less : α → α → Bool)
    (hk : ∀ a b, less a b = true ↔ key a < key b) (h : List α) (hne : h ≠ []) :
    ∃ x h1, pop less h = some (x, h1) ∧ h[0]? = some x ∧ (x :: h1).Perm h ∧
      h1.length + 1 = h.length ∧ (IsHeap key h → IsHeap key h1) := by
  cases h with
  | nil => exact absurd rfl hne
  | cons a t =>
    have hlen : (a :: t).length - 1 = t.length := by simp
    have hsl : (swap (a :: t) 0 t.length).length = t.length + 1 := by
      rw [swap_length]; simp
    have hdl : (down less t.length (swap (a :: t) 0 t.length) 0 t.length).length
        = t.length + 1 := by rw [down_length, hsl]
    have hlast : (down less t.length (swap (a :: t) 0 t.length) 0 t.length)[t.length]?
        = some a := by
      rw [down_getElem?_ge less _ _ _ _ _ (by omega) (le_refl _),
        swap_getElem? _ _ _ _ (by simp) (by simp), if_pos rfl]
      simp
    refine ⟨a, (down less t.length (swap (a :: t) 0 t.length) 0 t.length).dropLast, ?_,
      by simp, ?_, ?_, ?_⟩
    · unfold pop
      simp only [hlen]
      rw [List.getLast?_eq_getElem?, hdl]
      simp only [Nat.add_sub_cancel, hlast]
    · have hd : (down less t.length (swap (a :: t) 0 t.length) 0 t.length) =
          (down less t.length (swap (a :: t) 0 t.length) 0 t.length).dropLast ++ [a] := by
        have hne2 : (down less t.length (swap (a :: t) 0 t.length) 0 t.length) ≠ [] := by
          intro e; rw [e] at hdl; simp at hdl
        have hgl : (down less t.length (swap (a :: t) 0 t.length) 0 t.length).getLast hne2
            = a := by
          have := List.getLast?_eq_getLast _ hne2
          rw [List.getLast?_eq_getElem?, hdl] at this
          simp only [Nat.add_sub_cancel, hlast] at this
          exact (Option.some.inj this).symm
        conv_lhs => rw [← List.dropLast_concat_getLast hne2, hgl]
      have p1 := (down_perm less t.length (swap (a :: t) 0 t.length) 0 t.length).trans
        (swap_perm (a :: t) 0 t.length)
      rw [hd] at p1
      exact (List.perm_append_comm.symm.trans p1 : (a :: _).Perm _)
    · simp [hdl]
    · intro hh
      have hup : IsHeapUpTo key (down less t.length (swap (a :: t) 0 t.length) 0 t.length)
          t.length := by
        apply down_heap key less hk
        · omega
        · rw [hsl]; omega
        · intro c hc0 hcn hcp
          rw [keyAt_swap key _ _ _ _ (by simp) (by simp),
            keyAt_swap key _ _ _ _ (by simp) (by simp),
            if_neg (show ¬ (c - 1) / 2 = t.length by omega), if_neg hcp,
            if_neg (show ¬ c = t.length by omega), if_neg (show ¬ c = 0 by omega)]
          exact hh c hc0 (by simp; omega)
        · intro c _ _ _ h0; omega
      intro i hi0 hil
      have hdl2 : (down less t.length (swap (a :: t) 0 t.length) 0 t.length).dropLast.length
          = t.length := by simp [hdl]
      rw [hdl2] at hil
      have e1 := List.getElem?_dropLast
        (down less t.length (swap (a :: t) 0 t.length) 0 t.length) i
      have e2 := List.getElem?_dropLast
        (down less t.length (swap (a :: t) 0 t.length) 0 t.length) ((i - 1) / 2)
      rw [hdl] at e1 e2
      rw [if_pos (by omega)] at e1 e2
      rw [keyAt_congr key _ _ _ e1, keyAt_congr key _ _ _ e2]
      exact hup i hi0 hil


theorem pushEvict_spec (key : α → Int) (less : α → α → Bool)
    (hk : ∀ a b, less a b = true ↔ key a < key b) (k : Int) (h : List α) (x : α)
    (hh : IsHeap key h) :
    ∃ h1, pushEvict less k h x = some h1 ∧ IsHeap key h1 ∧
      (¬ ((h.length : Int) + 1 > k) → h1.Perm (x :: h)) ∧
      ((h.length : Int) + 1 > k → ∃ m, (m :: h1).Perm (x :: h) ∧ ∀ a ∈ x :: h, key m ≤ key a) := by
  unfold pushEvict
  simp only [push_length]
  have hp := push_heap key less hk h x hh
  by_cases c : ((h.length + 1 : Nat) : Int) > k
  · rw [if_pos c]
    have hne : push less h x ≠ [] := by
      intro e
      have := push_length less h x
      rw [e] at this; simp at this
    obtain ⟨m, h1, e1, e2, e3, _, e5⟩ := pop_spec key less hk (push less h x) hne
    refine ⟨h1, by rw [e1]; rfl, e5 hp, fun hc => absurd (by push_cast at c; exact c) hc,
      fun _ => ⟨m, e3.trans (push_perm less h x), ?_⟩⟩
    intro a ha
    exact root_min key _ hp m e2 a ((push_perm less h x).mem_iff.2 ha)
  · rw [if_neg c]
    refine ⟨_, rfl, hp, fun _ => push_perm less h x, fun hc => absurd ?_ c⟩
    push_cast; exact hc

theorem selectLoop_spec (key : α → Int) (less : α → α → Bool)
    (hk : ∀ a b, less a b = true ↔ key a < key b) (k : Int) (xs : List α) :
    ∃ h rest, xs.foldlM (pushEvict less k) [] = some h ∧ IsHeap key h ∧
      (h ++ rest).Perm xs ∧ h.length = min k.toNat xs.length ∧
      ∀ a ∈ h, ∀ b ∈ rest, key b ≤ key a := by
  induction xs using List.reverseRecOn with
  | nil => exact ⟨[], [], rfl, isHeap_nil key, by simp, by simp, by simp⟩
  | append_singleton ys x ih =>
    obtain ⟨h, rest, e1, e2, e3, e4, e5⟩ := ih
    obtain ⟨h1, f1, f2, f3, f4⟩ := pushEvict_spec key less hk k h x e2
    have hfold : (ys ++ [x]).foldlM (pushEvict less k) [] = some h1 := by
      rw [List.foldlM_append, e1]
      simp [f1]
    have hlen := e3.length_eq
    simp only [List.length_append] at hlen
    by_cases c : (h.length : Int) + 1 > k
    · obtain ⟨m, g1, g2⟩ := f4 c
      have hl1 : h1.length = h.length := by
        have := g1.length_eq
        simpa using this
      refine ⟨h1, m :: rest, hfold, f2, ?_, ?_, ?_⟩
      · have p1 : (h1 ++ m :: rest).Perm (m :: (h1 ++ rest)) := List.perm_middle
        have p2 : ((m :: h1) ++ rest).Perm ((x :: h) ++ rest) := g1.append_right rest
        have p3 : ((x :: h) ++ rest).Perm (ys ++ [x]) := by
          simpa using (List.Perm.cons x e3).trans (List.perm_append_singleton x ys).symm
        exact p1.trans (p2.trans p3)
      · rw [hl1, e4]; simp only [List.length_append, List.length_singleton]
        rw [e4] at c
        omega
      · intro a ha b hb
        have hma : m ∈ x :: h := g1.mem_iff.1 (List.mem_cons_self _ _)
        have hax : a ∈ x :: h := g1.mem_iff.1 (List.mem_cons_of_mem _ ha)
        rcases List.mem_cons.1 hb with rfl | hb
        · exact g2 a hax
        · rcases List.mem_cons.1 hma with hmx | hmh
          · subst hmx
            have p : h1.Perm h := (List.perm_cons m).1 g1
            exact e5 a (p.mem_iff.1 ha) b hb
          · rcases List.mem_cons.1 hax with rfl | hah
            · have := e5 m hmh b hb
              have := g2 a (List.mem_cons_self _ _)
              omega
            · exact e5 a hah b hb
    · have p := f3 c
      have hl1 : h1.length = h.length + 1 := by
        have := p.length_eq
        simpa using this
      have hrest : rest = [] := by
        have : rest.length = 0 := by omega
        exact List.length_eq_zero.1 this
      subst hrest
      refine ⟨h1, [], hfold, f2, ?_, ?_, by simp⟩
      · simp only [List.append_nil] at e3 ⊢
        exact p.trans ((List.Perm.cons x e3).trans (List.perm_append_singleton x ys).symm)
      · rw [hl1]; simp only [List.length_append, List.length_singleton]
        omega

theorem popN_spec (key : α → Int) (less : α → α → Bool)
    (hk : ∀ a b, less a b = true ↔ key a < key b) :
    ∀ (n : Nat) (h : List α), IsHeap key h → n ≤ h.length →
      ∃ ps h1, popN less n h = some (ps, h1) ∧ (ps ++ h1).Perm h ∧ ps.length = n ∧
        IsHeap key h1 ∧ (∀ a ∈ ps, ∀ b ∈ h1, key a ≤ key b) ∧
        ps.Pairwise (fun a b => key a ≤ key b) := by
  intro n
  induction n with
  | zero =>
    intro h hh _
    exact ⟨[], h, rfl, by simp, rfl, hh, by simp, List.Pairwise.nil⟩
  | succ n ih =>
    intro h hh hn
    have hne : h ≠ [] := by
      intro e; rw [e] at hn; simp at hn
    obtain ⟨x, h1, e1, e2, e3, e4, e5⟩ := pop_spec key less hk h hne
    obtain ⟨ps, h2, f1, f2, f3, f4, f5, f6⟩ := ih h1 (e5 hh) (by omega)
    have hmin := root_min key h hh x e2
    have hsub : ∀ a, a ∈ ps ++ h2 → key x ≤ key a := by
      intro a ha
      exact hmin a (e3.mem_iff.1 (List.mem_cons_of_mem _ (f2.mem_iff.1 ha)))
    refine ⟨x :: ps, h2, ?_, ?_, by simp [f3], f4, ?_, ?_⟩
    · simp only [popN, e1, f1]
    · exact ((List.Perm.cons x f2).trans e3 : (x :: (ps ++ h2)).Perm h)
    · intro a ha b hb
      rcases List.mem_cons.1 ha with rfl | ha
      · exact hsub b (List.mem_append_right _ hb)
      · exact f5 a ha b hb
    · exact List.Pairwise.cons (fun a ha => hsub a (List.mem_append_left _ ha)) f6

end heap

/-! ### Sorting facts used to state "k-th largest" and "k-th smallest" -/

namespace sorting

variable {α : Type} (r : α → α → Prop) [DecidableRel r] [IsTotal α r] [IsTrans α r]
  [IsAntisymm α r]

theorem insertionSort_congr {A B : List α} (p : A.Perm B) :
    A.insertionSort r = B.insertionSort r :=
  List.eq_of_perm_of_sorted
    (((List.perm_insertionSort r A).trans p).trans (List.perm_insertionSort r B).symm)
    (List.sorted_insertionSort r A) (List.sorted_insertionSort r B)

theorem insertionSort_append {A B : List α} (hAB : ∀ a ∈ A, ∀ b ∈ B, r a b) :
    (A ++ B).insertionSort r = A.insertionSort r ++ B.insertionSort r := by
  apply List.eq_of_perm_of_sorted (r := r)
  · exact (List.perm_insertionSort r (A ++ B)).trans
      (((List.perm_insertionSort r A).append (List.perm_insertionSort r B)).symm)
  · exact List.sorted_insertionSort r _
  · unfold List.Sorted
    rw [List.pairwise_append]
    refine ⟨List.sorted_insertionSort r A, List.sorted_insertionSort r B, ?_⟩
    intro a ha b hb
    exact hAB a ((List.perm_insertionSort r A).mem_iff.1 ha) b
      ((List.perm_insertionSort r B).mem_iff.1 hb)

omit [DecidableRel r] [IsTotal α r] [IsTrans α r] [IsAntisymm α r] in
theorem sorted_rel_last {l : List α} (hs : l.Sorted r) (u : α)
    (hu : l[l.length - 1]? = some u) : ∀ a ∈ l, a = u ∨ r a u := by
  intro a ha
  obtain ⟨i, hi, rfl⟩ := List.getElem_of_mem ha
  obtain ⟨hl, rfl⟩ := List.getElem?_eq_some.1 hu
  by_cases e : i = l.length - 1
  · left; subst e; rfl
  · right
    exact (List.pairwise_iff_getElem.1 hs) i (l.length - 1) hi hl (by omega)

omit [DecidableRel r] [IsTotal α r] [IsTrans α r] [IsAntisymm α r] in
theorem sorted_rel_head {l : List α} (hs : l.Sorted r) (u : α)
    (hu : l[0]? = some u) : ∀ a ∈ l, a = u ∨ r u a := by
  intro a ha
  cases l with
  | nil => simp at ha
  | cons b t =>
    simp at hu; subst hu
    rcases List.mem_cons.1 ha with rfl | h1
    · left; rfl
    · right; exact List.rel_of_sorted_cons hs a h1

end sorting

namespace topk

theorem minHeap_less_iff (a b : Int) : MinHeap.less a b = true ↔ id a < id b := by
  simp [MinHeap.less]

theorem findKthLargest_loop_spec (nums : List Int) (k : Int) :
    ∃ h rest, FindKthLargest.loop nums k = some h ∧ heap.IsHeap id h ∧
      (h ++ rest).Perm nums ∧ h.length = min k.toNat nums.length ∧
      ∀ a ∈ h, ∀ b ∈ rest, b ≤ a := by
  unfold FindKthLargest.loop
  rw [heap.init_nil]
  exact heap.selectLoop_spec id MinHeap.less minHeap_less_iff k nums

/-- The heap left by the loop of `FindKthLargest` holds, as a multiset, the
first `min k |nums|` elements of `nums` sorted in descending order. -/
theorem findKthLargest_loop_perm_take (nums : List Int) (k : Int) :
    ∃ h, FindKthLargest.loop nums k = some h ∧ heap.IsHeap id h ∧
      h.Perm ((nums.insertionSort (fun a b => a ≥ b)).take k.toNat) ∧
      h.length = min k.toNat nums.length := by
  obtain ⟨h, rest, e1, e2, e3, e4, e5⟩ := findKthLargest_loop_spec nums k
  refine ⟨h, e1, e2, ?_, e4⟩
  have hs : nums.insertionSort (fun a b => a ≥ b)
      = h.insertionSort (fun a b => a ≥ b) ++ rest.insertionSort (fun a b => a ≥ b) := by
    rw [← sorting.insertionSort_congr (fun a b : Int => a ≥ b) e3]
    exact sorting.insertionSort_append (fun a b : Int => a ≥ b) (fun a ha b hb => e5 a ha b hb)
  have hlen : (h.insertionSort (fun a b => a ≥ b)).length = h.length :=
    List.length_insertionSort _ _
  rw [hs]
  by_cases c : k.toNat ≤ nums.length
  · have : h.length = k.toNat := by omega
    rw [List.take_append_of_le_length (by omega), List.take_of_length_le (by omega)]
    exact (List.perm_insertionSort _ h).symm
  · have hl := e3.length_eq
    simp only [List.length_append] at hl
    have hr : rest = [] := List.length_eq_zero.1 (by omega)
    subst hr
    simp only [List.insertionSort, List.append_nil]
    rw [List.take_of_length_le (by omega)]
    exact (List.perm_insertionSort _ h).symm

/-- Claim C1: for a non-empty list `S` and `1 ≤ k ≤ |S|`, `FindKthLargest S k`
returns the element at position `k` (1-indexed, so index `k - 1`) of `S` sorted
in descending order. -/
theorem FindKthLargest_kth_sorted_desc (S : List Int) (k : Nat) (h1 : 1 ≤ k)
    (h2 : k ≤ S.length) :
    ∃ v, FindKthLargest S (k : Int) = some v ∧
      (S.insertionSort (fun a b => a ≥ b))[k - 1]? = some v := by
  obtain ⟨h, rest, e1, e2, e3, e4, e5⟩ := findKthLargest_loop_spec S k
  have hlen : h.length = k := by
    rw [e4]; simp; omega
  have h0 : 0 < h.length := by omega
  refine ⟨h[0], ?_, ?_⟩
  · unfold FindKthLargest
    rw [e1]
    exact List.getElem?_eq_getElem h0
  · have hmin := heap.root_min id h e2 h[0] (List.getElem?_eq_getElem h0)
    have hs : S.insertionSort (fun a b => a ≥ b)
        = h.insertionSort (fun a b => a ≥ b) ++ rest.insertionSort (fun a b => a ≥ b) := by
      rw [← sorting.insertionSort_congr (fun a b : Int => a ≥ b) e3]
      exact sorting.insertionSort_append (fun a b : Int => a ≥ b)
        (fun a ha b hb => e5 a ha b hb)
    have hsl : (h.insertionSort (fun a b => a ≥ b)).length = k := by
      rw [List.length_insertionSort, hlen]
    rw [hs, List.getElem?_append_left (by omega)]
    have hk1 : k - 1 < (h.insertionSort (fun a b => a ≥ b)).length := by omega
    rw [List.getElem?_eq_getElem hk1]
    congr 1
    have hu : (h.insertionSort (fun a b => a ≥ b))[
        (h.insertionSort (fun a b => a ≥ b)).length - 1]?
        = some ((h.insertionSort (fun a b => a ≥ b))[k - 1]) := by
      rw [List.getElem?_eq_getElem (by omega)]
      congr 2
      omega
    have hlast := sorting.sorted_rel_last (fun a b : Int => a ≥ b)
      (List.sorted_insertionSort _ h) _ hu
    have hmem : (h.insertionSort (fun a b => a ≥ b))[k - 1] ∈ h :=
      (List.perm_insertionSort _ h).mem_iff.1 (List.getElem_mem _)
    have g1 := hmin _ hmem
    have g2 := hlast h[0] ((List.perm_insertionSort _ h).mem_iff.2 (List.getElem_mem h0))
    simp only [id] at g1
    rcases g2 with g2 | g2
    · exact g2.symm
    · omega

/-- Witness of claim C1 on the first case of `TestFindKthLargest`. -/
theorem FindKthLargest_kth_sorted_desc_witness :
    1 ≤ 2 ∧ 2 ≤ [3, 2, 1, 5, 6, 4].length ∧
      ∃ v, FindKthLargest [3, 2, 1, 5, 6, 4] ((2 : Nat) : Int) = some v ∧
        ([3, 2, 1, 5, 6, 4].insertionSort (fun a b : Int => a ≥ b))[2 - 1]? = some v :=
  ⟨by decide, by decide, FindKthLargest_kth_sorted_desc [3, 2, 1, 5, 6, 4] 2 (by decide) (by decide)⟩

/-- Claim C8: for a non-empty list `S`, `FindKthLargest S |S|` is the minimum
of `S` (a member of `S` below every member) and `FindKthLargest S 1` is the
maximum of `S` (a member of `S` above every member). -/
theorem FindKthLargest_min_max (S : List Int) (hS : S ≠ []) :
    (∃ m, FindKthLargest S (S.length : Int) = some m ∧ m ∈ S ∧ ∀ x ∈ S, m ≤ x) ∧
    (∃ M, FindKthLargest S 1 = some M ∧ M ∈ S ∧ ∀ x ∈ S, x ≤ M) := by
  have hpos : 0 < S.length := List.length_pos.2 hS
  constructor
  · obtain ⟨h, rest, e1, e2, e3, e4, _⟩ := findKthLargest_loop_spec S (S.length : Int)
    have hlen : h.length = S.length := by rw [e4]; simp
    have hl := e3.length_eq
    simp only [List.length_append] at hl
    have hr : rest = [] := List.length_eq_zero.1 (by omega)
    subst hr
    simp only [List.append_nil] at e3
    have h0 : 0 < h.length := by omega
    refine ⟨h[0], ?_, e3.mem_iff.1 (List.getElem_mem h0), ?_⟩
    · unfold FindKthLargest
      rw [e1]
      exact List.getElem?_eq_getElem h0
    · intro x hx
      exact heap.root_min id h e2 h[0] (List.getElem?_eq_getElem h0) x (e3.mem_iff.2 hx)
  · obtain ⟨h, rest, e1, e2, e3, e4, e5⟩ := findKthLargest_loop_spec S 1
    have hlen : h.length = 1 := by
      rw [e4]; simp; omega
    have h0 : 0 < h.length := by omega
    have hmem : h[0] ∈ S := e3.mem_iff.1 (List.mem_append_left _ (List.getElem_mem h0))
    refine ⟨h[0], ?_, hmem, ?_⟩
    · unfold FindKthLargest
      rw [e1]
      exact List.getElem?_eq_getElem h0
    · intro x hx
      rcases List.mem_append.1 (e3.mem_iff.2 hx) with hx | hx
      · obtain ⟨i, hi, rfl⟩ := List.getElem_of_mem hx
        have : i = 0 := by omega
        subst this
        exact le_refl _
      · exact e5 _ (List.getElem_mem h0) x hx

/-- Witness of claim C8 on a list of six values. -/
theorem FindKthLargest_min_max_witness :
    ([3, 2, 1, 5, 6, 4] : List Int) ≠ [] ∧
    (∃ m, FindKthLargest [3, 2, 1, 5, 6, 4] (([3, 2, 1, 5, 6, 4] : List Int).length : Int) = some m ∧
      m ∈ ([3, 2, 1, 5, 6, 4] : List Int) ∧ ∀ x ∈ ([3, 2, 1, 5, 6, 4] : List Int), m ≤ x) ∧
    (∃ M, FindKthLargest [3, 2, 1, 5, 6, 4] 1 = some M ∧
      M ∈ ([3, 2, 1, 5, 6, 4] : List Int) ∧ ∀ x ∈ ([3, 2, 1, 5, 6, 4] : List Int), x ≤ M) :=
  ⟨by decide, FindKthLargest_min_max [3, 2, 1, 5, 6, 4] (by decide)⟩

/-- Claim C9: for a list `S`, a permutation `T` of `S` and `k ≥ 1`, the loop of
`FindKthLargest` leaves heaps holding the same multiset of elements on `S` and
on `T`, and `FindKthLargest T k = FindKthLargest S k`. -/
theorem FindKthLargest_perm (S T : List Int) (k : Int) (_hk : 1 ≤ k) (hp : T.Perm S) :
    (∃ h g, FindKthLargest.loop S k = some h ∧ FindKthLargest.loop T k = some g ∧ g.Perm h) ∧
    FindKthLargest T k = FindKthLargest S k := by
  obtain ⟨h, e1, e2, e3, e4⟩ := findKthLargest_loop_perm_take S k
  obtain ⟨g, f1, f2, f3, f4⟩ := findKthLargest_loop_perm_take T k
  have hs : T.insertionSort (fun a b => a ≥ b) = S.insertionSort (fun a b => a ≥ b) :=
    sorting.insertionSort_congr (fun a b : Int => a ≥ b) hp
  rw [hs] at f3
  have pgh : g.Perm h := f3.trans e3.symm
  refine ⟨⟨h, g, e1, f1, pgh⟩, ?_⟩
  unfold FindKthLargest
  rw [e1, f1]
  simp only
  cases h with
  | nil =>
    have := pgh.length_eq
    have hg : g = [] := List.length_eq_zero.1 (by simpa using this)
    rw [hg]
  | cons a h =>
    cases g with
    | nil => simpa using pgh.length_eq
    | cons b g =>
      simp only [List.getElem?_cons_zero, Option.some.injEq]
      have g1 := heap.root_min id _ e2 a (by simp) b (pgh.mem_iff.1 (List.mem_cons_self _ _))
      have g2 := heap.root_min id _ f2 b (by simp) a (pgh.mem_iff.2 (List.mem_cons_self _ _))
      simp only [id] at g1 g2
      omega

/-- Witness of claim C9 on a rotation of a three-element list. -/
theorem FindKthLargest_perm_witness :
    (1 : Int) ≤ 2 ∧ ([2, 3, 1] : List Int).Perm [3, 1, 2] ∧
    (∃ h g, FindKthLargest.loop [3, 1, 2] 2 = some h ∧
      FindKthLargest.loop [2, 3, 1] 2 = some g ∧ g.Perm h) ∧
    FindKthLargest [2, 3, 1] 2 = FindKthLargest [3, 1, 2] 2 :=
  ⟨by decide, by decide, FindKthLargest_perm [3, 1, 2] [2, 3, 1] 2 (by decide) (by decide)⟩

end topk

/-! ### The stock spanner -/

namespace monotonicstack

theorem StockSpanner.flat_cons (b : Int × List Int) (blocks : List (Int × List Int)) :
    StockSpanner.flat (b :: blocks) = b.1 :: b.2 ++ StockSpanner.flat blocks := by
  simp [StockSpanner.flat]

theorem StockSpanner.flat_append (A B : List (Int × List Int)) :
    StockSpanner.flat (A ++ B) = StockSpanner.flat A ++ StockSpanner.flat B := by
  simp [StockSpanner.flat]

theorem StockSpanner.takeWhile_flat (p : Int) :
    ∀ blocks : List (Int × List Int), (∀ b ∈ blocks, ∀ x ∈ b.2, x ≤ b.1) →
      (StockSpanner.flat blocks).takeWhile (fun x => decide (x ≤ p)) =
        StockSpanner.flat (blocks.takeWhile (fun b => decide (b.1 ≤ p))) := by
  intro blocks
  induction blocks with
  | nil => intro _; rfl
  | cons b rest ih =>
    intro hb
    have hrest : ∀ c ∈ rest, ∀ x ∈ c.2, x ≤ c.1 :=
      fun c hc => hb c (List.mem_cons_of_mem _ hc)
    rw [StockSpanner.flat_cons]
    by_cases c : b.1 ≤ p
    · rw [List.takeWhile_cons_of_pos (by simpa using c), StockSpanner.flat_cons]
      have hall : ∀ a ∈ b.1 :: b.2, (fun x => decide (x ≤ p)) a = true := by
        intro a ha
        rcases List.mem_cons.1 ha with rfl | ha
        · simpa using c
        · have := hb b (List.mem_cons_self _ _) a ha
          simp only [decide_eq_true_eq]; omega
      have := @List.takeWhile_append_of_pos _ _ _ (StockSpanner.flat rest) hall
      rw [this, ih hrest]
    · rw [List.takeWhile_cons_of_neg (by simpa using c)]
      rw [List.cons_append, List.takeWhile_cons_of_neg (by simpa using c)]
      rfl

theorem StockSpanner.nextLoop_spec (p : Int) :
    ∀ (blocks : List (Int × List Int)) (fuel : Nat) (span : Int), blocks.length < fuel →
      StockSpanner.nextLoop fuel p
          ⟨(blocks.map Prod.fst).reverse,
            (blocks.map (fun b => (b.2.length : Int) + 1)).reverse⟩ span =
        some (⟨((blocks.dropWhile (fun b => decide (b.1 ≤ p))).map Prod.fst).reverse,
            ((blocks.dropWhile (fun b => decide (b.1 ≤ p))).map
              (fun b => (b.2.length : Int) + 1)).reverse⟩,
          span + ((StockSpanner.flat (blocks.takeWhile (fun b => decide (b.1 ≤ p)))).length : Int)) := by
  intro blocks
  induction blocks with
  | nil =>
    intro fuel span hf
    cases fuel with
    | zero => simp at hf
    | succ f => simp [StockSpanner.nextLoop, StockSpanner.flat]
  | cons b rest ih =>
    intro fuel span hf
    cases fuel with
    | zero => simp at hf
    | succ f =>
      have hf2 : rest.length < f := by simpa using hf
      unfold StockSpanner.nextLoop
      simp only [List.map_cons, List.reverse_cons, List.getLast?_concat, List.dropLast_concat]
      by_cases c : b.1 ≤ p
      · rw [if_pos (by omega : p ≥ b.1)]
        rw [ih f _ hf2]
        rw [List.dropWhile_cons_of_pos (by simpa using c),
          List.takeWhile_cons_of_pos (by simpa using c), StockSpanner.flat_cons]
        have e : ∀ X : List Int, ((b.1 :: b.2 ++ X).length : Int)
            = (b.2.length : Int) + 1 + (X.length : Int) := by
          intro X; simp only [List.length_append, List.length_cons]; push_cast; ring
        rw [e]
        congr 2
        ring
      · rw [if_neg (by omega : ¬ p ≥ b.1)]
        rw [List.dropWhile_cons_of_neg (by simpa using c),
          List.takeWhile_cons_of_neg (by simpa using c)]
        simp [StockSpanner.flat]


theorem StockSpanner.inv_new : StockSpanner.Inv [] NewStockSpanner :=
  ⟨rfl, rfl, by simp⟩

theorem StockSpanner.Next_spec (p : Int) (blocks : List (Int × List Int)) (ss : StockSpanner)
    (hinv : StockSpanner.Inv blocks ss) :
    ∃ ss1 blocks1, ss.Next p = some (ss1,
        1 + (((StockSpanner.flat blocks).takeWhile (fun x => decide (x ≤ p))).length : Int)) ∧
      StockSpanner.Inv blocks1 ss1 ∧ StockSpanner.flat blocks1 = p :: StockSpanner.flat blocks := by
  obtain ⟨hp, hs, hb⟩ := hinv
  have hss : ss = ⟨(blocks.map Prod.fst).reverse,
      (blocks.map (fun b => (b.2.length : Int) + 1)).reverse⟩ := by
    cases ss; simp only at hp hs; rw [hp, hs]
  have hloop := StockSpanner.nextLoop_spec p blocks (ss.prices.length + 1) 1
    (by rw [hp]; simp)
  rw [← hss] at hloop
  refine ⟨⟨((blocks.dropWhile (fun b => decide (b.1 ≤ p))).map Prod.fst).reverse ++ [p],
      ((blocks.dropWhile (fun b => decide (b.1 ≤ p))).map
        (fun b => (b.2.length : Int) + 1)).reverse ++
        [1 + ((StockSpanner.flat (blocks.takeWhile (fun b => decide (b.1 ≤ p)))).length : Int)]⟩,
    (p, StockSpanner.flat (blocks.takeWhile (fun b => decide (b.1 ≤ p)))) ::
      blocks.dropWhile (fun b => decide (b.1 ≤ p)), ?_, ⟨?_, ?_, ?_⟩, ?_⟩
  · unfold StockSpanner.Next
    rw [hloop, StockSpanner.takeWhile_flat p blocks hb]
  · simp
  · simp only [List.map_cons, List.reverse_cons]
    congr 2
    ring
  · intro b hbm x hx
    rcases List.mem_cons.1 hbm with rfl | hbm
    · simp only at hx ⊢
      rw [← StockSpanner.takeWhile_flat p blocks hb] at hx
      have := List.mem_takeWhile_imp hx
      simpa using this
    · exact hb b ((List.dropWhile_sublist _).subset hbm) x hx
  · rw [StockSpanner.flat_cons]
    simp only [List.cons_append, List.cons.injEq, true_and]
    rw [← StockSpanner.flat_append, List.takeWhile_append_dropWhile]

theorem StockSpanner.feed_spec :
    ∀ (Q : List Int) (blocks : List (Int × List Int)) (ss : StockSpanner),
      StockSpanner.Inv blocks ss →
      ∃ ss1 spans, ss.feed Q = some (ss1, spans) ∧ spans.length = Q.length ∧
        ∀ i, i < Q.length → spans[i]? = some (1 +
          ((((Q.take i).reverse ++ StockSpanner.flat blocks).takeWhile
            (fun x => decide (x ≤ Q.getD i 0))).length : Int)) := by
  intro Q
  induction Q with
  | nil =>
    intro blocks ss _
    exact ⟨ss, [], rfl, rfl, by simp⟩
  | cons q Q ih =>
    intro blocks ss hinv
    obtain ⟨ss1, blocks1, e1, e2, e3⟩ := StockSpanner.Next_spec q blocks ss hinv
    obtain ⟨ss2, spans, f1, f2, f3⟩ := ih blocks1 ss1 e2
    refine ⟨ss2, (1 + (((StockSpanner.flat blocks).takeWhile
      (fun x => decide (x ≤ q))).length : Int)) :: spans, ?_, by simp [f2], ?_⟩
    · simp only [StockSpanner.feed, e1, f1]
    · intro i hi
      cases i with
      | zero => simp
      | succ i =>
        have := f3 i (by simpa using hi)
        simp only [List.getElem?_cons_succ, this, e3, List.take_succ_cons, List.reverse_cons,
          List.append_assoc, List.singleton_append, List.getD_cons_succ]

/-- The length of the longest initial run satisfying a test: every position of
the run passes the test and the position right after it, if any, fails it. -/
theorem takeWhile_length_char (q : Int → Bool) :
    ∀ R : List Int, (∀ t, t < (R.takeWhile q).length → q (R.getD t 0) = true) ∧
      ((R.takeWhile q).length ≤ R.length) ∧
      ((R.takeWhile q).length < R.length → q (R.getD (R.takeWhile q).length 0) = false) := by
  intro R
  induction R with
  | nil => simp
  | cons a R ih =>
    by_cases c : q a = true
    · rw [List.takeWhile_cons_of_pos c]
      obtain ⟨g1, g2, g3⟩ := ih
      refine ⟨?_, by simpa using g2, ?_⟩
      · intro t ht
        cases t with
        | zero => simpa using c
        | succ t => simpa using g1 t (by simpa using ht)
      · intro hlt
        simpa using g3 (by simpa using hlt)
    · rw [List.takeWhile_cons_of_neg c]
      refine ⟨by simp, by simp, ?_⟩
      intro _
      simpa using c


theorem getD_reverse_take (P : List Int) (i t : Nat) (hi : i ≤ P.length) (ht : t < i) :
    ((P.take i).reverse).getD t 0 = P.getD (i - 1 - t) 0 := by
  have hl : (P.take i).length = i := by simp [hi]
  simp only [List.getD_eq_getElem?_getD]
  rw [List.getElem?_reverse (by omega), hl, List.getElem?_take]
  rw [if_pos (by omega)]

/-- Claim C2: when the prices `P` are fed one by one to a fresh `StockSpanner`,
the `i`-th call (0-indexed here) returns `j + 1`, where `j` is the largest
number such that the `j` prices just before position `i` are all `≤ P[i]`:
they all are, and either `j = i` (no earlier price is left) or the price at
position `i - (j + 1)` is greater than `P[i]`. -/
theorem StockSpanner_span_count (P : List Int) :
    ∃ ss spans, NewStockSpanner.feed P = some (ss, spans) ∧ spans.length = P.length ∧
      ∀ i, i < P.length → ∃ j : Nat, spans[i]? = some ((j : Int) + 1) ∧ j ≤ i ∧
        (∀ t, 1 ≤ t → t ≤ j → P.getD (i - t) 0 ≤ P.getD i 0) ∧
        (j < i → P.getD i 0 < P.getD (i - (j + 1)) 0) := by
  obtain ⟨ss, spans, e1, e2, e3⟩ := StockSpanner.feed_spec P [] NewStockSpanner
    StockSpanner.inv_new
  refine ⟨ss, spans, e1, e2, ?_⟩
  intro i hi
  have hflat : StockSpanner.flat [] = [] := rfl
  have h3 := e3 i hi
  rw [hflat, List.append_nil] at h3
  obtain ⟨g1, g2, g3⟩ := takeWhile_length_char (fun x => decide (x ≤ P.getD i 0))
    (P.take i).reverse
  have hl : (P.take i).reverse.length = i := by simp; omega
  rw [hl] at g2 g3
  refine ⟨_, ?_, g2, ?_, ?_⟩
  · rw [h3]; congr 1; ring
  · intro t ht1 htj
    have := g1 (t - 1) (by omega)
    rw [getD_reverse_take P i (t - 1) (by omega) (by omega)] at this
    have e : i - 1 - (t - 1) = i - t := by omega
    rw [e] at this
    simpa using this
  · intro hj
    have := g3 hj
    rw [getD_reverse_take P i _ (by omega) hj] at this
    have e : i - 1 - ((P.take i).reverse.takeWhile
        (fun x => decide (x ≤ P.getD i 0))).length
        = i - (((P.take i).reverse.takeWhile
        (fun x => decide (x ≤ P.getD i 0))).length + 1) := by omega
    rw [e] at this
    simpa using this

/-- Claim C7: for a strictly increasing list of prices `P` fed to a fresh
`StockSpanner`, the calls to `Next` return `1, 2, ..., |P|` in this order: the
`i`-th call (1-indexed) returns `i`. -/
theorem StockSpanner_strictly_increasing (P : List Int) (hP : P.Sorted (fun a b => a < b)) :
    ∃ ss, NewStockSpanner.feed P =
      some (ss, (List.range P.length).map (fun i : Nat => (i : Int) + 1)) := by
  obtain ⟨ss, spans, e1, e2, e3⟩ := StockSpanner.feed_spec P [] NewStockSpanner
    StockSpanner.inv_new
  refine ⟨ss, ?_⟩
  rw [e1]
  congr 2
  apply List.ext_getElem?
  intro i
  by_cases hi : i < P.length
  · have hflat : StockSpanner.flat [] = [] := rfl
    rw [e3 i hi, hflat, List.append_nil]
    have hall : ∀ x ∈ (P.take i).reverse, (fun x => decide (x ≤ P.getD i 0)) x = true := by
      intro x hx
      have hx1 : x ∈ P.take i := List.mem_reverse.1 hx
      have hsplit : P = P.take i ++ P.drop i := (List.take_append_drop i P).symm
      have hpw : (P.take i ++ P.drop i).Pairwise (fun a b => a < b) := by
        rw [← hsplit]; exact hP
      have hmem : P.getD i 0 ∈ P.drop i := by
        rw [List.getD_eq_getElem _ _ hi]
        have : P.drop i = P[i] :: P.drop (i + 1) := List.drop_eq_getElem_cons hi
        rw [this]; exact List.mem_cons_self _ _
      have := (List.pairwise_append.1 hpw).2.2 x hx1 _ hmem
      simp only [decide_eq_true_eq]
      omega
    rw [List.takeWhile_eq_self_iff.2 hall]
    simp only [List.length_reverse, List.length_take]
    rw [List.getElem?_map, List.getElem?_range hi]
    simp only [Option.map_some', Option.some.injEq]
    rw [Nat.min_eq_left (by omega)]
    ring
  · have h1 : spans[i]? = none := List.getElem?_eq_none (by omega)
    rw [h1]
    symm
    apply List.getElem?_eq_none
    simp; omega

/-- Witness of claim C7 on the second case of `TestStockSpanner`. -/
theorem StockSpanner_strictly_increasing_witness :
    ([10, 20, 30, 40, 50] : List Int).Sorted (fun a b => a < b) ∧
      ∃ ss, NewStockSpanner.feed [10, 20, 30, 40, 50] =
        some (ss, (List.range ([10, 20, 30, 40, 50] : List Int).length).map
          (fun i : Nat => (i : Int) + 1)) :=
  ⟨by decide, StockSpanner_strictly_increasing [10, 20, 30, 40, 50] (by decide)⟩

end monotonicstack

/-! ### `KClosestPoints` -/

namespace heap
variable {α : Type}

/-- The keys retained by the insert-then-evict loop are, as a multiset, the
first `min k |xs|` keys of `xs` in descending order. -/
theorem selectLoop_keys (key : α → Int) (less : α → α → Bool)
    (hk : ∀ a b, less a b = true ↔ key a < key b) (k : Int) (xs : List α) :
    ∃ h rest, xs.foldlM (pushEvict less k) [] = some h ∧ IsHeap key h ∧
      (h ++ rest).Perm xs ∧ h.length = min k.toNat xs.length ∧
      (∀ a ∈ h, ∀ b ∈ rest, key b ≤ key a) ∧
      (h.map key).Perm (((xs.map key).insertionSort (fun a b => a ≥ b)).take k.toNat) := by
  obtain ⟨h, rest, e1, e2, e3, e4, e5⟩ := selectLoop_spec key less hk k xs
  refine ⟨h, rest, e1, e2, e3, e4, e5, ?_⟩
  have hs : (xs.map key).insertionSort (fun a b => a ≥ b)
      = (h.map key).insertionSort (fun a b => a ≥ b) ++
        (rest.map key).insertionSort (fun a b => a ≥ b) := by
    have p : ((h.map key) ++ (rest.map key)).Perm (xs.map key) := by
      rw [← List.map_append]; exact e3.map key
    rw [← sorting.insertionSort_congr (fun a b : Int => a ≥ b) p]
    apply sorting.insertionSort_append (fun a b : Int => a ≥ b)
    intro a ha b hb
    obtain ⟨a1, ha1, rfl⟩ := List.mem_map.1 ha
    obtain ⟨b1, hb1, rfl⟩ := List.mem_map.1 hb
    exact e5 a1 ha1 b1 hb1
  rw [hs]
  have hl := e3.length_eq
  simp only [List.length_append] at hl
  by_cases c : k.toNat ≤ xs.length
  · have : h.length = k.toNat := by omega
    rw [List.take_append_of_le_length (by rw [List.length_insertionSort]; simp; omega),
      List.take_of_length_le (by rw [List.length_insertionSort]; simp; omega)]
    exact (List.perm_insertionSort _ _).symm
  · have hr : rest = [] := List.length_eq_zero.1 (by omega)
    subst hr
    simp only [List.map_nil, List.insertionSort, List.append_nil]
    rw [List.take_of_length_le (by rw [List.length_insertionSort]; simp; omega)]
    exact (List.perm_insertionSort _ _).symm

theorem popN_all (key : α → Int) (less : α → α → Bool)
    (hk : ∀ a b, less a b = true ↔ key a < key b) (h : List α) (hh : IsHeap key h) :
    ∃ ps, popN less h.length h = some (ps, []) ∧ ps.Perm h ∧
      ps.Pairwise (fun a b => key a ≤ key b) := by
  obtain ⟨ps, h1, e1, e2, e3, _, _, e6⟩ := popN_spec key less hk h.length h hh (le_refl _)
  have hl := e2.length_eq
  simp only [List.length_append] at hl
  have : h1 = [] := List.length_eq_zero.1 (by omega)
  subst this
  exact ⟨ps, e1, by simpa using e2, e6⟩

end heap

namespace topk

theorem pointHeap_less_iff (a b : Point) :
    PointHeap.less a b = true ↔ (fun p : Point => -p.distance) a < (fun p : Point => -p.distance) b := by
  simp [PointHeap.less]

theorem mkPoint_of_length (pt : List Int) (h : pt.length = 2) : mkPoint pt = some (toPoint pt) := by
  match pt, h with
  | [x, y], _ => simp [mkPoint, toPoint]

theorem toPoint_distance (pt : List Int) (hfit : sqDist pt ≤ 9223372036854775807) :
    (toPoint pt).distance = sqDist pt := by
  unfold sqDist at hfit
  unfold toPoint sqDist
  simp only
  have hx := mul_self_nonneg (pt.getD 0 0)
  have hy := mul_self_nonneg (pt.getD 1 0)
  rw [goint.mul_of_fits _ _ (by omega) (by omega), goint.mul_of_fits _ _ (by omega) (by omega),
    goint.add_of_fits _ _ (by omega) hfit]

theorem coords_toPoint (pt : List Int) (h : pt.length = 2) :
    (fun p : Point => [p.x, p.y]) (toPoint pt) = pt := by
  match pt, h with
  | [x, y], _ => simp [toPoint]

theorem sqDist_coords_toPoint (pt : List Int) (hfit : sqDist pt ≤ 9223372036854775807) :
    sqDist ((fun p : Point => [p.x, p.y]) (toPoint pt)) = (toPoint pt).distance := by
  rw [toPoint_distance pt hfit]
  simp [toPoint, sqDist]

theorem kClosestPoints_loop_eq (k : Int) :
    ∀ (points : List (List Int)) (h0 : List Point), (∀ p ∈ points, p.length = 2) →
      points.foldlM (KClosestPoints.body k) h0 =
      (points.map toPoint).foldlM (heap.pushEvict PointHeap.less k) h0 := by
  intro points
  induction points with
  | nil => intro h0 _; rfl
  | cons pt rest ih =>
    intro h0 hp
    simp only [List.foldlM_cons, List.map_cons]
    have hb : KClosestPoints.body k h0 pt = heap.pushEvict PointHeap.less k h0 (toPoint pt) := by
      unfold KClosestPoints.body
      rw [mkPoint_of_length pt (hp pt (List.mem_cons_self _ _))]
    rw [hb]
    cases hpe : heap.pushEvict PointHeap.less k h0 (toPoint pt) with
    | none => rfl
    | some h1 =>
      simp only [Option.bind_eq_bind, Option.some_bind]
      exact ih h1 (fun p hp1 => hp p (List.mem_cons_of_mem _ hp1))

/-- What `KClosestPoints` computes on a list of two-coordinate points when
`1 ≤ k ≤ len(points)`: the heap `h` after the first loop holds `k` of the
points, no retained point is farther than a discarded one, and the result is
the heap emptied by `k` extractions, farthest first, written back to front. -/
theorem kClosestPoints_core (points : List (List Int)) (k : Nat)
    (hpair : ∀ p ∈ points, p.length = 2) (h1 : 1 ≤ k) (h2 : k ≤ points.length) :
    ∃ (h rest ps : List Point), KClosestPoints.loop points k = some h ∧
      KClosestPoints points k = some (ps.reverse.map (fun p : Point => [p.x, p.y])) ∧
      ps.Perm h ∧ (h ++ rest).Perm (points.map toPoint) ∧ h.length = k ∧
      (∀ a ∈ h, ∀ b ∈ rest, a.distance ≤ b.distance) ∧
      ps.Pairwise (fun a b => b.distance ≤ a.distance) ∧
      (h.map (fun p : Point => -p.distance)).Perm
        ((((points.map toPoint).map (fun p : Point => -p.distance)).insertionSort
          (fun a b => a ≥ b)).take k) := by
  obtain ⟨h, rest, e1, e2, e3, e4, e5, e6⟩ :=
    heap.selectLoop_keys (fun p : Point => -p.distance) PointHeap.less pointHeap_less_iff
      (k : Int) (points.map toPoint)
  have hloop : KClosestPoints.loop points k = some h := by
    unfold KClosestPoints.loop
    rw [heap.init_nil, kClosestPoints_loop_eq (k : Int) points [] hpair]
    exact e1
  have hlen : h.length = k := by
    rw [e4]; simp; omega
  obtain ⟨ps, f1, f2, f3⟩ :=
    heap.popN_all (fun p : Point => -p.distance) PointHeap.less pointHeap_less_iff h e2
  rw [hlen] at f1
  refine ⟨h, rest, ps, hloop, ?_, f2, e3, hlen, ?_, ?_, ?_⟩
  · unfold KClosestPoints
    rw [hloop]
    simp only
    rw [if_neg (by omega)]
    simp only [Int.toNat_ofNat, f1]
  · intro a ha b hb
    have := e5 a ha b hb
    simp only at this
    omega
  · refine f3.imp ?_
    intro a b hab
    simp only at hab
    omega
  · simpa using e6


theorem kClosestPoints_result_spec (points : List (List Int)) (k : Nat)
    (hpair : ∀ p ∈ points, p.length = 2)
    (hfit : ∀ p ∈ points, sqDist p ≤ 9223372036854775807)
    (h1 : 1 ≤ k) (h2 : k ≤ points.length) :
    ∃ (result rest : List (List Int)), KClosestPoints points k = some result ∧
      result.length = k ∧ (result ++ rest).Perm points ∧
      (∀ q ∈ result, ∀ p ∈ rest, sqDist q ≤ sqDist p) ∧
      (result.map (fun p => -sqDist p)).Perm
        (((points.map (fun p => -sqDist p)).insertionSort (fun a b => a ≥ b)).take k) := by
  obtain ⟨h, rest, ps, _, e2, e3, e4, e5, e6, _, e8⟩ :=
    kClosestPoints_core points k hpair h1 h2
  have hback : (points.map toPoint).map (fun p : Point => [p.x, p.y]) = points := by
    rw [List.map_map]
    conv_rhs => rw [← List.map_id points]
    apply List.map_congr_left
    intro pt hpt
    exact coords_toPoint pt (hpair pt hpt)
  have hmemh : ∀ a ∈ h, a ∈ points.map toPoint :=
    fun a ha => e4.mem_iff.1 (List.mem_append_left _ ha)
  have hmemr : ∀ a ∈ rest, a ∈ points.map toPoint :=
    fun a ha => e4.mem_iff.1 (List.mem_append_right _ ha)
  have hdist : ∀ a ∈ points.map toPoint,
      sqDist ((fun p : Point => [p.x, p.y]) a) = a.distance := by
    intro a ha
    obtain ⟨pt, hpt, rfl⟩ := List.mem_map.1 ha
    exact sqDist_coords_toPoint pt (hfit pt hpt)
  refine ⟨ps.reverse.map (fun p : Point => [p.x, p.y]),
    rest.map (fun p : Point => [p.x, p.y]), e2, ?_, ?_, ?_, ?_⟩
  · simp [e3.length_eq, e5]
  · rw [← List.map_append, ← hback]
    apply List.Perm.map
    exact ((List.reverse_perm ps).trans e3).append_right rest |>.trans e4
  · intro q hq p hp
    obtain ⟨a, ha, rfl⟩ := List.mem_map.1 hq
    obtain ⟨b, hb, rfl⟩ := List.mem_map.1 hp
    have ha' : a ∈ h := e3.mem_iff.1 (List.mem_reverse.1 ha)
    rw [hdist a (hmemh a ha'), hdist b (hmemr b hb)]
    exact e6 a ha' b hb
  · have q1 : (ps.reverse.map (fun p : Point => [p.x, p.y])).map (fun p => -sqDist p)
        = ps.reverse.map (fun p : Point => -p.distance) := by
      rw [List.map_map]
      apply List.map_congr_left
      intro a ha
      have ha' : a ∈ h := e3.mem_iff.1 (List.mem_reverse.1 ha)
      simp only [Function.comp]
      rw [hdist a (hmemh a ha')]
    have q2 : (points.map toPoint).map (fun p : Point => -p.distance)
        = points.map (fun p => -sqDist p) := by
      rw [List.map_map]
      apply List.map_congr_left
      intro pt hpt
      simp only [Function.comp]
      rw [toPoint_distance pt (hfit pt hpt)]
    rw [q1, ← q2]
    exact (((List.reverse_perm ps).trans e3).map _).trans e8

/-- Counterexample to claim C4 as stated: on `[[3037000500, 0], [1, 0]]` with
`k = 1` the product `3037000500 * 3037000500` wraps to a negative `int`, the
far point is taken for the nearest, and the call returns `[[3037000500, 0]]`
although the point `[1, 0]` that is left out has the smaller squared distance. -/
theorem KClosestPoints_overflow_counterexample :
    KClosestPoints [[3037000500, 0], [1, 0]] 1 = some [[3037000500, 0]] ∧
    ([[3037000500, 0]] ++ [[1, 0]] : List (List Int)).Perm [[3037000500, 0], [1, 0]] ∧
    sqDist [1, 0] < sqDist [3037000500, 0] := by
  decide

/-- Claim C4 as amended: for a list of points with two coordinates each whose
squared distances `x*x + y*y` fit in an `int` (are at most `math.MaxInt64`) and
`1 ≤ k ≤ len(points)`, `KClosestPoints` returns exactly `k` points that form a
sub-multiset of the input (`result ++ rest` is a permutation of `points`), and
every point left out (`rest`) has a squared distance greater than or equal to
that of every returned point. -/
theorem KClosestPoints_k_closest (points : List (List Int)) (k : Nat)
    (hpair : ∀ p ∈ points, p.length = 2)
    (hfit : ∀ p ∈ points, sqDist p ≤ 9223372036854775807)
    (h1 : 1 ≤ k) (h2 : k ≤ points.length) :
    ∃ (result rest : List (List Int)), KClosestPoints points k = some result ∧
      result.length = k ∧ (result ++ rest).Perm points ∧
      ∀ q ∈ result, ∀ p ∈ rest, sqDist q ≤ sqDist p := by
  obtain ⟨result, rest, e1, e2, e3, e4, _⟩ :=
    kClosestPoints_result_spec points k hpair hfit h1 h2
  exact ⟨result, rest, e1, e2, e3, e4⟩

/-- Witness of the amended claim C4 on the first case of `TestKClosestPoints`. -/
theorem KClosestPoints_k_closest_witness :
    (∀ p ∈ ([[1, 3], [-2, 2], [5, -1]] : List (List Int)), p.length = 2) ∧
    (∀ p ∈ ([[1, 3], [-2, 2], [5, -1]] : List (List Int)), sqDist p ≤ 9223372036854775807) ∧
    1 ≤ 2 ∧ 2 ≤ ([[1, 3], [-2, 2], [5, -1]] : List (List Int)).length ∧
    ∃ (result rest : List (List Int)),
      KClosestPoints [[1, 3], [-2, 2], [5, -1]] ((2 : Nat) : Int) = some result ∧
      result.length = 2 ∧ (result ++ rest).Perm [[1, 3], [-2, 2], [5, -1]] ∧
      ∀ q ∈ result, ∀ p ∈ rest, sqDist q ≤ sqDist p :=
  ⟨by decide, by decide, by decide, by decide,
    KClosestPoints_k_closest [[1, 3], [-2, 2], [5, -1]] 2 (by decide) (by decide) (by decide)
      (by decide)⟩

/-- Counterexample to claim C10: `[[0,1],[1,0]]` is a permutation of
`[[1,0],[0,1]]`, both points have squared distance `1`, and with `k = 1` the
first list yields `[[0,1]]` while the second yields `[[1,0]]`, which are
different multisets.  And on `[[4294967296, 0], [0, 0]]` and its swap, where
`4294967296 * 4294967296` wraps to `0`, the two calls with `k = 1` return
`[[0, 0]]` and `[[4294967296, 0]]`, points of different squared distance. -/
theorem KClosestPoints_perm_counterexample :
    ([[0, 1], [1, 0]] : List (List Int)).Perm [[1, 0], [0, 1]] ∧
    KClosestPoints [[1, 0], [0, 1]] 1 = some [[0, 1]] ∧
    KClosestPoints [[0, 1], [1, 0]] 1 = some [[1, 0]] ∧
    ¬ ([[1, 0]] : List (List Int)).Perm [[0, 1]] ∧
    ([[0, 0], [4294967296, 0]] : List (List Int)).Perm [[4294967296, 0], [0, 0]] ∧
    KClosestPoints [[4294967296, 0], [0, 0]] 1 = some [[0, 0]] ∧
    KClosestPoints [[0, 0], [4294967296, 0]] 1 = some [[4294967296, 0]] ∧
    sqDist [0, 0] ≠ sqDist [4294967296, 0] := by
  decide

/-- Claim C10 as amended: for a list of points with two coordinates each whose
squared distances fit in an `int` (are at most `math.MaxInt64`), a permutation
of it and `1 ≤ k ≤ len(points)`, the two results of `KClosestPoints` have the
same multiset of squared distances; and they are the same multiset of points
whenever different points of the list have different squared distances. -/
theorem KClosestPoints_perm_distances (points points1 : List (List Int)) (k : Nat)
    (hpair : ∀ p ∈ points, p.length = 2)
    (hfit : ∀ p ∈ points, sqDist p ≤ 9223372036854775807)
    (h1 : 1 ≤ k) (h2 : k ≤ points.length)
    (hperm : points1.Perm points) :
    ∃ (r r1 : List (List Int)), KClosestPoints points k = some r ∧
      KClosestPoints points1 k = some r1 ∧
      (r1.map sqDist).Perm (r.map sqDist) ∧
      ((∀ p ∈ points, ∀ q ∈ points, sqDist p = sqDist q → p = q) → r1.Perm r) := by
  have hpair1 : ∀ p ∈ points1, p.length = 2 := fun p hp => hpair p (hperm.mem_iff.1 hp)
  have hfit1 : ∀ p ∈ points1, sqDist p ≤ 9223372036854775807 :=
    fun p hp => hfit p (hperm.mem_iff.1 hp)
  obtain ⟨r, rest, e1, _, e3, _, e5⟩ := kClosestPoints_result_spec points k hpair hfit h1 h2
  obtain ⟨r1, rest1, f1, _, f3, _, f5⟩ :=
    kClosestPoints_result_spec points1 k hpair1 hfit1 h1 (by rw [hperm.length_eq]; exact h2)
  have hs : (points1.map (fun p => -sqDist p)).insertionSort (fun a b => a ≥ b)
      = (points.map (fun p => -sqDist p)).insertionSort (fun a b => a ≥ b) :=
    sorting.insertionSort_congr (fun a b : Int => a ≥ b) (hperm.map _)
  rw [hs] at f5
  have hneg : (r1.map (fun p => -sqDist p)).Perm (r.map (fun p => -sqDist p)) := f5.trans e5.symm
  have hd : (r1.map sqDist).Perm (r.map sqDist) := by
    have := hneg.map (fun z : Int => -z)
    rw [List.map_map, List.map_map] at this
    have e : ((fun z : Int => -z) ∘ fun p => -sqDist p) = sqDist := by
      funext p; simp
    rw [e] at this
    exact this
  refine ⟨r, r1, e1, f1, hd, ?_⟩
  intro hinj
  have hg : ∀ p ∈ points,
      ((points.find? (fun q => decide (sqDist q = sqDist p))).getD []) = p := by
    intro p hp
    cases hf : points.find? (fun q => decide (sqDist q = sqDist p)) with
    | none =>
      have := List.find?_eq_none.1 hf p hp
      simp at this
    | some q =>
      have hq1 := List.find?_some hf
      have hq2 := List.mem_of_find?_eq_some hf
      simp only [decide_eq_true_eq] at hq1
      exact hinj q hq2 p hp hq1
  have hr : r = (r.map sqDist).map
      (fun d => (points.find? (fun q => decide (sqDist q = d))).getD []) := by
    rw [List.map_map]
    conv_lhs => rw [← List.map_id r]
    apply List.map_congr_left
    intro p hp
    exact (hg p (e3.mem_iff.1 (List.mem_append_left _ hp))).symm
  have hr1 : r1 = (r1.map sqDist).map
      (fun d => (points.find? (fun q => decide (sqDist q = d))).getD []) := by
    rw [List.map_map]
    conv_lhs => rw [← List.map_id r1]
    apply List.map_congr_left
    intro p hp
    exact (hg p (hperm.mem_iff.1 (f3.mem_iff.1 (List.mem_append_left _ hp)))).symm
  rw [hr, hr1]
  exact hd.map _

/-- Witness of the amended claim C10 on the tie of the counterexample. -/
theorem KClosestPoints_perm_distances_witness :
    (∀ p ∈ ([[1, 0], [0, 1]] : List (List Int)), p.length = 2) ∧
    (∀ p ∈ ([[1, 0], [0, 1]] : List (List Int)), sqDist p ≤ 9223372036854775807) ∧ 1 ≤ 1 ∧
    1 ≤ ([[1, 0], [0, 1]] : List (List Int)).length ∧
    ([[0, 1], [1, 0]] : List (List Int)).Perm [[1, 0], [0, 1]] ∧
    ∃ (r r1 : List (List Int)), KClosestPoints [[1, 0], [0, 1]] ((1 : Nat) : Int) = some r ∧
      KClosestPoints [[0, 1], [1, 0]] ((1 : Nat) : Int) = some r1 ∧
      (r1.map sqDist).Perm (r.map sqDist) ∧
      ((∀ p ∈ ([[1, 0], [0, 1]] : List (List Int)), ∀ q ∈ ([[1, 0], [0, 1]] : List (List Int)),
        sqDist p = sqDist q → p = q) → r1.Perm r) :=
  ⟨by decide, by decide, by decide, by decide, by decide,
    KClosestPoints_perm_distances [[1, 0], [0, 1]] [[0, 1], [1, 0]] 1 (by decide) (by decide)
      (by decide) (by decide) (by decide)⟩

end topk

/-! ### `TopKFrequent` -/

namespace heap
variable {α : Type}

theorem foldl_push_spec (key : α → Int) (less : α → α → Bool)
    (hk : ∀ a b, less a b = true ↔ key a < key b) :
    ∀ (xs h0 : List α), IsHeap key h0 →
      IsHeap key (xs.foldl (push less) h0) ∧ (xs.foldl (push less) h0).Perm (h0 ++ xs) := by
  intro xs
  induction xs with
  | nil => intro h0 hh; exact ⟨hh, by simp⟩
  | cons x xs ih =>
    intro h0 hh
    obtain ⟨g1, g2⟩ := ih (push less h0 x) (push_heap key less hk h0 x hh)
    refine ⟨g1, ?_⟩
    simp only [List.foldl_cons]
    refine g2.trans ?_
    have p1 : (push less h0 x ++ xs).Perm ((x :: h0) ++ xs) :=
      (push_perm less h0 x).append_right xs
    exact p1.trans (List.perm_middle.symm)

end heap

namespace topk

theorem pairHeap_less_iff (a b : Pair) :
    PairHeap.less a b = true ↔ (fun p : Pair => -p.Count) a < (fun p : Pair => -p.Count) b := by
  simp [PairHeap.less]

theorem freqGet_incr (x v : Int) :
    ∀ m : List Pair, freqGet (freqIncr m x) v = freqGet m v + (if v = x then 1 else 0) := by
  intro m
  induction m with
  | nil =>
    by_cases c : v = x
    · subst c; simp [freqIncr, freqGet]
    · have c2 : ¬ x = v := fun e => c e.symm
      simp [freqIncr, freqGet, c, c2]
  | cons p m ih =>
    unfold freqIncr
    by_cases c1 : p.Num = x
    · rw [if_pos c1]
      by_cases c2 : v = x
      · subst c2; simp [freqGet, c1]
      · have c3 : ¬ p.Num = v := fun e => c2 (e.symm.trans c1)
        simp [freqGet, c2, c3]
    · rw [if_neg c1]
      by_cases c3 : p.Num = v
      · have c2 : ¬ v = x := fun e => c1 (c3.trans e)
        simp [freqGet, c2, c3]
      · have e1 : freqGet (p :: freqIncr m x) v = freqGet (freqIncr m x) v := by
          simp [freqGet, c3]
        have e2 : freqGet (p :: m) v = freqGet m v := by
          simp [freqGet, c3]
        rw [e1, e2, ih]

theorem freqIncr_keys (x : Int) :
    ∀ m : List Pair, (freqIncr m x).map Pair.Num =
      if x ∈ m.map Pair.Num then m.map Pair.Num else m.map Pair.Num ++ [x] := by
  intro m
  induction m with
  | nil => simp [freqIncr]
  | cons p m ih =>
    unfold freqIncr
    by_cases c1 : p.Num = x
    · rw [if_pos c1]; simp [c1]
    · rw [if_neg c1]
      have c2 : ¬ x = p.Num := fun e => c1 e.symm
      simp only [List.map_cons, List.mem_cons, c2, false_or, ih]
      split_ifs <;> simp

theorem freqMap_fold (v : Int) :
    ∀ (nums : List Int) (m : List Pair), (m.map Pair.Num).Nodup →
      freqGet (nums.foldl freqIncr m) v = freqGet m v + (nums.count v : Int) ∧
      ((nums.foldl freqIncr m).map Pair.Num).Nodup ∧
      (v ∈ (nums.foldl freqIncr m).map Pair.Num ↔ v ∈ m.map Pair.Num ∨ v ∈ nums) := by
  intro nums
  induction nums with
  | nil => intro m hm; simp [hm]
  | cons x nums ih =>
    intro m hm
    have hnd : ((freqIncr m x).map Pair.Num).Nodup := by
      rw [freqIncr_keys]
      split_ifs with c
      · exact hm
      · exact List.Nodup.append hm (by simp) (by simpa using c)
    obtain ⟨g1, g2, g3⟩ := ih (freqIncr m x) hnd
    refine ⟨?_, g2, ?_⟩
    · simp only [List.foldl_cons, g1, freqGet_incr, List.count_cons]
      by_cases c : v = x
      · subst c; simp; ring
      · have c2 : ¬ x = v := fun e => c e.symm
        simp [c, c2]
    · simp only [List.foldl_cons, g3, freqIncr_keys, List.mem_cons]
      split_ifs with c
      · constructor
        · rintro (h | h)
          · exact Or.inl h
          · exact Or.inr (Or.inr h)
        · rintro (h | h | h)
          · exact Or.inl h
          · subst h; exact Or.inl c
          · exact Or.inr h
      · simp only [List.mem_append, List.mem_singleton]
        tauto

theorem freqGet_of_mem :
    ∀ (m : List Pair), (m.map Pair.Num).Nodup → ∀ p ∈ m, freqGet m p.Num = p.Count := by
  intro m
  induction m with
  | nil => intro _ p hp; simp at hp
  | cons q m ih =>
    intro hnd p hp
    simp only [List.map_cons, List.nodup_cons] at hnd
    rcases List.mem_cons.1 hp with rfl | hp
    · simp [freqGet]
    · have hne : ¬ q.Num = p.Num := by
        intro e
        exact hnd.1 (e ▸ List.mem_map_of_mem Pair.Num hp)
      have : freqGet (q :: m) p.Num = freqGet m p.Num := by
        simp [freqGet, hne]
      rw [this]
      exact ih hnd.2 p hp

/-- The frequency map built by the first loop of `TopKFrequent`: its keys are
pairwise distinct, they are the values of `nums`, and each entry holds the
number of occurrences of its key. -/
theorem freqMap_spec (nums : List Int) :
    ((freqMap nums).map Pair.Num).Nodup ∧
    (∀ p ∈ freqMap nums, p.Num ∈ nums ∧ p.Count = (nums.count p.Num : Int)) ∧
    (∀ v ∈ nums, ∃ p ∈ freqMap nums, p.Num = v) ∧
    (freqMap nums).length = nums.dedup.length := by
  have hnil : (([] : List Pair).map Pair.Num).Nodup := by simp
  have hnd : ((freqMap nums).map Pair.Num).Nodup := (freqMap_fold 0 nums [] hnil).2.1
  have hmem : ∀ v, v ∈ (freqMap nums).map Pair.Num ↔ v ∈ nums := by
    intro v
    have := (freqMap_fold v nums [] hnil).2.2
    simpa [freqMap] using this
  refine ⟨hnd, ?_, ?_, ?_⟩
  · intro p hp
    refine ⟨(hmem p.Num).1 (List.mem_map_of_mem Pair.Num hp), ?_⟩
    have h1 := freqGet_of_mem (freqMap nums) hnd p hp
    have h2 := (freqMap_fold p.Num nums [] hnil).1
    have h3 : freqGet [] p.Num = 0 := rfl
    rw [h3, zero_add] at h2
    rw [← h1]
    exact h2
  · intro v hv
    obtain ⟨p, hp, rfl⟩ := List.mem_map.1 ((hmem v).2 hv)
    exact ⟨p, hp, rfl⟩
  · have hp : ((freqMap nums).map Pair.Num).Perm nums.dedup := by
      rw [List.perm_ext_iff_of_nodup hnd (List.nodup_dedup nums)]
      intro v
      rw [hmem v, List.mem_dedup]
    have := hp.length_eq
    simpa using this


/-- Claim C5: for a list `nums`, `1 ≤ k ≤` (number of distinct values of
`nums`) and every iteration order `iter` of the frequency map (a permutation of
its entries), `TopKFrequent` returns exactly `k` pairwise distinct values that
all occur in `nums`, and every value of `nums` that is not returned occurs in
`nums` no more often than any returned value. -/
theorem TopKFrequent_top_k (nums : List Int) (k : Nat) (iter : List Pair)
    (hiter : iter.Perm (freqMap nums)) (h1 : 1 ≤ k) (h2 : k ≤ nums.dedup.length) :
    ∃ r : List Int, TopKFrequent iter k = some r ∧ r.length = k ∧ r.Nodup ∧
      (∀ v ∈ r, v ∈ nums) ∧
      ∀ v ∈ nums, v ∉ r → ∀ w ∈ r, nums.count v ≤ nums.count w := by
  obtain ⟨hnd, hcount, hall, hlen⟩ := freqMap_spec nums
  obtain ⟨g1, g2⟩ := heap.foldl_push_spec (fun p : Pair => -p.Count) PairHeap.less
    pairHeap_less_iff iter [] (heap.isHeap_nil _)
  simp only [List.nil_append] at g2
  have hhl : (iter.foldl (heap.push PairHeap.less) []).length = nums.dedup.length := by
    rw [g2.length_eq, hiter.length_eq, hlen]
  obtain ⟨ps, h', e1, e2, e3, _, e5, _⟩ :=
    heap.popN_spec (fun p : Pair => -p.Count) PairHeap.less pairHeap_less_iff k
      (iter.foldl (heap.push PairHeap.less) []) g1 (by omega)
  have hperm : (ps ++ h').Perm (freqMap nums) := e2.trans (g2.trans hiter)
  have hps : ∀ a ∈ ps, a ∈ freqMap nums :=
    fun a ha => hperm.mem_iff.1 (List.mem_append_left _ ha)
  refine ⟨ps.map Pair.Num, ?_, by simp [e3], ?_, ?_, ?_⟩
  · unfold TopKFrequent
    rw [heap.init_nil]
    simp only
    rw [if_neg (by omega)]
    simp only [Int.toNat_ofNat, e1]
  · have hnd2 : ((ps ++ h').map Pair.Num).Nodup := (hperm.map Pair.Num).nodup_iff.2 hnd
    rw [List.map_append] at hnd2
    exact (List.nodup_append.1 hnd2).1
  · intro v hv
    obtain ⟨a, ha, rfl⟩ := List.mem_map.1 hv
    exact (hcount a (hps a ha)).1
  · intro v hv hvr w hw
    obtain ⟨a, ha, rfl⟩ := List.mem_map.1 hw
    obtain ⟨b, hb, rfl⟩ := hall v hv
    have hb' : b ∈ h' := by
      rcases List.mem_append.1 (hperm.mem_iff.2 hb) with hb1 | hb1
      · exact absurd (List.mem_map_of_mem Pair.Num hb1) hvr
      · exact hb1
    have hle := e5 a ha b hb'
    simp only at hle
    have ca := (hcount a (hps a ha)).2
    have cb := (hcount b hb).2
    omega

/-- Witness of claim C5 on the first case of `TestTopKFrequent`, the
frequency map being iterated in reverse order of first occurrence. -/
theorem TopKFrequent_top_k_witness :
    (freqMap [1, 1, 1, 2, 2, 3]).reverse.Perm (freqMap [1, 1, 1, 2, 2, 3]) ∧ 1 ≤ 2 ∧
    2 ≤ ([1, 1, 1, 2, 2, 3] : List Int).dedup.length ∧
    ∃ r : List Int, TopKFrequent (freqMap [1, 1, 1, 2, 2, 3]).reverse ((2 : Nat) : Int) = some r ∧
      r.length = 2 ∧ r.Nodup ∧ (∀ v ∈ r, v ∈ ([1, 1, 1, 2, 2, 3] : List Int)) ∧
      ∀ v ∈ ([1, 1, 1, 2, 2, 3] : List Int), v ∉ r →
        ∀ w ∈ r, ([1, 1, 1, 2, 2, 3] : List Int).count v ≤ ([1, 1, 1, 2, 2, 3] : List Int).count w :=
  ⟨List.reverse_perm _, by decide, by decide,
    TopKFrequent_top_k [1, 1, 1, 2, 2, 3] 2 (freqMap [1, 1, 1, 2, 2, 3]).reverse
      (List.reverse_perm _) (by decide) (by decide)⟩

end topk

/-! ### `KthSmallestInMatrix` -/

namespace topk

theorem matrixHeap_less_iff (a b : MatrixCell) :
    MatrixHeap.less a b = true ↔ MatrixCell.val a < MatrixCell.val b := by
  simp [MatrixHeap.less]

theorem matrixAt_eq (matrix : List (List Int)) (i j : Nat) :
    matrixAt matrix i j = (matrix.getD i [])[j]? := by
  unfold matrixAt
  rw [List.getD_eq_getElem?_getD]
  cases matrix[i]? with
  | none => simp
  | some r => simp

theorem getD_mem_of_matrixAt (matrix : List (List Int)) (i j : Nat) (v : Int)
    (h : matrixAt matrix i j = some v) : matrix.getD i [] ∈ matrix := by
  unfold matrixAt at h
  rw [List.getD_eq_getElem?_getD]
  cases hr : matrix[i]? with
  | none => rw [hr] at h; simp at h
  | some r =>
    simp only [Option.getD_some]
    exact List.getElem?_mem hr

theorem tailOf_cons (matrix : List (List Int)) (n : Nat) (c : MatrixCell) (v : Int)
    (hc : c.col < n) (hv : matrixAt matrix c.row c.col = some c.val) :
    KthSmallestInMatrix.tailOf matrix n c =
      c.val :: KthSmallestInMatrix.tailOf matrix n ⟨v, c.row, c.col + 1⟩ := by
  unfold KthSmallestInMatrix.tailOf
  rw [matrixAt_eq] at hv
  obtain ⟨hlt, he⟩ := List.getElem?_eq_some.1 hv
  have hl : c.col < ((matrix.getD c.row []).take n).length := by
    rw [List.length_take]; omega
  rw [List.drop_eq_getElem_cons hl, List.getElem_take, he]

theorem tailOf_sorted (matrix : List (List Int)) (n : Nat) (c : MatrixCell)
    (hsorted : ∀ row ∈ matrix, row.Sorted (fun a b => a ≤ b)) :
    (KthSmallestInMatrix.tailOf matrix n c).Sorted (fun a b => a ≤ b) := by
  unfold KthSmallestInMatrix.tailOf
  have hrow : (matrix.getD c.row []).Sorted (fun a b => a ≤ b) := by
    rw [List.getD_eq_getElem?_getD]
    cases hr : matrix[c.row]? with
    | none => simp
    | some r =>
      simp only [Option.getD_some]
      exact hsorted r (List.getElem?_mem hr)
  exact List.Pairwise.sublist
    ((List.drop_sublist _ _).trans (List.take_sublist _ _)) hrow

theorem tailOf_head_le (matrix : List (List Int)) (n : Nat) (c : MatrixCell)
    (hsorted : ∀ row ∈ matrix, row.Sorted (fun a b => a ≤ b))
    (hc : c.col < n) (hv : matrixAt matrix c.row c.col = some c.val) :
    c.val ∈ KthSmallestInMatrix.tailOf matrix n c ∧
      ∀ x ∈ KthSmallestInMatrix.tailOf matrix n c, c.val ≤ x := by
  have hs := tailOf_sorted matrix n c hsorted
  rw [tailOf_cons matrix n c 0 hc hv] at hs ⊢
  refine ⟨List.mem_cons_self _ _, ?_⟩
  intro x hx
  rcases List.mem_cons.1 hx with rfl | hx
  · exact le_refl _
  · exact List.rel_of_sorted_cons hs x hx

theorem tailOf_end (matrix : List (List Int)) (n : Nat) (v : Int) (row col : Nat)
    (hc : n ≤ col) : KthSmallestInMatrix.tailOf matrix n ⟨v, row, col⟩ = [] := by
  unfold KthSmallestInMatrix.tailOf
  apply List.drop_eq_nil_of_le
  rw [List.length_take]
  simp only
  omega

theorem rem_perm (matrix : List (List Int)) (n : Nat) (h g : List MatrixCell) (p : h.Perm g) :
    (KthSmallestInMatrix.rem matrix n h).Perm (KthSmallestInMatrix.rem matrix n g) :=
  List.Perm.flatMap_right _ p

theorem rem_cons (matrix : List (List Int)) (n : Nat) (c : MatrixCell) (h : List MatrixCell) :
    KthSmallestInMatrix.rem matrix n (c :: h) =
      KthSmallestInMatrix.tailOf matrix n c ++ KthSmallestInMatrix.rem matrix n h := by
  simp [KthSmallestInMatrix.rem]

theorem rem_head_le (matrix : List (List Int)) (n : Nat) (h : List MatrixCell)
    (hsorted : ∀ row ∈ matrix, row.Sorted (fun a b => a ≤ b))
    (hcur : ∀ c ∈ h, c.col < n ∧ matrixAt matrix c.row c.col = some c.val) :
    ∀ x ∈ KthSmallestInMatrix.rem matrix n h, ∃ c ∈ h, c.val ≤ x := by
  intro x hx
  unfold KthSmallestInMatrix.rem at hx
  obtain ⟨c, hc, hxc⟩ := List.mem_flatMap.1 hx
  exact ⟨c, hc, (tailOf_head_le matrix n c hsorted (hcur c hc).1 (hcur c hc).2).2 x hxc⟩


theorem kthSmallest_step (matrix : List (List Int)) (n : Nat)
    (hrows : ∀ row ∈ matrix, n ≤ row.length)
    (hsorted : ∀ row ∈ matrix, row.Sorted (fun a b => a ≤ b))
    (h : List MatrixCell) (E : List Int) (hinv : KthSmallestInMatrix.Inv matrix n h E)
    (hne : h ≠ []) :
    ∃ (h1 : List MatrixCell) (m : MatrixCell), h[0]? = some m ∧
      KthSmallestInMatrix.step matrix n h = some h1 ∧
      KthSmallestInMatrix.Inv matrix n h1 (E ++ [m.val]) := by
  obtain ⟨hheap, hcur, hperm, hle⟩ := hinv
  obtain ⟨m, h0, e1, e2, e3, _, e5⟩ :=
    heap.pop_spec MatrixCell.val MatrixHeap.less matrixHeap_less_iff h hne
  have hmh : m ∈ h := e3.mem_iff.1 (List.mem_cons_self _ _)
  have hh0 : ∀ c ∈ h0, c ∈ h := fun c hc => e3.mem_iff.1 (List.mem_cons_of_mem _ hc)
  obtain ⟨hmc, hmv⟩ := hcur m hmh
  have hmin := heap.root_min MatrixCell.val h hheap m e2
  have hrem0 : (KthSmallestInMatrix.rem matrix n h).Perm
      (KthSmallestInMatrix.tailOf matrix n m ++ KthSmallestInMatrix.rem matrix n h0) := by
    rw [← rem_cons]
    exact rem_perm matrix n _ _ e3.symm
  have hminrem : ∀ x ∈ KthSmallestInMatrix.rem matrix n h, m.val ≤ x := by
    intro x hx
    obtain ⟨c, hc, hcx⟩ := rem_head_le matrix n h hsorted hcur x hx
    have := hmin c hc
    omega
  -- the state after the optional push, described uniformly
  have key : ∀ (v : Int) (h1 : List MatrixCell),
      heap.IsHeap MatrixCell.val h1 →
      (∀ c ∈ h1, c.col < n ∧ matrixAt matrix c.row c.col = some c.val) →
      (KthSmallestInMatrix.rem matrix n h1).Perm
        (KthSmallestInMatrix.tailOf matrix n ⟨v, m.row, m.col + 1⟩ ++
          KthSmallestInMatrix.rem matrix n h0) →
      KthSmallestInMatrix.Inv matrix n h1 (E ++ [m.val]) := by
    intro v h1 g1 g2 g3
    have hsplit : (KthSmallestInMatrix.rem matrix n h).Perm
        (m.val :: KthSmallestInMatrix.rem matrix n h1) := by
      refine hrem0.trans ?_
      rw [tailOf_cons matrix n m v hmc hmv]
      exact List.Perm.cons _ g3.symm
    refine ⟨g1, g2, ?_, ?_⟩
    · rw [List.append_assoc, List.singleton_append]
      exact (List.Perm.append_left E hsplit.symm).trans hperm
    · intro e he x hx
      have hx' : x ∈ KthSmallestInMatrix.rem matrix n h :=
        hsplit.mem_iff.2 (List.mem_cons_of_mem _ hx)
      rcases List.mem_append.1 he with he | he
      · exact hle e he x hx'
      · rw [List.mem_singleton.1 he]
        exact hminrem x hx'
  by_cases c : m.col < n - 1
  · have hrow := hrows _ (getD_mem_of_matrixAt matrix m.row m.col m.val hmv)
    obtain ⟨v, hnext⟩ : ∃ v, matrixAt matrix m.row (m.col + 1) = some v := by
      rw [matrixAt_eq]
      exact ⟨_, List.getElem?_eq_getElem (by omega)⟩
    refine ⟨heap.push MatrixHeap.less h0 ⟨v, m.row, m.col + 1⟩, m, e2, ?_,
      key v _ ?_ ?_ ?_⟩
    · unfold KthSmallestInMatrix.step
      rw [e1]
      simp only
      rw [if_pos c, hnext]
    · exact heap.push_heap MatrixCell.val MatrixHeap.less matrixHeap_less_iff _ _ (e5 hheap)
    · intro c1 hc1
      rcases List.mem_cons.1 ((heap.push_perm MatrixHeap.less _ _).mem_iff.1 hc1) with rfl | hc1
      · exact ⟨by simp only; omega, hnext⟩
      · exact hcur c1 (hh0 c1 hc1)
    · rw [← rem_cons]
      exact rem_perm matrix n _ _ (heap.push_perm MatrixHeap.less _ _)
  · refine ⟨h0, m, e2, ?_, key 0 h0 (e5 hheap) (fun c1 hc1 => hcur c1 (hh0 c1 hc1)) ?_⟩
    · unfold KthSmallestInMatrix.step
      rw [e1]
      simp only
      rw [if_neg c]
    · rw [tailOf_end matrix n 0 m.row (m.col + 1) (by omega)]
      simp

theorem inv_length (matrix : List (List Int)) (n : Nat) (h : List MatrixCell) (E : List Int)
    (hinv : KthSmallestInMatrix.Inv matrix n h E) :
    E.length + (KthSmallestInMatrix.rem matrix n h).length
      = ((matrix.map (List.take n)).flatten).length := by
  have := hinv.2.2.1.length_eq
  simpa using this

theorem inv_ne_nil (matrix : List (List Int)) (n : Nat) (h : List MatrixCell) (E : List Int)
    (hinv : KthSmallestInMatrix.Inv matrix n h E)
    (hlt : E.length < ((matrix.map (List.take n)).flatten).length) : h ≠ [] := by
  intro e
  have := inv_length matrix n h E hinv
  rw [e] at this
  have hr : KthSmallestInMatrix.rem matrix n [] = [] := rfl
  rw [hr, List.length_nil] at this
  omega

theorem kthSmallest_loop (matrix : List (List Int)) (n : Nat)
    (hrows : ∀ row ∈ matrix, n ≤ row.length)
    (hsorted : ∀ row ∈ matrix, row.Sorted (fun a b => a ≤ b)) :
    ∀ (t : Nat) (h : List MatrixCell) (E : List Int), KthSmallestInMatrix.Inv matrix n h E →
      E.length + t ≤ ((matrix.map (List.take n)).flatten).length →
      ∃ (h1 : List MatrixCell) (E1 : List Int),
        KthSmallestInMatrix.loop matrix n t h = some h1 ∧
        KthSmallestInMatrix.Inv matrix n h1 E1 ∧ E1.length = E.length + t := by
  intro t
  induction t with
  | zero => intro h E hinv _; exact ⟨h, E, rfl, hinv, rfl⟩
  | succ t ih =>
    intro h E hinv hlen
    have hne := inv_ne_nil matrix n h E hinv (by omega)
    obtain ⟨h1, m, _, e2, e3⟩ := kthSmallest_step matrix n hrows hsorted h E hinv hne
    obtain ⟨h2, E2, f1, f2, f3⟩ := ih h1 (E ++ [m.val]) e3
      (by rw [List.length_append, List.length_singleton]; omega)
    refine ⟨h2, E2, ?_, f2, ?_⟩
    · simp only [KthSmallestInMatrix.loop, e2, f1]
    · rw [f3, List.length_append, List.length_singleton]; omega


theorem map_getD_range (l : List (List Int)) :
    (List.range l.length).map (fun i => l.getD i []) = l := by
  apply List.ext_getElem
  · simp
  · intro i h1 h2
    simp [List.getD_eq_getElem?_getD, List.getElem?_eq_getElem h2]

theorem flatten_take_length (n : Nat) :
    ∀ matrix : List (List Int), (∀ row ∈ matrix, n ≤ row.length) →
      ((matrix.map (List.take n)).flatten).length = matrix.length * n := by
  intro matrix
  induction matrix with
  | nil => intro _; simp
  | cons r rest ih =>
    intro h
    have h1 := h r (List.mem_cons_self _ _)
    have h2 := ih (fun row hr => h row (List.mem_cons_of_mem _ hr))
    simp only [List.map_cons, List.flatten_cons, List.length_append, List.length_take,
      List.length_cons, h2]
    rw [Nat.min_eq_left h1]
    ring

theorem inv_root_min (matrix : List (List Int)) (n : Nat)
    (hsorted : ∀ row ∈ matrix, row.Sorted (fun a b => a ≤ b))
    (h : List MatrixCell) (E : List Int) (hinv : KthSmallestInMatrix.Inv matrix n h E)
    (m : MatrixCell) (hm : h[0]? = some m) :
    m.val ∈ KthSmallestInMatrix.rem matrix n h ∧
      ∀ x ∈ KthSmallestInMatrix.rem matrix n h, m.val ≤ x := by
  obtain ⟨hheap, hcur, _, _⟩ := hinv
  have hmh : m ∈ h := List.getElem?_mem hm
  constructor
  · unfold KthSmallestInMatrix.rem
    exact List.mem_flatMap.2
      ⟨m, hmh, (tailOf_head_le matrix n m hsorted (hcur m hmh).1 (hcur m hmh).2).1⟩
  · intro x hx
    obtain ⟨c, hc, hcx⟩ := rem_head_le matrix n h hsorted hcur x hx
    have := heap.root_min MatrixCell.val h hheap m hm c hc
    omega

theorem seed_fold (matrix : List (List Int))
    (hrows : ∀ row ∈ matrix, matrix.length ≤ row.length) :
    ∀ (idxs : List Nat) (h0 : List MatrixCell), (∀ i ∈ idxs, i < matrix.length) →
      idxs.foldlM (KthSmallestInMatrix.seedBody matrix) h0 =
        some ((idxs.map (fun i => (⟨(matrix.getD i []).getD 0 0, i, 0⟩ : MatrixCell))).foldl
          (heap.push MatrixHeap.less) h0) := by
  intro idxs
  induction idxs with
  | nil => intro h0 _; rfl
  | cons i idxs ih =>
    intro h0 hi
    have hil : i < matrix.length := hi i (List.mem_cons_self _ _)
    have hrow : matrix.length ≤ (matrix.getD i []).length := by
      apply hrows
      rw [List.getD_eq_getElem?_getD, List.getElem?_eq_getElem hil]
      exact List.getElem_mem _
    have hb : KthSmallestInMatrix.seedBody matrix h0 i =
        some (heap.push MatrixHeap.less h0 ⟨(matrix.getD i []).getD 0 0, i, 0⟩) := by
      unfold KthSmallestInMatrix.seedBody
      have : matrixAt matrix i 0 = some ((matrix.getD i []).getD 0 0) := by
        rw [matrixAt_eq, List.getD_eq_getElem?_getD (matrix.getD i []),
          List.getElem?_eq_getElem (by omega : 0 < (matrix.getD i []).length)]
        rfl
      rw [this]
    simp only [List.foldlM_cons, hb, List.map_cons, List.foldl_cons]
    exact ih _ (fun j hj => hi j (List.mem_cons_of_mem _ hj))

theorem kthSmallest_seed (matrix : List (List Int))
    (hrows : ∀ row ∈ matrix, matrix.length ≤ row.length) :
    ∃ h : List MatrixCell, KthSmallestInMatrix.seed matrix matrix.length = some h ∧
      KthSmallestInMatrix.Inv matrix matrix.length h [] := by
  have hfold := seed_fold matrix hrows (List.range matrix.length) []
    (fun i hi => List.mem_range.1 hi)
  obtain ⟨g1, g2⟩ := heap.foldl_push_spec MatrixCell.val MatrixHeap.less matrixHeap_less_iff
    ((List.range matrix.length).map
      (fun i => (⟨(matrix.getD i []).getD 0 0, i, 0⟩ : MatrixCell))) [] (heap.isHeap_nil _)
  simp only [List.nil_append] at g2
  refine ⟨_, ?_, g1, ?_, ?_, by simp⟩
  · unfold KthSmallestInMatrix.seed
    rw [heap.init_nil]
    exact hfold
  · intro c hc
    obtain ⟨i, hi, rfl⟩ := List.mem_map.1 (g2.mem_iff.1 hc)
    have hil : i < matrix.length := List.mem_range.1 hi
    have hrow : matrix.length ≤ (matrix.getD i []).length := by
      apply hrows
      rw [List.getD_eq_getElem?_getD, List.getElem?_eq_getElem hil]
      exact List.getElem_mem _
    refine ⟨by simp only; omega, ?_⟩
    simp only
    rw [matrixAt_eq, List.getD_eq_getElem?_getD (matrix.getD i []),
      List.getElem?_eq_getElem (by omega : 0 < (matrix.getD i []).length)]
    rfl
  · rw [List.nil_append]
    refine (rem_perm matrix _ _ _ g2).trans ?_
    unfold KthSmallestInMatrix.rem KthSmallestInMatrix.tailOf
    rw [List.flatMap_def, List.map_map]
    have e : (List.range matrix.length).map
        ((fun c : MatrixCell => ((matrix.getD c.row []).take matrix.length).drop c.col) ∘
          fun i => (⟨(matrix.getD i []).getD 0 0, i, 0⟩ : MatrixCell))
        = matrix.map (List.take matrix.length) := by
      conv_rhs => rw [← map_getD_range matrix]
      rw [List.map_map]
      apply List.map_congr_left
      intro i _
      simp
    rw [e]


/-- The k-way merge of `KthSmallestInMatrix` on a matrix with `n` rows, each
with at least `n` entries and sorted ascending: for `1 ≤ k ≤ n*n` the result is
the `k`-th smallest entry of the first `n` columns. -/
theorem kthSmallest_merge (matrix : List (List Int)) (k : Nat)
    (hrows : ∀ row ∈ matrix, matrix.length ≤ row.length)
    (hsorted : ∀ row ∈ matrix, row.Sorted (fun a b => a ≤ b))
    (h1 : 1 ≤ k) (h2 : k ≤ matrix.length * matrix.length) :
    ∃ v, KthSmallestInMatrix matrix (k : Int) = some v ∧
      (((matrix.map (List.take matrix.length)).flatten).insertionSort (fun a b => a ≤ b))[k - 1]?
        = some v := by
  have hall := flatten_take_length matrix.length matrix hrows
  obtain ⟨h0, s1, s2⟩ := kthSmallest_seed matrix hrows
  obtain ⟨h, E, l1, l2, l3⟩ := kthSmallest_loop matrix matrix.length hrows hsorted (k - 1) h0 []
    s2 (by rw [hall]; simp only [List.length_nil]; omega)
  simp only [List.length_nil, Nat.zero_add] at l3
  have hne : h ≠ [] := inv_ne_nil matrix matrix.length h E l2 (by rw [hall]; omega)
  obtain ⟨m, hrest, p1, p2, _, _, _⟩ :=
    heap.pop_spec MatrixCell.val MatrixHeap.less matrixHeap_less_iff h hne
  obtain ⟨r1, r2⟩ := inv_root_min matrix matrix.length hsorted h E l2 m p2
  refine ⟨m.val, ?_, ?_⟩
  · have hk : (goint.pred (k : Int)).toNat = k - 1 := by
      rw [goint.pred_of_ne _ (by omega)]
      omega
    cases hm : matrix with
    | nil => rw [hm] at h2; simp at h2; omega
    | cons r rest =>
      cases hr : r with
      | nil =>
        have := hrows r (by rw [hm]; exact List.mem_cons_self _ _)
        rw [hr, hm] at this; simp at this
      | cons a r1 =>
        rw [hm, hr] at s1 l1
        unfold KthSmallestInMatrix
        simp only [hk, s1, l1, p1]
  · obtain ⟨_, _, hperm, hle⟩ := l2
    have hs : ((matrix.map (List.take matrix.length)).flatten).insertionSort (fun a b => a ≤ b)
        = E.insertionSort (fun a b => a ≤ b) ++
          (KthSmallestInMatrix.rem matrix matrix.length h).insertionSort (fun a b => a ≤ b) := by
      rw [← sorting.insertionSort_congr (fun a b : Int => a ≤ b) hperm]
      exact sorting.insertionSort_append (fun a b : Int => a ≤ b) hle
    rw [hs, List.getElem?_append_right (by rw [List.length_insertionSort]; omega),
      List.length_insertionSort, l3, Nat.sub_self]
    have hmem : m.val ∈ (KthSmallestInMatrix.rem matrix matrix.length h).insertionSort
        (fun a b => a ≤ b) := (List.perm_insertionSort _ _).mem_iff.2 r1
    have hpos : 0 < ((KthSmallestInMatrix.rem matrix matrix.length h).insertionSort
        (fun a b => a ≤ b)).length := List.length_pos_of_mem hmem
    rw [List.getElem?_eq_getElem hpos]
    congr 1
    have hhead := sorting.sorted_rel_head (fun a b : Int => a ≤ b)
      (List.sorted_insertionSort _ (KthSmallestInMatrix.rem matrix matrix.length h)) _
      (List.getElem?_eq_getElem hpos) m.val hmem
    have hu := r2 _ ((List.perm_insertionSort _ _).mem_iff.1 (List.getElem_mem hpos))
    rcases hhead with e | e
    · exact e.symm
    · omega

/-- Claim C6: for a square `n × n` matrix (`n ≥ 1`) whose rows are sorted
ascending, with no assumption on the columns, and `1 ≤ k ≤ n*n`,
`KthSmallestInMatrix` returns the `k`-th smallest of all entries (index `k - 1`
of the entries sorted ascending). -/
theorem KthSmallestInMatrix_square_rows_sorted (matrix : List (List Int)) (k : Nat)
    (_hn : 1 ≤ matrix.length) (hsq : ∀ row ∈ matrix, row.length = matrix.length)
    (hsorted : ∀ row ∈ matrix, row.Sorted (fun a b => a ≤ b))
    (h1 : 1 ≤ k) (h2 : k ≤ matrix.length * matrix.length) :
    ∃ v, KthSmallestInMatrix matrix (k : Int) = some v ∧
      (matrix.flatten.insertionSort (fun a b => a ≤ b))[k - 1]? = some v := by
  obtain ⟨v, e1, e2⟩ := kthSmallest_merge matrix k (fun row hr => (hsq row hr).ge) hsorted h1 h2
  refine ⟨v, e1, ?_⟩
  have e : matrix.map (List.take matrix.length) = matrix := by
    conv_rhs => rw [← List.map_id matrix]
    apply List.map_congr_left
    intro row hr
    exact List.take_of_length_le (hsq row hr).le
  rw [e] at e2
  exact e2

/-- Witness of claim C6 on the first case of `TestKthSmallestInMatrix`. -/
theorem KthSmallestInMatrix_square_rows_sorted_witness :
    1 ≤ ([[1, 5, 9], [10, 11, 13], [12, 13, 15]] : List (List Int)).length ∧
    (∀ row ∈ ([[1, 5, 9], [10, 11, 13], [12, 13, 15]] : List (List Int)),
      row.length = ([[1, 5, 9], [10, 11, 13], [12, 13, 15]] : List (List Int)).length) ∧
    (∀ row ∈ ([[1, 5, 9], [10, 11, 13], [12, 13, 15]] : List (List Int)),
      row.Sorted (fun a b => a ≤ b)) ∧
    1 ≤ 8 ∧ 8 ≤ ([[1, 5, 9], [10, 11, 13], [12, 13, 15]] : List (List Int)).length *
      ([[1, 5, 9], [10, 11, 13], [12, 13, 15]] : List (List Int)).length ∧
    ∃ v, KthSmallestInMatrix [[1, 5, 9], [10, 11, 13], [12, 13, 15]] ((8 : Nat) : Int) = some v ∧
      (([[1, 5, 9], [10, 11, 13], [12, 13, 15]] : List (List Int)).flatten.insertionSort
        (fun a b => a ≤ b))[8 - 1]? = some v :=
  ⟨by decide, by decide, by decide, by decide, by decide,
    KthSmallestInMatrix_square_rows_sorted [[1, 5, 9], [10, 11, 13], [12, 13, 15]] 8
      (by decide) (by decide) (by decide) (by decide) (by decide)⟩

/-- Claim C3: the `2 × 3` matrix `[[1,2,3],[4,5,6]]` has sorted rows and sorted
columns and `k = 3` lies in `[1, 2*3]`, yet `KthSmallestInMatrix` returns `4`
while the third smallest entry is `3`: the successor of a cursor is pushed only
while `cell.col < n-1` with `n := len(matrix)`, the number of rows, so the
third column is never merged. -/
theorem KthSmallestInMatrix_rect_wrong_value :
    (∀ row ∈ ([[1, 2, 3], [4, 5, 6]] : List (List Int)), row.length = 3) ∧
    (∀ row ∈ ([[1, 2, 3], [4, 5, 6]] : List (List Int)), row.Sorted (fun a b => a ≤ b)) ∧
    (∀ j ∈ List.range 3, (([[1, 2, 3], [4, 5, 6]] : List (List Int)).map
      (fun row => row.getD j 0)).Sorted (fun a b => a ≤ b)) ∧
    1 ≤ 3 ∧ 3 ≤ ([[1, 2, 3], [4, 5, 6]] : List (List Int)).length * 3 ∧
    KthSmallestInMatrix [[1, 2, 3], [4, 5, 6]] 3 = some 4 ∧
    (([[1, 2, 3], [4, 5, 6]] : List (List Int)).flatten.insertionSort
      (fun a b => a ≤ b))[3 - 1]? = some 3 := by
  decide

end topk

/-! ### Order of the results and behaviour outside the intended range of `k` -/

namespace heap
variable {α : Type}

/-- Extracting more elements than the heap holds panics. -/
theorem popN_none (key : α → Int) (less : α → α → Bool)
    (hk : ∀ a b, less a b = true ↔ key a < key b) :
    ∀ (n : Nat) (h : List α), h.length < n → popN less n h = none := by
  intro n
  induction n with
  | zero => intro h hl; omega
  | succ n ih =>
    intro h hl
    by_cases hne : h = []
    · subst hne; rfl
    · obtain ⟨x, h1, e1, _, _, e4, _⟩ := pop_spec key less hk h hne
      have := ih h1 (by omega)
      simp only [popN, e1, this]

end heap

namespace topk

/-- What `TopKFrequent` computes when `k` does not exceed the number of
distinct values: the `k` entries extracted from the heap, in the order of
extraction, and the entries left in the heap. -/
theorem topKFrequent_core (nums : List Int) (k : Nat) (iter : List Pair)
    (hiter : iter.Perm (freqMap nums)) (h2 : k ≤ nums.dedup.length) :
    ∃ (ps rest : List Pair), TopKFrequent iter k = some (ps.map Pair.Num) ∧
      (ps ++ rest).Perm (freqMap nums) ∧ ps.length = k ∧
      (∀ a ∈ ps, ∀ b ∈ rest, b.Count ≤ a.Count) ∧
      ps.Pairwise (fun a b => b.Count ≤ a.Count) := by
  obtain ⟨_, _, _, hlen⟩ := freqMap_spec nums
  obtain ⟨g1, g2⟩ := heap.foldl_push_spec (fun p : Pair => -p.Count) PairHeap.less
    pairHeap_less_iff iter [] (heap.isHeap_nil _)
  simp only [List.nil_append] at g2
  have hhl : (iter.foldl (heap.push PairHeap.less) []).length = nums.dedup.length := by
    rw [g2.length_eq, hiter.length_eq, hlen]
  obtain ⟨ps, rest, e1, e2, e3, _, e5, e6⟩ :=
    heap.popN_spec (fun p : Pair => -p.Count) PairHeap.less pairHeap_less_iff k
      (iter.foldl (heap.push PairHeap.less) []) g1 (by omega)
  refine ⟨ps, rest, ?_, e2.trans (g2.trans hiter), e3, ?_, ?_⟩
  · unfold TopKFrequent
    rw [heap.init_nil]
    simp only
    rw [if_neg (by omega)]
    simp only [Int.toNat_ofNat, e1]
  · intro a ha b hb
    have := e5 a ha b hb
    simp only at this
    omega
  · refine e6.imp ?_
    intro a b hab
    simp only at hab
    omega

/-- Claim C11, the code at the failing input: for `nums = [1, 2]` and `k = 2`
the frequency map has the entries `(1, 1)` and `(2, 1)`; iterated in this order
`TopKFrequent` returns `[1, 2]`, iterated in the other order it returns
`[2, 1]`, so the result is not a function of `(nums, k)` alone and the value
seen first does not always come first. -/
theorem TopKFrequent_depends_on_iteration_order :
    freqMap [1, 2] = [⟨1, 1⟩, ⟨2, 1⟩] ∧
    ([⟨2, 1⟩, ⟨1, 1⟩] : List Pair).Perm (freqMap [1, 2]) ∧
    TopKFrequent [⟨1, 1⟩, ⟨2, 1⟩] 2 = some [1, 2] ∧
    TopKFrequent [⟨2, 1⟩, ⟨1, 1⟩] 2 = some [2, 1] := by
  decide

/-- Claim C12: for a list `nums`, `0 ≤ k ≤` (number of distinct values) and
every iteration order `iter` of the frequency map, the list returned by
`TopKFrequent` is in non-increasing order of frequency: a value placed before
another one occurs in `nums` at least as often. -/
theorem TopKFrequent_sorted_by_count (nums : List Int) (k : Nat) (iter : List Pair)
    (hiter : iter.Perm (freqMap nums)) (h2 : k ≤ nums.dedup.length) :
    ∃ r : List Int, TopKFrequent iter k = some r ∧ r.length = k ∧
      r.Pairwise (fun v w => nums.count w ≤ nums.count v) := by
  obtain ⟨_, hcount, _, _⟩ := freqMap_spec nums
  obtain ⟨ps, rest, e1, e2, e3, _, e5⟩ := topKFrequent_core nums k iter hiter h2
  refine ⟨ps.map Pair.Num, e1, by simp [e3], ?_⟩
  rw [List.pairwise_map]
  refine List.Pairwise.imp_of_mem ?_ e5
  intro a b ha hb hab
  have ca := (hcount a (e2.mem_iff.1 (List.mem_append_left _ ha))).2
  have cb := (hcount b (e2.mem_iff.1 (List.mem_append_left _ hb))).2
  omega

/-- Witness of claim C12 on the first case of `TestTopKFrequent`, the
frequency map being iterated in reverse order of first occurrence. -/
theorem TopKFrequent_sorted_by_count_witness :
    (freqMap [1, 1, 1, 2, 2, 3]).reverse.Perm (freqMap [1, 1, 1, 2, 2, 3]) ∧
    3 ≤ ([1, 1, 1, 2, 2, 3] : List Int).dedup.length ∧
    ∃ r : List Int, TopKFrequent (freqMap [1, 1, 1, 2, 2, 3]).reverse ((3 : Nat) : Int) = some r ∧
      r.length = 3 ∧
      r.Pairwise (fun v w => ([1, 1, 1, 2, 2, 3] : List Int).count w ≤
        ([1, 1, 1, 2, 2, 3] : List Int).count v) :=
  ⟨List.reverse_perm _, by decide,
    TopKFrequent_sorted_by_count [1, 1, 1, 2, 2, 3] 3 (freqMap [1, 1, 1, 2, 2, 3]).reverse
      (List.reverse_perm _) (by decide)⟩

/-- Claim C17: for a list `nums`, every iteration order `iter` of the
frequency map and every `k` greater than the number of distinct values of
`nums`, `TopKFrequent` fails instead of returning a list: `heap.Pop` panics
once the heap is empty. -/
theorem TopKFrequent_fails_above_distinct (nums : List Int) (iter : List Pair) (k : Int)
    (hiter : iter.Perm (freqMap nums)) (hk : (nums.dedup.length : Int) < k) :
    TopKFrequent iter k = none := by
  obtain ⟨_, _, _, hlen⟩ := freqMap_spec nums
  obtain ⟨_, g2⟩ := heap.foldl_push_spec (fun p : Pair => -p.Count) PairHeap.less
    pairHeap_less_iff iter [] (heap.isHeap_nil _)
  simp only [List.nil_append] at g2
  have hhl : (iter.foldl (heap.push PairHeap.less) []).length = nums.dedup.length := by
    rw [g2.length_eq, hiter.length_eq, hlen]
  have hnone := heap.popN_none (fun p : Pair => -p.Count) PairHeap.less pairHeap_less_iff
    k.toNat (iter.foldl (heap.push PairHeap.less) []) (by omega)
  unfold TopKFrequent
  rw [heap.init_nil]
  simp only
  rw [if_neg (by omega)]
  simp only [hnone]

/-- Witness of claim C17: three values are asked of a list with two distinct
values. -/
theorem TopKFrequent_fails_above_distinct_witness :
    (freqMap [1, 2]).Perm (freqMap [1, 2]) ∧
    ((([1, 2] : List Int).dedup.length : Nat) : Int) < 3 ∧
    TopKFrequent (freqMap [1, 2]) 3 = none :=
  ⟨List.Perm.refl _, by decide,
    TopKFrequent_fails_above_distinct [1, 2] (freqMap [1, 2]) 3 (List.Perm.refl _) (by decide)⟩


/-- Claim C14: for every list `nums` and every `k ≤ 0`, `FindKthLargest` fails
instead of returning a value: each pushed value is popped at once, the heap is
empty when the loop ends, and `(*h)[0]` panics. -/
theorem FindKthLargest_fails_nonpositive (nums : List Int) (k : Int) (hk : k ≤ 0) :
    FindKthLargest nums k = none := by
  obtain ⟨h, rest, e1, _, _, e4, _⟩ := findKthLargest_loop_spec nums k
  have hl : h.length = 0 := by
    rw [e4]
    have : k.toNat = 0 := by omega
    rw [this]; simp
  have hnil : h = [] := List.length_eq_zero.1 hl
  unfold FindKthLargest
  rw [e1, hnil]
  rfl

/-- Witness of claim C14 with `k = 0` on the first list of `TestFindKthLargest`. -/
theorem FindKthLargest_fails_nonpositive_witness :
    (0 : Int) ≤ 0 ∧ FindKthLargest [3, 2, 1, 5, 6, 4] 0 = none :=
  ⟨by decide, FindKthLargest_fails_nonpositive [3, 2, 1, 5, 6, 4] 0 (by decide)⟩

/-- Claim C20: reading the top of an empty heap and extracting from an empty
heap both fail.  Whenever the heap is empty after the loop of `FindKthLargest`
the peek `(*h)[0]` panics; `heap.Pop` panics on an empty `MinHeap`, `PairHeap`,
`PointHeap` and `MatrixHeap`; and `FindKthLargest([], k)` fails for every
`k`. -/
theorem empty_heap_fails :
    (∀ (nums : List Int) (k : Int), FindKthLargest.loop nums k = some [] →
      FindKthLargest nums k = none) ∧
    heap.pop MinHeap.less [] = none ∧
    heap.pop PairHeap.less [] = none ∧
    heap.pop PointHeap.less [] = none ∧
    heap.pop MatrixHeap.less [] = none ∧
    (∀ k : Int, FindKthLargest [] k = none) := by
  refine ⟨?_, rfl, rfl, rfl, rfl, ?_⟩
  · intro nums k h
    unfold FindKthLargest
    rw [h]
    rfl
  · intro k
    unfold FindKthLargest FindKthLargest.loop
    rw [heap.init_nil]
    rfl

end topk

namespace heap
variable {α : Type}

theorem pushEvict_length_le (key : α → Int) (less : α → α → Bool)
    (hk : ∀ a b, less a b = true ↔ key a < key b) (k : Int) (h h1 : List α) (x : α)
    (e : pushEvict less k h x = some h1) : h1.length ≤ h.length + 1 := by
  unfold pushEvict at e
  simp only at e
  split_ifs at e with c
  · have hne : push less h x ≠ [] := by
      intro e0
      have := push_length less h x
      rw [e0] at this; simp at this
    obtain ⟨y, h2, e1, _, _, e4, _⟩ := pop_spec key less hk (push less h x) hne
    rw [e1] at e
    simp only [Option.map_some', Option.some.injEq] at e
    subst e
    rw [push_length] at e4
    omega
  · simp only [Option.some.injEq] at e
    subst e
    rw [push_length]

end heap

namespace topk

/-- Counterexample to claim C13 as stated: on `[[1, 0], [3037000500, 0]]` with
`k = 2` the product `3037000500 * 3037000500` wraps to a negative `int`, and the
call returns `[[3037000500, 0], [1, 0]]`, the far point first. -/
theorem KClosestPoints_order_counterexample :
    KClosestPoints [[1, 0], [3037000500, 0]] 2 = some [[3037000500, 0], [1, 0]] ∧
    ¬ sqDist [3037000500, 0] ≤ sqDist [1, 0] := by
  decide

/-- Claim C13 as amended: for a list of points with two coordinates each whose
squared distances fit in an `int` (are at most `math.MaxInt64`) and
`1 ≤ k ≤ len(points)`, the list returned by `KClosestPoints` is in
non-decreasing order of squared distance to the origin, closest first. -/
theorem KClosestPoints_sorted_by_distance (points : List (List Int)) (k : Nat)
    (hpair : ∀ p ∈ points, p.length = 2)
    (hfit : ∀ p ∈ points, sqDist p ≤ 9223372036854775807)
    (h1 : 1 ≤ k) (h2 : k ≤ points.length) :
    ∃ result : List (List Int), KClosestPoints points k = some result ∧
      result.Pairwise (fun p q => sqDist p ≤ sqDist q) := by
  obtain ⟨h, rest, ps, _, e2, e3, e4, _, _, e7, _⟩ := kClosestPoints_core points k hpair h1 h2
  refine ⟨_, e2, ?_⟩
  rw [List.pairwise_map, List.pairwise_reverse]
  refine List.Pairwise.imp_of_mem ?_ e7
  intro a b ha hb hab
  have hmem : ∀ c ∈ ps, sqDist ((fun p : Point => [p.x, p.y]) c) = c.distance := by
    intro c hc
    have hc1 : c ∈ points.map toPoint :=
      e4.mem_iff.1 (List.mem_append_left _ (e3.mem_iff.1 hc))
    obtain ⟨pt, hpt, rfl⟩ := List.mem_map.1 hc1
    exact sqDist_coords_toPoint pt (hfit pt hpt)
  have ea := hmem a ha
  have eb := hmem b hb
  simp only at ea eb ⊢
  rw [ea, eb]
  exact hab

/-- Witness of the amended claim C13 on the second case of
`TestKClosestPoints`. -/
theorem KClosestPoints_sorted_by_distance_witness :
    (∀ p ∈ ([[3, 3], [5, -1], [-2, 4]] : List (List Int)), p.length = 2) ∧
    (∀ p ∈ ([[3, 3], [5, -1], [-2, 4]] : List (List Int)), sqDist p ≤ 9223372036854775807) ∧
    1 ≤ 2 ∧ 2 ≤ ([[3, 3], [5, -1], [-2, 4]] : List (List Int)).length ∧
    ∃ result : List (List Int),
      KClosestPoints [[3, 3], [5, -1], [-2, 4]] ((2 : Nat) : Int) = some result ∧
      result.Pairwise (fun p q => sqDist p ≤ sqDist q) :=
  ⟨by decide, by decide, by decide, by decide,
    KClosestPoints_sorted_by_distance [[3, 3], [5, -1], [-2, 4]] 2
      (by decide) (by decide) (by decide) (by decide)⟩

/-- Counterexample to claim C15: with `k = 0` the call does not fail, it
returns the empty list. -/
theorem KClosestPoints_zero_counterexample :
    (0 : Int) ≤ 0 ∧ KClosestPoints [[1, 3], [-2, 2], [5, -1]] 0 = some [] := by
  decide

/-- Claim C15 as amended: for every list of points, `KClosestPoints` fails for
every `k < 0` (`make([][]int, k)` panics); for `k = 0` and points with two
coordinates each it does not fail and returns the empty list. -/
theorem KClosestPoints_nonpositive (points : List (List Int)) :
    (∀ k : Int, k < 0 → KClosestPoints points k = none) ∧
    ((∀ p ∈ points, p.length = 2) → KClosestPoints points 0 = some []) := by
  constructor
  · intro k hk
    unfold KClosestPoints
    cases KClosestPoints.loop points k with
    | none => rfl
    | some h => simp only; rw [if_pos hk]
  · intro hpair
    obtain ⟨h, rest, e1, _, _, e4, _⟩ :=
      heap.selectLoop_spec (fun p : Point => -p.distance) PointHeap.less pointHeap_less_iff
        0 (points.map toPoint)
    have hloop : KClosestPoints.loop points 0 = some h := by
      unfold KClosestPoints.loop
      rw [heap.init_nil, kClosestPoints_loop_eq 0 points [] hpair]
      exact e1
    have hnil : h = [] := List.length_eq_zero.1 (by rw [e4]; simp)
    unfold KClosestPoints
    rw [hloop, hnil]
    rfl

/-- The heap of `KClosestPoints` never holds more points than it was given. -/
theorem kClosestPoints_loop_length_le (k : Int) :
    ∀ (points : List (List Int)) (h0 h : List Point),
      points.foldlM (KClosestPoints.body k) h0 = some h →
      h.length ≤ h0.length + points.length := by
  intro points
  induction points with
  | nil =>
    intro h0 h e
    simp only [List.foldlM_nil] at e
    have : h0 = h := Option.some.inj e
    subst this
    simp
  | cons pt rest ih =>
    intro h0 h e
    simp only [List.foldlM_cons] at e
    cases hb : KClosestPoints.body k h0 pt with
    | none => rw [hb] at e; simp at e
    | some h1 =>
      rw [hb] at e
      simp only [Option.bind_eq_bind, Option.some_bind] at e
      have l1 : h1.length ≤ h0.length + 1 := by
        unfold KClosestPoints.body at hb
        cases hm : mkPoint pt with
        | none => rw [hm] at hb; simp at hb
        | some p =>
          rw [hm] at hb
          exact heap.pushEvict_length_le (fun p : Point => -p.distance) PointHeap.less
            pointHeap_less_iff k h0 h1 p hb
      have l2 := ih h1 h e
      simp only [List.length_cons]
      omega

/-- Counterexample to claim C16: with one point and `k = 2` the call fails
instead of returning the input point. -/
theorem KClosestPoints_above_length_counterexample :
    ((([[1, 2]] : List (List Int)).length : Nat) : Int) < 2 ∧
    KClosestPoints [[1, 2]] 2 = none := by
  decide

/-- Claim C16 as amended: for every list of points and every
`k > len(points)`, `KClosestPoints` fails, because it extracts `k` times and
`heap.Pop` panics on the emptied heap; when the points have two coordinates
each, the insert-then-evict loop before that has retained all of them. -/
theorem KClosestPoints_above_length (points : List (List Int)) (k : Int)
    (hk : (points.length : Int) < k) :
    KClosestPoints points k = none ∧
    ((∀ p ∈ points, p.length = 2) → ∃ h : List Point,
      KClosestPoints.loop points k = some h ∧
      (h.map (fun p : Point => [p.x, p.y])).Perm points) := by
  constructor
  · unfold KClosestPoints
    cases hl : KClosestPoints.loop points k with
    | none => rfl
    | some h =>
      simp only
      rw [if_neg (by omega)]
      have hlen : h.length ≤ points.length := by
        unfold KClosestPoints.loop at hl
        rw [heap.init_nil] at hl
        have := kClosestPoints_loop_length_le k points [] h hl
        simpa using this
      have hnone := heap.popN_none (fun p : Point => -p.distance) PointHeap.less
        pointHeap_less_iff k.toNat h (by omega)
      simp only [hnone]
  · intro hpair
    obtain ⟨h, rest, e1, _, e3, e4, _⟩ :=
      heap.selectLoop_spec (fun p : Point => -p.distance) PointHeap.less pointHeap_less_iff
        k (points.map toPoint)
    have hloop : KClosestPoints.loop points k = some h := by
      unfold KClosestPoints.loop
      rw [heap.init_nil, kClosestPoints_loop_eq k points [] hpair]
      exact e1
    have hlen : h.length = points.length := by
      rw [e4, List.length_map]
      omega
    have hl := e3.length_eq
    simp only [List.length_append, List.length_map] at hl
    have hrest : rest = [] := List.length_eq_zero.1 (by omega)
    subst hrest
    simp only [List.append_nil] at e3
    refine ⟨h, hloop, ?_⟩
    have hback : (points.map toPoint).map (fun p : Point => [p.x, p.y]) = points := by
      rw [List.map_map]
      conv_rhs => rw [← List.map_id points]
      apply List.map_congr_left
      intro pt hpt
      exact coords_toPoint pt (hpair pt hpt)
    have := e3.map (fun p : Point => [p.x, p.y])
    rw [hback] at this
    exact this

/-- Witness of the amended claim C16 on the first list of
`TestKClosestPoints` with `k = 4`. -/
theorem KClosestPoints_above_length_witness :
    ((([[1, 3], [-2, 2], [5, -1]] : List (List Int)).length : Nat) : Int) < 4 ∧
    KClosestPoints [[1, 3], [-2, 2], [5, -1]] 4 = none ∧
    ((∀ p ∈ ([[1, 3], [-2, 2], [5, -1]] : List (List Int)), p.length = 2) →
      ∃ h : List Point, KClosestPoints.loop [[1, 3], [-2, 2], [5, -1]] 4 = some h ∧
        (h.map (fun p : Point => [p.x, p.y])).Perm [[1, 3], [-2, 2], [5, -1]]) :=
  ⟨by decide, KClosestPoints_above_length [[1, 3], [-2, 2], [5, -1]] 4 (by decide)⟩


/-- Counterexample to claim C18: on a matrix without rows the call does not
fail, it returns `0`; likewise when the first row has no columns. -/
theorem KthSmallestInMatrix_empty_counterexample :
    KthSmallestInMatrix [] 1 = some 0 ∧ KthSmallestInMatrix [[]] 1 = some 0 := by
  decide

/-- Claim C18 as amended: for every `k`, `KthSmallestInMatrix` called on an
empty matrix (no rows, or a first row with no columns) does not fail: the
guard `len(matrix) == 0 || len(matrix[0]) == 0` returns `0`. -/
theorem KthSmallestInMatrix_empty_returns_zero (k : Int) :
    KthSmallestInMatrix [] k = some 0 ∧
    ∀ rest : List (List Int), KthSmallestInMatrix ([] :: rest) k = some 0 :=
  ⟨rfl, fun _ => rfl⟩

theorem pot_perm (m : Nat) (h g : List MatrixCell) (p : h.Perm g) :
    KthSmallestInMatrix.pot m h = KthSmallestInMatrix.pot m g := by
  unfold KthSmallestInMatrix.pot
  exact (p.map _).sum_eq

theorem pot_cons (m : Nat) (c : MatrixCell) (h : List MatrixCell) :
    KthSmallestInMatrix.pot m (c :: h) = (m - c.col) + KthSmallestInMatrix.pot m h := by
  simp [KthSmallestInMatrix.pot]

theorem matrixAt_some_lt (matrix : List (List Int)) (m : Nat)
    (hm : ∀ row ∈ matrix, row.length = m) (i j : Nat) (v : Int)
    (h : matrixAt matrix i j = some v) : j < m := by
  have hrow := hm _ (getD_mem_of_matrixAt matrix i j v h)
  rw [matrixAt_eq] at h
  obtain ⟨hlt, _⟩ := List.getElem?_eq_some.1 h
  omega

theorem pot_step (matrix : List (List Int)) (n m : Nat)
    (hm : ∀ row ∈ matrix, row.length = m) (h h1 : List MatrixCell)
    (hcol : ∀ c ∈ h, c.col < m)
    (e : KthSmallestInMatrix.step matrix n h = some h1) :
    (∀ c ∈ h1, c.col < m) ∧
      KthSmallestInMatrix.pot m h1 + 1 ≤ KthSmallestInMatrix.pot m h := by
  have hne : h ≠ [] := by
    intro e0
    rw [e0] at e
    simp [KthSmallestInMatrix.step, heap.pop] at e
  obtain ⟨c, h0, e1, _, e3, _, _⟩ :=
    heap.pop_spec MatrixCell.val MatrixHeap.less matrixHeap_less_iff h hne
  have hc : c.col < m := hcol c (e3.mem_iff.1 (List.mem_cons_self _ _))
  have hh0 : ∀ d ∈ h0, d.col < m :=
    fun d hd => hcol d (e3.mem_iff.1 (List.mem_cons_of_mem _ hd))
  have hpot : KthSmallestInMatrix.pot m h = (m - c.col) + KthSmallestInMatrix.pot m h0 := by
    rw [← pot_cons]
    exact pot_perm m _ _ e3.symm
  unfold KthSmallestInMatrix.step at e
  rw [e1] at e
  simp only at e
  split_ifs at e with c1
  · cases hv : matrixAt matrix c.row (c.col + 1) with
    | none => rw [hv] at e; simp at e
    | some v =>
      rw [hv] at e
      simp only [Option.some.injEq] at e
      subst e
      have hlt := matrixAt_some_lt matrix m hm _ _ _ hv
      have pp := heap.push_perm MatrixHeap.less h0 ⟨v, c.row, c.col + 1⟩
      constructor
      · intro d hd
        rcases List.mem_cons.1 (pp.mem_iff.1 hd) with rfl | hd
        · exact hlt
        · exact hh0 d hd
      · rw [pot_perm m _ _ pp, pot_cons, hpot]
        simp only
        omega
  · simp only [Option.some.injEq] at e
    subst e
    exact ⟨hh0, by rw [hpot]; omega⟩

theorem pot_loop (matrix : List (List Int)) (n m : Nat)
    (hm : ∀ row ∈ matrix, row.length = m) :
    ∀ (t : Nat) (h h1 : List MatrixCell), (∀ c ∈ h, c.col < m) →
      KthSmallestInMatrix.loop matrix n t h = some h1 →
      (∀ c ∈ h1, c.col < m) ∧
        KthSmallestInMatrix.pot m h1 + t ≤ KthSmallestInMatrix.pot m h := by
  intro t
  induction t with
  | zero =>
    intro h h1 hcol e
    simp only [KthSmallestInMatrix.loop, Option.some.injEq] at e
    subst e
    exact ⟨hcol, le_refl _⟩
  | succ t ih =>
    intro h h1 hcol e
    unfold KthSmallestInMatrix.loop at e
    cases hs : KthSmallestInMatrix.step matrix n h with
    | none => rw [hs] at e; simp at e
    | some h2 =>
      rw [hs] at e
      simp only at e
      obtain ⟨g1, g2⟩ := pot_step matrix n m hm h h2 hcol hs
      obtain ⟨f1, f2⟩ := ih h2 h1 g1 e
      exact ⟨f1, by omega⟩

theorem pot_seed (matrix : List (List Int)) (m : Nat)
    (hm : ∀ row ∈ matrix, row.length = m) :
    ∀ (idxs : List Nat) (h h1 : List MatrixCell), (∀ c ∈ h, c.col < m) →
      idxs.foldlM (KthSmallestInMatrix.seedBody matrix) h = some h1 →
      (∀ c ∈ h1, c.col < m) ∧
        KthSmallestInMatrix.pot m h1 = KthSmallestInMatrix.pot m h + idxs.length * m := by
  intro idxs
  induction idxs with
  | nil =>
    intro h h1 hcol e
    simp only [List.foldlM_nil] at e
    have : h = h1 := Option.some.inj e
    subst this
    exact ⟨hcol, by simp⟩
  | cons i idxs ih =>
    intro h h1 hcol e
    simp only [List.foldlM_cons] at e
    cases hb : KthSmallestInMatrix.seedBody matrix h i with
    | none => rw [hb] at e; simp at e
    | some h2 =>
      rw [hb] at e
      simp only [Option.bind_eq_bind, Option.some_bind] at e
      unfold KthSmallestInMatrix.seedBody at hb
      cases hv : matrixAt matrix i 0 with
      | none => rw [hv] at hb; simp at hb
      | some v =>
        rw [hv] at hb
        simp only [Option.some.injEq] at hb
        subst hb
        have hlt := matrixAt_some_lt matrix m hm _ _ _ hv
        have pp := heap.push_perm MatrixHeap.less h ⟨v, i, 0⟩
        have hcol2 : ∀ c ∈ heap.push MatrixHeap.less h ⟨v, i, 0⟩, c.col < m := by
          intro d hd
          rcases List.mem_cons.1 (pp.mem_iff.1 hd) with rfl | hd
          · exact hlt
          · exact hcol d hd
        obtain ⟨f1, f2⟩ := ih _ h1 hcol2 e
        refine ⟨f1, ?_⟩
        rw [f2, pot_perm m _ _ pp, pot_cons]
        simp only [List.length_cons, Nat.sub_zero]
        ring

theorem pot_pos (m : Nat) (h : List MatrixCell) (hcol : ∀ c ∈ h, c.col < m) (hne : h ≠ []) :
    0 < KthSmallestInMatrix.pot m h := by
  cases h with
  | nil => exact absurd rfl hne
  | cons c t =>
    rw [pot_cons]
    have := hcol c (List.mem_cons_self _ _)
    omega


theorem seed_fold_pos (matrix : List (List Int))
    (hpos : ∀ row ∈ matrix, 0 < row.length) :
    ∀ (idxs : List Nat) (h0 : List MatrixCell), (∀ i ∈ idxs, i < matrix.length) →
      idxs.foldlM (KthSmallestInMatrix.seedBody matrix) h0 =
        some ((idxs.map (fun i => (⟨(matrix.getD i []).getD 0 0, i, 0⟩ : MatrixCell))).foldl
          (heap.push MatrixHeap.less) h0) := by
  intro idxs
  induction idxs with
  | nil => intro h0 _; rfl
  | cons i idxs ih =>
    intro h0 hi
    have hil : i < matrix.length := hi i (List.mem_cons_self _ _)
    have hrow : 0 < (matrix.getD i []).length := by
      apply hpos
      rw [List.getD_eq_getElem?_getD, List.getElem?_eq_getElem hil]
      exact List.getElem_mem _
    have hb : KthSmallestInMatrix.seedBody matrix h0 i =
        some (heap.push MatrixHeap.less h0 ⟨(matrix.getD i []).getD 0 0, i, 0⟩) := by
      unfold KthSmallestInMatrix.seedBody
      have : matrixAt matrix i 0 = some ((matrix.getD i []).getD 0 0) := by
        rw [matrixAt_eq, List.getD_eq_getElem?_getD (matrix.getD i []),
          List.getElem?_eq_getElem hrow]
        rfl
      rw [this]
    simp only [List.foldlM_cons, hb, List.map_cons, List.foldl_cons]
    exact ih _ (fun j hj => hi j (List.mem_cons_of_mem _ hj))

/-- Counterexample to claim C19: on the `2 × 2` matrix of
`TestKthSmallestInMatrix`, with sorted rows and columns, `k = 0` and `k = -5`
lie outside `[1, 4]` and the call does not fail: it returns `1`, as for
`k = 1`. -/
theorem KthSmallestInMatrix_nonpositive_counterexample :
    (0 : Int) ≤ 0 ∧ KthSmallestInMatrix [[1, 2], [3, 4]] 0 = some 1 ∧
    (-5 : Int) ≤ 0 ∧ KthSmallestInMatrix [[1, 2], [3, 4]] (-5) = some 1 := by
  decide

/-- Claim C19 as amended: for a non-empty matrix with `n` rows of `m ≥ 1`
entries each, `KthSmallestInMatrix` fails for every `k > n*m` (a cursor is read
outside its row or `heap.Pop` finds the heap empty); for `k ≤ 0` other than
`math.MinInt64` it does not fail and returns the same value as for `k = 1`; for
`k = math.MinInt64`, where `k - 1` wraps to `math.MaxInt64`, it fails when the
matrix has fewer than `math.MaxInt64` entries. -/
theorem KthSmallestInMatrix_k_out_of_range (matrix : List (List Int)) (m : Nat)
    (hn : 1 ≤ matrix.length) (hm1 : 1 ≤ m) (hm : ∀ row ∈ matrix, row.length = m) :
    (∀ k : Int, ((matrix.length * m : Nat) : Int) < k → KthSmallestInMatrix matrix k = none) ∧
    (∀ k : Int, k ≤ 0 → k ≠ -9223372036854775808 →
      ∃ v, KthSmallestInMatrix matrix k = some v ∧ KthSmallestInMatrix matrix 1 = some v) ∧
    (((matrix.length * m : Nat) : Int) < 9223372036854775807 →
      KthSmallestInMatrix matrix (-9223372036854775808) = none) := by
  cases hmat : matrix with
  | nil => rw [hmat] at hn; simp at hn
  | cons r rest =>
    cases hr : r with
    | nil =>
      have := hm r (by rw [hmat]; exact List.mem_cons_self _ _)
      rw [hr] at this
      simp at this
      omega
    | cons a r1 =>
      rw [← hr, ← hmat]
      have hunf : ∀ k : Int, KthSmallestInMatrix matrix k =
          match KthSmallestInMatrix.seed matrix matrix.length with
          | none => none
          | some h0 =>
            match KthSmallestInMatrix.loop matrix matrix.length (goint.pred k).toNat h0 with
            | none => none
            | some h =>
              match heap.pop MatrixHeap.less h with
              | some (cell, _) => some cell.val
              | none => none := by
        intro k
        rw [hmat, hr]
        rfl
      have hfail : ∀ k : Int, (matrix.length * m : Nat) ≤ (goint.pred k).toNat →
          KthSmallestInMatrix matrix k = none := by
        intro k hk
        rw [hunf k]
        cases hs : KthSmallestInMatrix.seed matrix matrix.length with
        | none => rfl
        | some h0 =>
          simp only
          cases hl : KthSmallestInMatrix.loop matrix matrix.length (goint.pred k).toNat h0 with
          | none => rfl
          | some h =>
            simp only
            unfold KthSmallestInMatrix.seed at hs
            rw [heap.init_nil] at hs
            obtain ⟨s1, s2⟩ := pot_seed matrix m hm (List.range matrix.length) [] h0
              (by simp) hs
            obtain ⟨l1, l2⟩ := pot_loop matrix matrix.length m hm _ h0 h s1 hl
            have hp0 : KthSmallestInMatrix.pot m [] = 0 := rfl
            rw [s2, hp0, List.length_range, Nat.zero_add] at l2
            have hnil : h = [] := by
              by_contra hne
              have := pot_pos m h l1 hne
              omega
            rw [hnil]
            rfl
      refine ⟨?_, ?_, ?_⟩
      · intro k hk
        apply hfail k
        rw [goint.pred_of_ne k (by omega)]
        omega
      · intro k hk hkmin
        have hpos : ∀ row ∈ matrix, 0 < row.length := fun row hrow => by
          rw [hm row hrow]; omega
        have hseed := seed_fold_pos matrix hpos (List.range matrix.length) []
          (fun i hi => List.mem_range.1 hi)
        obtain ⟨_, g2⟩ := heap.foldl_push_spec MatrixCell.val MatrixHeap.less
          matrixHeap_less_iff ((List.range matrix.length).map
            (fun i => (⟨(matrix.getD i []).getD 0 0, i, 0⟩ : MatrixCell))) []
          (heap.isHeap_nil _)
        have hne : ((List.range matrix.length).map
            (fun i => (⟨(matrix.getD i []).getD 0 0, i, 0⟩ : MatrixCell))).foldl
            (heap.push MatrixHeap.less) [] ≠ [] := by
          intro e0
          have := g2.length_eq
          rw [e0] at this
          simp at this
          omega
        obtain ⟨c, h1, e1, _, _, _, _⟩ :=
          heap.pop_spec MatrixCell.val MatrixHeap.less matrixHeap_less_iff _ hne
        have hk0 : (goint.pred k).toNat = 0 := by
          rw [goint.pred_of_ne k hkmin]
          omega
        have h10 : (goint.pred 1).toNat = 0 := by decide
        refine ⟨c.val, ?_, ?_⟩
        · rw [hunf k]
          unfold KthSmallestInMatrix.seed
          rw [heap.init_nil, hseed, hk0]
          simp only [KthSmallestInMatrix.loop, e1]
        · rw [hunf 1]
          unfold KthSmallestInMatrix.seed
          rw [heap.init_nil, hseed, h10]
          simp only [KthSmallestInMatrix.loop, e1]
      · intro hsz
        apply hfail
        have hp : goint.pred (-9223372036854775808) = 9223372036854775807 := by decide
        rw [hp]
        omega

/-- Witness of the amended claim C19 on the `2 × 2` matrix of
`TestKthSmallestInMatrix`. -/
theorem KthSmallestInMatrix_k_out_of_range_witness :
    1 ≤ ([[1, 2], [3, 4]] : List (List Int)).length ∧ 1 ≤ 2 ∧
    (∀ row ∈ ([[1, 2], [3, 4]] : List (List Int)), row.length = 2) ∧
    (∀ k : Int, ((([[1, 2], [3, 4]] : List (List Int)).length * 2 : Nat) : Int) < k →
      KthSmallestInMatrix [[1, 2], [3, 4]] k = none) ∧
    (∀ k : Int, k ≤ 0 → k ≠ -9223372036854775808 →
      ∃ v, KthSmallestInMatrix [[1, 2], [3, 4]] k = some v ∧
        KthSmallestInMatrix [[1, 2], [3, 4]] 1 = some v) ∧
    (((([[1, 2], [3, 4]] : List (List Int)).length * 2 : Nat) : Int) < 9223372036854775807 →
      KthSmallestInMatrix [[1, 2], [3, 4]] (-9223372036854775808) = none) :=
  ⟨by decide, by decide, by decide,
    KthSmallestInMatrix_k_out_of_range [[1, 2], [3, 4]] 2 (by decide) (by decide) (by decide)⟩

end topk

/-! ### Indexing a slice with an `int` -/

namespace slice

theorem index_eq_some (s : List Int) (i : Int) (v : Int) :
    index s i = some v ↔ 0 ≤ i ∧ i.toNat < s.length ∧ s.getD i.toNat 0 = v := by
  unfold index
  by_cases h : i < 0
  · rw [if_pos h]
    constructor
    · intro e; simp at e
    · intro e; omega
  · rw [if_neg h, List.getD_eq_getElem?_getD, List.getElem?_eq_some]
    constructor
    · rintro ⟨hl, e⟩
      refine ⟨by omega, hl, ?_⟩
      rw [List.getElem?_eq_getElem hl]
      simpa using e
    · rintro ⟨_, hl, e⟩
      refine ⟨hl, ?_⟩
      rw [List.getElem?_eq_getElem hl] at e
      simpa using e

theorem index_of_lt (s : List Int) (i : Int) (h0 : 0 ≤ i) (hl : i.toNat < s.length) :
    index s i = some (s.getD i.toNat 0) :=
  (index_eq_some s i _).2 ⟨h0, hl, rfl⟩

theorem sorted_getD_le (s : List Int) (hs : s.Sorted (fun a b => a ≤ b)) (i j : Nat)
    (hij : i ≤ j) (hj : j < s.length) : s.getD i 0 ≤ s.getD j 0 := by
  rcases Nat.eq_or_lt_of_le hij with e | e
  · subst e; exact le_refl _
  · rw [List.getD_eq_getElem _ _ hj, List.getD_eq_getElem _ _ (by omega : i < s.length)]
    exact (List.pairwise_iff_getElem.1 hs) i j (by omega) hj e

theorem getD_mem (s : List Int) (i : Nat) (h : i < s.length) : s.getD i 0 ∈ s := by
  rw [List.getD_eq_getElem _ _ h]
  exact List.getElem_mem _

theorem mem_iff_getD (s : List Int) (v : Int) :
    v ∈ s ↔ ∃ i, i < s.length ∧ s.getD i 0 = v := by
  constructor
  · intro h
    obtain ⟨i, hi, e⟩ := List.getElem_of_mem h
    exact ⟨i, hi, by rw [List.getD_eq_getElem _ _ hi]; exact e⟩
  · rintro ⟨i, hi, e⟩
    rw [List.getD_eq_getElem _ _ hi] at e
    rw [← e]
    exact List.getElem_mem _

end slice

/-! ### Binary search -/

namespace binarysearch

theorem search_loop_spec (nums : List Int) (target : Int)
    (hs : nums.Sorted (fun a b => a ≤ b)) :
    ∀ (fuel : Nat) (left right : Int), 0 ≤ left → right < nums.length → left ≤ right + 1 →
      right - left + 1 < fuel →
      (∀ idx : Nat, idx < nums.length → nums.getD idx 0 = target →
        left ≤ idx ∧ (idx : Int) ≤ right) →
      ∃ r, Search.loop nums target fuel left right = some r ∧
        ((r = -1 ∧ target ∉ nums) ∨
          (0 ≤ r ∧ r.toNat < nums.length ∧ nums.getD r.toNat 0 = target)) := by
  intro fuel
  induction fuel with
  | zero => intro left right h0 h1 h2 h3; omega
  | succ fuel ih =>
    intro left right h0 h1 h2 h3 hinv
    unfold Search.loop
    by_cases c : left ≤ right
    · rw [if_pos c]
      have hm0 : 0 ≤ left + (right - left) / 2 := by omega
      have hml : (left + (right - left) / 2).toNat < nums.length := by omega
      rw [slice.index_of_lt nums _ hm0 hml]
      simp only
      by_cases c1 : nums.getD (left + (right - left) / 2).toNat 0 = target
      · rw [if_pos c1]
        exact ⟨_, rfl, Or.inr ⟨hm0, hml, c1⟩⟩
      · rw [if_neg c1]
        by_cases c2 : nums.getD (left + (right - left) / 2).toNat 0 < target
        · rw [if_pos c2]
          apply ih
          · omega
          · exact h1
          · omega
          · omega
          · intro idx hidx he
            obtain ⟨g1, g2⟩ := hinv idx hidx he
            refine ⟨?_, g2⟩
            by_contra hlt
            have hle : idx ≤ (left + (right - left) / 2).toNat := by omega
            have := slice.sorted_getD_le nums hs idx _ hle hml
            omega
        · rw [if_neg c2]
          apply ih
          · exact h0
          · omega
          · omega
          · omega
          · intro idx hidx he
            obtain ⟨g1, g2⟩ := hinv idx hidx he
            refine ⟨g1, ?_⟩
            by_contra hlt
            have hle : (left + (right - left) / 2).toNat ≤ idx := by omega
            have := slice.sorted_getD_le nums hs _ idx hle hidx
            omega
    · rw [if_neg c]
      refine ⟨-1, rfl, Or.inl ⟨rfl, ?_⟩⟩
      intro hmem
      obtain ⟨idx, hidx, he⟩ := (slice.mem_iff_getD nums target).1 hmem
      have := hinv idx hidx he
      omega

/-- Claim C26: for a list `nums` sorted in non-decreasing order and every
`target`, `Search` returns an index `r` with `nums[r] = target` when `target`
occurs in `nums`, and it returns `-1` exactly when `target` does not occur (in
particular on the empty list). -/
theorem Search_correct (nums : List Int) (target : Int)
    (hs : nums.Sorted (fun a b => a ≤ b)) :
    ∃ r, Search nums target = some r ∧
      (target ∈ nums → 0 ≤ r ∧ r.toNat < nums.length ∧ nums.getD r.toNat 0 = target) ∧
      (r = -1 ↔ target ∉ nums) := by
  obtain ⟨r, e, h⟩ := search_loop_spec nums target hs (nums.length + 1) 0
    ((nums.length : Int) - 1) (le_refl _) (by omega) (by omega) (by push_cast; omega)
    (fun idx hidx _ => ⟨by omega, by omega⟩)
  refine ⟨r, e, ?_, ?_⟩
  · intro hmem
    rcases h with ⟨_, hn⟩ | h
    · exact absurd hmem hn
    · exact h
  · constructor
    · intro hr
      rcases h with ⟨_, hn⟩ | ⟨h0, _, _⟩
      · exact hn
      · omega
    · intro hn
      rcases h with ⟨hr, _⟩ | ⟨_, hl, he⟩
      · exact hr
      · exact absurd ((slice.mem_iff_getD nums target).2 ⟨_, hl, he⟩) hn

/-- Witness of claim C26 on the first case of `TestSearch`. -/
theorem Search_correct_witness :
    ([1, 3, 5, 6] : List Int).Sorted (fun a b => a ≤ b) ∧
    ∃ r, Search [1, 3, 5, 6] 5 = some r ∧
      ((5 : Int) ∈ ([1, 3, 5, 6] : List Int) → 0 ≤ r ∧
        r.toNat < ([1, 3, 5, 6] : List Int).length ∧
        ([1, 3, 5, 6] : List Int).getD r.toNat 0 = 5) ∧
      (r = -1 ↔ (5 : Int) ∉ ([1, 3, 5, 6] : List Int)) :=
  ⟨by decide, Search_correct [1, 3, 5, 6] 5 (by decide)⟩

end binarysearch

/-! ### Next greater element: the scan wraps around -/

namespace monotonicstack

/-- Claim C21: on the strictly decreasing list `[4, 3, 2, 1]` of
`TestNextGreaterElement` the function does not return all `-1`: the loop runs
over `2 * n` positions with `idx := i % n`, so the second pass finds the `4` at
position `0` for the positions `1`, `2` and `3`, which have no greater element
to their right. -/
theorem NextGreaterElement_wraps_around :
    NextGreaterElement [4, 3, 2, 1] = some [-1, 4, 4, 4] ∧
    NextGreaterElement [4, 3, 2, 1] ≠ some [-1, -1, -1, -1] := by
  decide

end monotonicstack

/-! ### Permutations: order of the generated list -/

namespace backtracking

/-- Claim C30: on `[1, 2, 3]` the swap-based generator returns the
permutations in the order `[1,2,3], [1,3,2], [2,1,3], [2,3,1], [3,2,1], [3,1,2]`,
which differs in its last two entries from the lexicographic order that
`TestPermutations` compares against. -/
theorem Permutations_not_lexicographic :
    Permutations [1, 2, 3] =
      some [[1, 2, 3], [1, 3, 2], [2, 1, 3], [2, 3, 1], [3, 2, 1], [3, 1, 2]] ∧
    Permutations [1, 2, 3] ≠
      some [[1, 2, 3], [1, 3, 2], [2, 1, 3], [2, 3, 1], [3, 1, 2], [3, 2, 1]] := by
  decide!

end backtracking

/-! ### Two pointers on a sorted list -/

namespace twopointers

theorem twoSum_loop_spec (numbers : List Int) (target : Int)
    (hs : numbers.Sorted (fun a b => a ≤ b))
    (hfit : ∀ a ∈ numbers, ∀ b ∈ numbers,
      -9223372036854775808 ≤ a + b ∧ a + b ≤ 9223372036854775807) :
    ∀ (fuel : Nat) (left right : Int), 0 ≤ left → right < numbers.length → left ≤ right + 1 →
      right - left + 1 < fuel →
      (∀ i j : Nat, i < j → j < numbers.length →
        numbers.getD i 0 + numbers.getD j 0 = target → left ≤ i ∧ (j : Int) ≤ right) →
      ∃ r, TwoSum.loop numbers target fuel left right = some r ∧
        ((r = [] ∧ ∀ i j : Nat, i < j → j < numbers.length →
            numbers.getD i 0 + numbers.getD j 0 ≠ target) ∨
          (∃ a b : Int, r = [a, b] ∧ 1 ≤ a ∧ a < b ∧ b ≤ numbers.length ∧
            numbers.getD (a - 1).toNat 0 + numbers.getD (b - 1).toNat 0 = target)) := by
  intro fuel
  induction fuel with
  | zero => intro left right h0 h1 h2 h3; omega
  | succ fuel ih =>
    intro left right h0 h1 h2 h3 hinv
    unfold TwoSum.loop
    by_cases c : left < right
    · rw [if_pos c]
      have hl : left.toNat < numbers.length := by omega
      have hr : right.toNat < numbers.length := by omega
      rw [slice.index_of_lt numbers left h0 hl, slice.index_of_lt numbers right (by omega) hr]
      simp only
      have hml := slice.getD_mem numbers left.toNat hl
      have hmr := slice.getD_mem numbers right.toNat hr
      rw [goint.add_of_fits _ _ (hfit _ hml _ hmr).1 (hfit _ hml _ hmr).2]
      by_cases c1 : numbers.getD left.toNat 0 + numbers.getD right.toNat 0 = target
      · rw [if_pos c1]
        refine ⟨_, rfl, Or.inr ⟨left + 1, right + 1, rfl, by omega, by omega, by omega, ?_⟩⟩
        have e1 : left + 1 - 1 = left := by omega
        have e2 : right + 1 - 1 = right := by omega
        rw [e1, e2]
        exact c1
      · rw [if_neg c1]
        by_cases c2 : numbers.getD left.toNat 0 + numbers.getD right.toNat 0 < target
        · rw [if_pos c2]
          apply ih
          · omega
          · exact h1
          · omega
          · omega
          · intro i j hij hj he
            obtain ⟨g1, g2⟩ := hinv i j hij hj he
            refine ⟨?_, g2⟩
            by_contra hlt
            have hi : i = left.toNat := by omega
            have := slice.sorted_getD_le numbers hs j right.toNat (by omega) hr
            rw [hi] at he
            omega
        · rw [if_neg c2]
          apply ih
          · exact h0
          · omega
          · omega
          · omega
          · intro i j hij hj he
            obtain ⟨g1, g2⟩ := hinv i j hij hj he
            refine ⟨g1, ?_⟩
            by_contra hlt
            have hj2 : j = right.toNat := by omega
            have := slice.sorted_getD_le numbers hs left.toNat i (by omega) (by omega)
            rw [hj2] at he
            omega
    · rw [if_neg c]
      refine ⟨[], rfl, Or.inl ⟨rfl, ?_⟩⟩
      intro i j hij hj he
      have := hinv i j hij hj he
      omega

/-- Counterexample to claim C25 as stated: on the sorted list
`[1, 2, 9223372036854775807]` with target `3` the sums with the last element
wrap to negative values, `left` moves past the pair at positions `0` and `1`,
and the call returns the empty list although `1 + 2 = 3`. -/
theorem TwoSum_overflow_counterexample :
    ([1, 2, 9223372036854775807] : List Int).Sorted (fun a b => a ≤ b) ∧
    ([1, 2, 9223372036854775807] : List Int).getD 0 0 +
      ([1, 2, 9223372036854775807] : List Int).getD 1 0 = 3 ∧
    TwoSum [1, 2, 9223372036854775807] 3 = some [] := by
  decide

/-- Claim C25 as amended: for a list `numbers` sorted in non-decreasing order
in which the sum of any two elements fits in an `int` (lies between
`math.MinInt64` and `math.MaxInt64`), and every `target`, `TwoSum` returns;
when two positions `i < j` hold values adding up to `target` the result is a
pair `[a, b]` of 1-based indices with `a < b` and
`numbers[a-1] + numbers[b-1] = target`, and otherwise the result is the empty
list. -/
theorem TwoSum_sorted_correct (numbers : List Int) (target : Int)
    (hs : numbers.Sorted (fun a b => a ≤ b))
    (hfit : ∀ a ∈ numbers, ∀ b ∈ numbers,
      -9223372036854775808 ≤ a + b ∧ a + b ≤ 9223372036854775807) :
    ∃ r, TwoSum numbers target = some r ∧
      ((∃ i j : Nat, i < j ∧ j < numbers.length ∧
          numbers.getD i 0 + numbers.getD j 0 = target) →
        ∃ a b : Int, r = [a, b] ∧ 1 ≤ a ∧ a < b ∧ b ≤ numbers.length ∧
          numbers.getD (a - 1).toNat 0 + numbers.getD (b - 1).toNat 0 = target) ∧
      ((¬ ∃ i j : Nat, i < j ∧ j < numbers.length ∧
          numbers.getD i 0 + numbers.getD j 0 = target) → r = []) := by
  obtain ⟨r, e, h⟩ := twoSum_loop_spec numbers target hs hfit (numbers.length + 1) 0
    ((numbers.length : Int) - 1) (le_refl _) (by omega) (by omega) (by push_cast; omega)
    (fun i j hij hj _ => ⟨by omega, by omega⟩)
  refine ⟨r, e, ?_, ?_⟩
  · rintro ⟨i, j, hij, hj, he⟩
    rcases h with ⟨_, hn⟩ | h
    · exact absurd he (hn i j hij hj)
    · exact h
  · intro hn
    rcases h with ⟨hr, _⟩ | ⟨a, b, _, ha, hab, hb, he⟩
    · exact hr
    · exact absurd ⟨(a - 1).toNat, (b - 1).toNat, by omega, by omega, he⟩ hn

/-- Witness of the amended claim C25 on the first case of `TestTwoSum`. -/
theorem TwoSum_sorted_correct_witness :
    ([2, 7, 11, 15] : List Int).Sorted (fun a b => a ≤ b) ∧
    (∀ a ∈ ([2, 7, 11, 15] : List Int), ∀ b ∈ ([2, 7, 11, 15] : List Int),
      -9223372036854775808 ≤ a + b ∧ a + b ≤ 9223372036854775807) ∧
    ∃ r, TwoSum [2, 7, 11, 15] 9 = some r ∧
      ((∃ i j : Nat, i < j ∧ j < ([2, 7, 11, 15] : List Int).length ∧
          ([2, 7, 11, 15] : List Int).getD i 0 + ([2, 7, 11, 15] : List Int).getD j 0 = 9) →
        ∃ a b : Int, r = [a, b] ∧ 1 ≤ a ∧ a < b ∧ b ≤ ([2, 7, 11, 15] : List Int).length ∧
          ([2, 7, 11, 15] : List Int).getD (a - 1).toNat 0 +
            ([2, 7, 11, 15] : List Int).getD (b - 1).toNat 0 = 9) ∧
      ((¬ ∃ i j : Nat, i < j ∧ j < ([2, 7, 11, 15] : List Int).length ∧
          ([2, 7, 11, 15] : List Int).getD i 0 + ([2, 7, 11, 15] : List Int).getD j 0 = 9) →
        r = []) :=
  ⟨by decide, by decide, TwoSum_sorted_correct [2, 7, 11, 15] 9 (by decide) (by decide)⟩

end twopointers

/-! ### Container with most water -/

namespace twopointers

theorem min_eq (a b : Int) : min a b = Min.min a b := by
  unfold min
  split
  · rw [min_eq_left]; omega
  · rw [min_eq_right]; omega

theorem max_eq (a b : Int) : max a b = Max.max a b := by
  unfold max
  split
  · rw [max_eq_left]; omega
  · rw [max_eq_right]; omega

theorem getD_nonneg (height : List Int) (hnn : ∀ x ∈ height, 0 ≤ x) (i : Nat) :
    0 ≤ height.getD i 0 := by
  by_cases h : i < height.length
  · rw [List.getD_eq_getElem _ _ h]
    exact hnn _ (List.getElem_mem _)
  · rw [List.getD_eq_default _ _ (by omega)]

theorem container_loop_spec (height : List Int) (hnn : ∀ x ∈ height, 0 ≤ x)
    (hfit : ∀ j, j < height.length → ∀ i, i < j →
      ((j : Int) - i) * Min.min (height.getD i 0) (height.getD j 0) ≤ 9223372036854775807) :
    ∀ (fuel : Nat) (maxArea left right : Int), 0 ≤ left → right < height.length →
      left ≤ right + 1 → right - left + 1 < fuel →
      (∀ i j : Nat, i < j → j < height.length → ((i : Int) < left ∨ right < j) →
        ((j : Int) - i) * Min.min (height.getD i 0) (height.getD j 0) ≤ maxArea) →
      (maxArea = 0 ∨ ∃ i j : Nat, i < j ∧ j < height.length ∧
        maxArea = ((j : Int) - i) * Min.min (height.getD i 0) (height.getD j 0)) →
      ∃ r, ContainerWithMostWater.loop height fuel maxArea left right = some r ∧
        (∀ i j : Nat, i < j → j < height.length →
          ((j : Int) - i) * Min.min (height.getD i 0) (height.getD j 0) ≤ r) ∧
        (r = 0 ∨ ∃ i j : Nat, i < j ∧ j < height.length ∧
          r = ((j : Int) - i) * Min.min (height.getD i 0) (height.getD j 0)) := by
  intro fuel
  induction fuel with
  | zero => intro maxArea left right h0 h1 h2 h3; omega
  | succ fuel ih =>
    intro maxArea left right h0 h1 h2 h3 hub hatt
    unfold ContainerWithMostWater.loop
    by_cases c : left < right
    · rw [if_pos c]
      have hl : left.toNat < height.length := by omega
      have hr : right.toNat < height.length := by omega
      rw [slice.index_of_lt height left h0 hl, slice.index_of_lt height right (by omega) hr]
      simp only
      rw [min_eq, max_eq]
      have hmn : 0 ≤ Min.min (height.getD left.toNat 0) (height.getD right.toNat 0) :=
        le_min (getD_nonneg height hnn _) (getD_nonneg height hnn _)
      have hprod0 : 0 ≤ (right - left) *
          Min.min (height.getD left.toNat 0) (height.getD right.toNat 0) :=
        mul_nonneg (by omega) hmn
      have hprod1 : (right - left) *
          Min.min (height.getD left.toNat 0) (height.getD right.toNat 0) ≤
            9223372036854775807 := by
        have e1c : ((left.toNat : Nat) : Int) = left := by omega
        have e2c : ((right.toNat : Nat) : Int) = right := by omega
        have := hfit right.toNat hr left.toNat (by omega)
        rw [e1c, e2c] at this
        exact this
      rw [goint.mul_of_fits _ _ (by omega) hprod1]
      clear hprod0 hprod1 hmn
      have f1 : 0 ≤ left + 1 := by omega
      have f2 : left + 1 ≤ right + 1 := by omega
      have f3 : right - (left + 1) + 1 < fuel := by omega
      have f4 : right - 1 < height.length := by omega
      have f5 : left ≤ right - 1 + 1 := by omega
      have f6 : right - 1 - left + 1 < fuel := by omega
      have f7 : ∀ i j : Nat, i < j → ((i : Int) < left + 1 ∨ right < j) →
          ¬ ((i : Int) < left ∨ right < j) → i = left.toNat ∧ (j : Int) - i ≤ right - left ∧
            0 ≤ (j : Int) - i := by
        intro i j _ _ _; omega
      have f8 : ∀ i j : Nat, i < j → ((i : Int) < left ∨ right - 1 < j) →
          ¬ ((i : Int) < left ∨ right < j) → j = right.toNat ∧ (j : Int) - i ≤ right - left ∧
            0 ≤ (j : Int) - i := by
        intro i j _ _ _; omega
      have hareaAtt : ∃ i j : Nat, i < j ∧ j < height.length ∧
          (right - left) * Min.min (height.getD left.toNat 0) (height.getD right.toNat 0) =
            ((j : Int) - i) * Min.min (height.getD i 0) (height.getD j 0) := by
        refine ⟨left.toNat, right.toNat, by omega, hr, ?_⟩
        have e1 : ((left.toNat : Nat) : Int) = left := by omega
        have e2 : ((right.toNat : Nat) : Int) = right := by omega
        rw [e1, e2]
      have hatt2 : (Max.max maxArea ((right - left) *
            Min.min (height.getD left.toNat 0) (height.getD right.toNat 0)) = 0 ∨
          ∃ i j : Nat, i < j ∧ j < height.length ∧
            Max.max maxArea ((right - left) *
              Min.min (height.getD left.toNat 0) (height.getD right.toNat 0)) =
            ((j : Int) - i) * Min.min (height.getD i 0) (height.getD j 0)) := by
        rcases max_cases maxArea ((right - left) *
            Min.min (height.getD left.toNat 0) (height.getD right.toNat 0)) with ⟨e, _⟩ | ⟨e, _⟩
        · rw [e]; exact hatt
        · rw [e]; exact Or.inr hareaAtt
      by_cases c1 : height.getD left.toNat 0 < height.getD right.toNat 0
      · rw [if_pos c1]
        apply ih _ _ _ f1 h1 f2 f3 _ hatt2
        intro i j hij hj hout
        by_cases hold : (i : Int) < left ∨ right < j
        · exact le_trans (hub i j hij hj hold) (le_max_left _ _)
        · refine le_trans ?_ (le_max_right _ _)
          obtain ⟨hi, g1, g2⟩ := f7 i j hij hout hold
          subst hi
          rw [min_eq_left (le_of_lt c1)]
          have ha := getD_nonneg height hnn left.toNat
          exact mul_le_mul g1 (min_le_left _ _)
            (le_min ha (getD_nonneg height hnn j)) (le_trans g2 g1)
      · rw [if_neg c1]
        apply ih _ _ _ h0 f4 f5 f6 _ hatt2
        intro i j hij hj hout
        by_cases hold : (i : Int) < left ∨ right < j
        · exact le_trans (hub i j hij hj hold) (le_max_left _ _)
        · refine le_trans ?_ (le_max_right _ _)
          obtain ⟨hj2, g1, g2⟩ := f8 i j hij hout hold
          subst hj2
          rw [min_eq_right (not_lt.1 c1)]
          have hb := getD_nonneg height hnn right.toNat
          exact mul_le_mul g1 (min_le_right _ _)
            (le_min (getD_nonneg height hnn i) hb) (le_trans g2 g1)
    · rw [if_neg c]
      refine ⟨maxArea, rfl, ?_, hatt⟩
      intro i j hij hj
      exact hub i j hij hj (by omega)

/-- Counterexample to claim C24 as stated: on the non-negative heights
`[4611686018427387904, 0, 4611686018427387904]` the area
`2 * 4611686018427387904` of the outer pair wraps to a negative `int` and is
dropped by `max`; the call returns `0`, less than the area of that pair. -/
theorem ContainerWithMostWater_overflow_counterexample :
    (∀ x ∈ ([4611686018427387904, 0, 4611686018427387904] : List Int), 0 ≤ x) ∧
    ContainerWithMostWater [4611686018427387904, 0, 4611686018427387904] = some 0 ∧
    (0 : Int) < (((2 : Nat) : Int) - ((0 : Nat) : Int)) *
      Min.min (([4611686018427387904, 0, 4611686018427387904] : List Int).getD 0 0)
        (([4611686018427387904, 0, 4611686018427387904] : List Int).getD 2 0) := by
  decide

/-- Claim C24 as amended: for a list of non-negative heights in which the area
`(j - i) * min(height[i], height[j])` of every pair of positions `i < j` fits
in an `int` (is at most `math.MaxInt64`), `ContainerWithMostWater` returns a
value `r` that bounds the area of all pairs, that is attained by some pair when
the list has at least two elements, and that is `0` when the list has fewer
than two elements: `r` is the maximum over all pairs. -/
theorem ContainerWithMostWater_max (height : List Int) (hnn : ∀ x ∈ height, 0 ≤ x)
    (hfit : ∀ j, j < height.length → ∀ i, i < j →
      ((j : Int) - i) * Min.min (height.getD i 0) (height.getD j 0) ≤ 9223372036854775807) :
    ∃ r, ContainerWithMostWater height = some r ∧
      (∀ i j : Nat, i < j → j < height.length →
        ((j : Int) - i) * Min.min (height.getD i 0) (height.getD j 0) ≤ r) ∧
      (2 ≤ height.length → ∃ i j : Nat, i < j ∧ j < height.length ∧
        r = ((j : Int) - i) * Min.min (height.getD i 0) (height.getD j 0)) ∧
      (height.length < 2 → r = 0) := by
  obtain ⟨r, e, hub, hatt⟩ := container_loop_spec height hnn hfit (height.length + 1) 0 0
    ((height.length : Int) - 1) (le_refl _) (by omega) (by omega) (by push_cast; omega)
    (fun i j hij hj hout => by omega) (Or.inl rfl)
  refine ⟨r, e, hub, ?_, ?_⟩
  · intro h2
    rcases hatt with h0 | h
    · refine ⟨0, 1, by omega, by omega, ?_⟩
      have h1 := hub 0 1 (by omega) (by omega)
      have h3 : 0 ≤ ((1 : Nat) : Int) - ((0 : Nat) : Int) := by decide
      have h4 := mul_nonneg h3
        (le_min (getD_nonneg height hnn 0) (getD_nonneg height hnn 1))
      omega
    · exact h
  · intro hlt
    rcases hatt with h0 | ⟨i, j, hij, hj, _⟩
    · exact h0
    · omega

/-- Witness of the amended claim C24 on the first case of
`TestContainerWithMostWater`. -/
theorem ContainerWithMostWater_max_witness :
    (∀ x ∈ ([1, 8, 6, 2, 5, 4, 8, 3, 7] : List Int), 0 ≤ x) ∧
    (∀ j, j < ([1, 8, 6, 2, 5, 4, 8, 3, 7] : List Int).length → ∀ i, i < j →
      ((j : Int) - i) * Min.min (([1, 8, 6, 2, 5, 4, 8, 3, 7] : List Int).getD i 0)
        (([1, 8, 6, 2, 5, 4, 8, 3, 7] : List Int).getD j 0) ≤ 9223372036854775807) ∧
    ∃ r, ContainerWithMostWater [1, 8, 6, 2, 5, 4, 8, 3, 7] = some r ∧
      (∀ i j : Nat, i < j → j < ([1, 8, 6, 2, 5, 4, 8, 3, 7] : List Int).length →
        ((j : Int) - i) * Min.min (([1, 8, 6, 2, 5, 4, 8, 3, 7] : List Int).getD i 0)
          (([1, 8, 6, 2, 5, 4, 8, 3, 7] : List Int).getD j 0) ≤ r) ∧
      (2 ≤ ([1, 8, 6, 2, 5, 4, 8, 3, 7] : List Int).length → ∃ i j : Nat, i < j ∧
        j < ([1, 8, 6, 2, 5, 4, 8, 3, 7] : List Int).length ∧
        r = ((j : Int) - i) * Min.min (([1, 8, 6, 2, 5, 4, 8, 3, 7] : List Int).getD i 0)
          (([1, 8, 6, 2, 5, 4, 8, 3, 7] : List Int).getD j 0)) ∧
      (([1, 8, 6, 2, 5, 4, 8, 3, 7] : List Int).length < 2 → r = 0) :=
  ⟨by decide, by decide,
    ContainerWithMostWater_max [1, 8, 6, 2, 5, 4, 8, 3, 7] (by decide) (by decide)⟩

end twopointers

/-! ### Prefix sums: counting the subarrays of a given sum -/

namespace prefixsum

theorem mapGet_mapIncr (m : List (Int × Int)) (key q : Int) :
    (mapGet (mapIncr m key) q).getD 0 = (mapGet m q).getD 0 + if q = key then 1 else 0 := by
  induction m with
  | nil =>
    simp only [mapIncr, mapGet]
    by_cases h : key = q
    · rw [if_pos h, if_pos h.symm]; rfl
    · rw [if_neg h, if_neg (fun e => h e.symm)]; rfl
  | cons kv m ih =>
    obtain ⟨k, v⟩ := kv
    simp only [mapIncr]
    by_cases h : k = key
    · rw [if_pos h]
      simp only [mapGet]
      by_cases h2 : k = q
      · rw [if_pos h2, if_pos h2, if_pos (by rw [← h2, h])]; rfl
      · rw [if_neg h2, if_neg h2, if_neg (by intro e; exact h2 (by rw [h, e])), add_zero]
    · rw [if_neg h]
      simp only [mapGet]
      by_cases h2 : k = q
      · rw [if_pos h2, if_pos h2, if_neg (by intro e; exact h (by rw [h2, e])), add_zero]
      · rw [if_neg h2, if_neg h2]
        exact ih

theorem subarrayCount_append (pre : List Int) (x k : Int) :
    subarrayCount (pre ++ [x]) k = subarrayCount pre k +
      ((List.range (pre.length + 1)).filter
        (fun p => decide ((pre.take p).sum = pre.sum + x - k))).length := by
  unfold subarrayCount
  rw [List.length_append, List.length_singleton, List.range_succ, List.map_append,
    List.sum_append, List.map_singleton, List.sum_singleton]
  congr 1
  · congr 1
    apply List.map_congr_left
    intro j hj
    rw [List.mem_range] at hj
    rw [List.take_append_of_le_length (by omega)]
  · congr 1
    rw [← List.range_succ]
    apply List.filter_congr
    intro i hi
    rw [List.mem_range] at hi
    have e1 : (pre ++ [x]).take (pre.length + 1) = pre ++ [x] := by
      apply List.take_of_length_le
      rw [List.length_append, List.length_singleton]
    have e2 := List.sum_take_add_sum_drop (pre ++ [x]) i
    rw [List.take_append_of_le_length (by omega), List.sum_append, List.sum_singleton] at e2
    rw [e1]
    apply decide_eq_decide.2
    constructor <;> intro h <;> omega

theorem subarraySum_fold (k : Int) (pre : List Int)
    (hs : ∀ t, t < pre.length →
      (-9223372036854775808 ≤ (pre.take (t + 1)).sum ∧
        (pre.take (t + 1)).sum ≤ 9223372036854775807) ∧
      (-9223372036854775808 ≤ (pre.take (t + 1)).sum - k ∧
        (pre.take (t + 1)).sum - k ≤ 9223372036854775807))
    (hc : (subarrayCount pre k : Int) ≤ 9223372036854775807) :
    (pre.foldl (SubarraySum.body k) ⟨0, 0, [(0, 1)]⟩).sum = pre.sum ∧
    (∀ q, (mapGet (pre.foldl (SubarraySum.body k) ⟨0, 0, [(0, 1)]⟩).sumCount q).getD 0 =
      (((List.range (pre.length + 1)).filter
        (fun p => decide ((pre.take p).sum = q))).length : Int)) ∧
    (pre.foldl (SubarraySum.body k) ⟨0, 0, [(0, 1)]⟩).count = (subarrayCount pre k : Int) := by
  revert hs hc
  induction pre using List.reverseRecOn with
  | nil =>
    intro _ _
    refine ⟨rfl, ?_, rfl⟩
    intro q
    have hr : List.range 1 = [0] := rfl
    simp only [List.foldl_nil, mapGet, List.length_nil, Nat.zero_add, hr,
      List.take_nil, List.sum_nil, List.filter_cons, List.filter_nil]
    by_cases h : (0 : Int) = q
    · rw [if_pos h, if_pos (decide_eq_true h)]; rfl
    · rw [if_neg h, if_neg (by simpa using h)]; rfl
  | append_singleton pre x ih =>
    intro hs hc
    have hcapp := subarrayCount_append pre x k
    rw [hcapp] at hc
    push_cast at hc
    have hs1 : ∀ t, t < pre.length →
        (-9223372036854775808 ≤ (pre.take (t + 1)).sum ∧
          (pre.take (t + 1)).sum ≤ 9223372036854775807) ∧
        (-9223372036854775808 ≤ (pre.take (t + 1)).sum - k ∧
          (pre.take (t + 1)).sum - k ≤ 9223372036854775807) := by
      intro t ht
      have := hs t (by rw [List.length_append, List.length_singleton]; omega)
      rw [List.take_append_of_le_length (by omega)] at this
      exact this
    obtain ⟨ih1, ih2, ih3⟩ := ih hs1 (by omega)
    rw [List.foldl_append, List.foldl_cons, List.foldl_nil]
    generalize pre.foldl (SubarraySum.body k) ⟨0, 0, [(0, 1)]⟩ = S at ih1 ih2 ih3 ⊢
    have e0 : (pre ++ [x]).take (pre.length + 1) = pre ++ [x] := by
      apply List.take_of_length_le
      rw [List.length_append, List.length_singleton]
    have hlast := hs pre.length (by rw [List.length_append, List.length_singleton]; omega)
    rw [e0, List.sum_append, List.sum_singleton] at hlast
    have ea : goint.add S.sum x = pre.sum + x := by
      rw [ih1]
      exact goint.add_of_fits _ _ hlast.1.1 hlast.1.2
    have es : goint.sub (pre.sum + x) k = pre.sum + x - k :=
      goint.sub_of_fits _ _ hlast.2.1 hlast.2.2
    have hsum : (SubarraySum.body k S x).sum = pre.sum + x := ea
    have hmap : (SubarraySum.body k S x).sumCount = mapIncr S.sumCount (pre.sum + x) := by
      show mapIncr S.sumCount (goint.add S.sum x) = _
      rw [ea]
    have hcnt : (SubarraySum.body k S x).count =
        S.count + (mapGet S.sumCount (pre.sum + x - k)).getD 0 := by
      have hq := ih2 (pre.sum + x - k)
      unfold SubarraySum.body
      simp only [ea, es]
      split
      · next v e =>
        rw [e] at hq
        simp only [Option.getD_some] at hq
        rw [e, Option.getD_some, ih3, hq]
        apply goint.add_of_fits
        · omega
        · exact hc
      · next e =>
        rw [e]
        exact (add_zero _).symm
    refine ⟨?_, ?_, ?_⟩
    · rw [hsum, List.sum_append, List.sum_singleton]
    · intro q
      rw [hmap, mapGet_mapIncr, ih2 q, List.length_append, List.length_singleton,
        List.range_succ (pre.length + 1), List.filter_append, List.length_append]
      push_cast
      congr 1
      · congr 2
        apply List.filter_congr
        intro i hi
        rw [List.mem_range] at hi
        rw [List.take_append_of_le_length (by omega)]
      · simp only [List.filter_cons, List.filter_nil, e0, List.sum_append, List.sum_singleton]
        by_cases h : q = pre.sum + x
        · rw [if_pos h, if_pos (decide_eq_true h.symm)]; rfl
        · rw [if_neg h, if_neg (by simpa using (fun e => h e.symm))]; rfl
    · rw [hcnt, ih3, ih2, hcapp]
      push_cast
      rfl

/-- Counterexample to claim C23 as stated: on `[9223372036854775807, 1]` with
`k = -9223372036854775808` the running sum wraps to `k` after the second
element, and the call returns `1`, while no index pair has a subarray whose
sum is `k`. -/
theorem SubarraySum_overflow_counterexample :
    SubarraySum [9223372036854775807, 1] (-9223372036854775808) = 1 ∧
    subarrayCount [9223372036854775807, 1] (-9223372036854775808) = 0 := by
  decide

/-- Claim C23 as amended: for every integer list `nums` and every integer `k`
such that the sum `s` of each non-empty prefix of `nums` and the difference
`s - k` fit in an `int` (lie between `math.MinInt64` and `math.MaxInt64`), and
the number of index pairs `i ≤ j < len(nums)` with `nums[i] + ... + nums[j] = k`
(counted by `subarrayCount`, which enumerates the pairs) fits as well,
`SubarraySum nums k` is that number. -/
theorem SubarraySum_counts_subarrays (nums : List Int) (k : Int)
    (hs : ∀ t, t < nums.length →
      (-9223372036854775808 ≤ (nums.take (t + 1)).sum ∧
        (nums.take (t + 1)).sum ≤ 9223372036854775807) ∧
      (-9223372036854775808 ≤ (nums.take (t + 1)).sum - k ∧
        (nums.take (t + 1)).sum - k ≤ 9223372036854775807))
    (hc : (subarrayCount nums k : Int) ≤ 9223372036854775807) :
    SubarraySum nums k = (subarrayCount nums k : Int) :=
  (subarraySum_fold k nums hs hc).2.2

/-- Witness of the amended claim C23 on the first case of `TestSubarraySum`. -/
theorem SubarraySum_counts_subarrays_witness :
    (∀ t, t < ([1, 1, 1] : List Int).length →
      (-9223372036854775808 ≤ (([1, 1, 1] : List Int).take (t + 1)).sum ∧
        (([1, 1, 1] : List Int).take (t + 1)).sum ≤ 9223372036854775807) ∧
      (-9223372036854775808 ≤ (([1, 1, 1] : List Int).take (t + 1)).sum - 2 ∧
        (([1, 1, 1] : List Int).take (t + 1)).sum - 2 ≤ 9223372036854775807)) ∧
    ((subarrayCount [1, 1, 1] 2 : Nat) : Int) ≤ 9223372036854775807 ∧
    SubarraySum [1, 1, 1] 2 = ((subarrayCount [1, 1, 1] 2 : Nat) : Int) :=
  ⟨by decide, by decide, SubarraySum_counts_subarrays [1, 1, 1] 2 (by decide) (by decide)⟩

end prefixsum

/-! ### Merging intervals -/

namespace intervals

theorem eq_pair_of_length (iv : List Int) (h : iv.length = 2) :
    iv = [iv.getD 0 0, iv.getD 1 0] := by
  match iv, h with
  | [a, b], _ => rfl

theorem mergeIntervals_loop_spec :
    ∀ (rest merged : List (List Int)) (cur : List Int),
      (∀ iv ∈ rest, iv.length = 2 ∧ iv.getD 0 0 ≤ iv.getD 1 0) →
      (∀ iv ∈ merged, iv.length = 2 ∧ iv.getD 0 0 ≤ iv.getD 1 0) →
      rest.Pairwise (fun a b => a.getD 0 0 ≤ b.getD 0 0) →
      merged.Pairwise (fun a b => a.getD 1 0 < b.getD 0 0) →
      cur.length = 2 → cur.getD 0 0 ≤ cur.getD 1 0 →
      (∀ iv ∈ rest, cur.getD 0 0 ≤ iv.getD 0 0) →
      (∀ m ∈ merged, m.getD 1 0 < cur.getD 0 0) →
      ∃ out, MergeIntervals.loop rest merged cur = some out ∧
        (∀ iv ∈ out, iv.length = 2 ∧ iv.getD 0 0 ≤ iv.getD 1 0) ∧
        out.Pairwise (fun a b => a.getD 1 0 < b.getD 0 0) ∧
        ∀ x : Int, (∃ iv ∈ out, iv.getD 0 0 ≤ x ∧ x ≤ iv.getD 1 0) ↔
          ((∃ iv ∈ merged, iv.getD 0 0 ≤ x ∧ x ≤ iv.getD 1 0) ∨
            (cur.getD 0 0 ≤ x ∧ x ≤ cur.getD 1 0) ∨
            (∃ iv ∈ rest, iv.getD 0 0 ≤ x ∧ x ≤ iv.getD 1 0)) := by
  intro rest
  induction rest with
  | nil =>
    intro merged cur _ hm _ hmp hc1 hc2 _ hmc
    refine ⟨merged ++ [cur], rfl, ?_, ?_, ?_⟩
    · intro iv hiv
      rcases List.mem_append.1 hiv with h | h
      · exact hm iv h
      · rw [List.mem_singleton] at h; subst h; exact ⟨hc1, hc2⟩
    · rw [List.pairwise_append]
      refine ⟨hmp, List.pairwise_singleton _ _, ?_⟩
      intro a ha b hb
      rw [List.mem_singleton] at hb; subst hb
      exact hmc a ha
    · intro x
      constructor
      · rintro ⟨iv, hiv, hx⟩
        rcases List.mem_append.1 hiv with h | h
        · exact Or.inl ⟨iv, h, hx⟩
        · rw [List.mem_singleton] at h; subst h; exact Or.inr (Or.inl hx)
      · rintro (⟨iv, hiv, hx⟩ | hx | ⟨iv, hiv, _⟩)
        · exact ⟨iv, List.mem_append_left _ hiv, hx⟩
        · exact ⟨cur, List.mem_append_right _ (List.mem_singleton.2 rfl), hx⟩
        · exact absurd hiv (List.not_mem_nil _)
  | cons iv rest ih =>
    intro merged cur hr hm hrp hmp hc1 hc2 hrc hmc
    obtain ⟨hiv1, hiv2⟩ := hr iv (List.mem_cons_self _ _)
    have hr2 : ∀ iv2 ∈ rest, iv2.length = 2 ∧ iv2.getD 0 0 ≤ iv2.getD 1 0 :=
      fun iv2 h => hr iv2 (List.mem_cons_of_mem _ h)
    have hciv := hrc iv (List.mem_cons_self _ _)
    rw [List.pairwise_cons] at hrp
    obtain ⟨hrp1, hrp2⟩ := hrp
    have ecur := eq_pair_of_length cur hc1
    have eiv := eq_pair_of_length iv hiv1
    generalize cur.getD 0 0 = cs at *
    generalize cur.getD 1 0 = ce at *
    generalize iv.getD 0 0 = s at *
    generalize iv.getD 1 0 = e at *
    subst ecur
    subst eiv
    unfold MergeIntervals.loop
    have g1 : ([cs, ce] : List Int)[1]? = some ce := rfl
    have g2 : ([s, e] : List Int)[0]? = some s := rfl
    have g3 : ([s, e] : List Int)[1]? = some e := rfl
    rw [g1, g2]
    simp only
    by_cases c : ce ≥ s
    · rw [if_pos c, g3]
      simp only
      by_cases c1 : e > ce
      · rw [if_pos c1]
        have hset : ([cs, ce] : List Int).set 1 e = [cs, e] := rfl
        rw [hset]
        obtain ⟨out, e1, h1, h2, h3⟩ := ih merged [cs, e] hr2 hm hrp2 hmp rfl
          (by show cs ≤ e; omega)
          (fun iv2 h => hrc iv2 (List.mem_cons_of_mem _ h)) hmc
        refine ⟨out, e1, h1, h2, ?_⟩
        intro x
        rw [h3 x]
        constructor
        · rintro (h | h | h)
          · exact Or.inl h
          · have h5 : cs ≤ x ∧ x ≤ e := h
            by_cases hx : x ≤ ce
            · exact Or.inr (Or.inl ⟨h5.1, hx⟩)
            · exact Or.inr (Or.inr ⟨[s, e], List.mem_cons_self _ _,
                by show s ≤ x; omega, h5.2⟩)
          · obtain ⟨iv2, hiv2m, hx⟩ := h
            exact Or.inr (Or.inr ⟨iv2, List.mem_cons_of_mem _ hiv2m, hx⟩)
        · rintro (h | h | ⟨iv2, hiv2m, hx⟩)
          · exact Or.inl h
          · have h5 : cs ≤ x ∧ x ≤ ce := h
            exact Or.inr (Or.inl ⟨h5.1, by show x ≤ e; omega⟩)
          · rcases List.mem_cons.1 hiv2m with h | h
            · subst h
              have h5 : s ≤ x ∧ x ≤ e := hx
              have h6 : cs ≤ s := hciv
              exact Or.inr (Or.inl ⟨by show cs ≤ x; omega, h5.2⟩)
            · exact Or.inr (Or.inr ⟨iv2, h, hx⟩)
      · rw [if_neg c1]
        obtain ⟨out, e1, h1, h2, h3⟩ := ih merged [cs, ce] hr2 hm hrp2 hmp rfl
          hc2 (fun iv2 h => hrc iv2 (List.mem_cons_of_mem _ h)) hmc
        refine ⟨out, e1, h1, h2, ?_⟩
        intro x
        rw [h3 x]
        constructor
        · rintro (h | h | ⟨iv2, hiv2m, hx⟩)
          · exact Or.inl h
          · exact Or.inr (Or.inl h)
          · exact Or.inr (Or.inr ⟨iv2, List.mem_cons_of_mem _ hiv2m, hx⟩)
        · rintro (h | h | ⟨iv2, hiv2m, hx⟩)
          · exact Or.inl h
          · exact Or.inr (Or.inl h)
          · rcases List.mem_cons.1 hiv2m with h | h
            · subst h
              have h5 : s ≤ x ∧ x ≤ e := hx
              have h6 : cs ≤ s := hciv
              exact Or.inr (Or.inl ⟨by show cs ≤ x; omega, by show x ≤ ce; omega⟩)
            · exact Or.inr (Or.inr ⟨iv2, h, hx⟩)
    · rw [if_neg c]
      have hm2 : ∀ iv2 ∈ merged ++ [[cs, ce]],
          iv2.length = 2 ∧ iv2.getD 0 0 ≤ iv2.getD 1 0 := by
        intro iv2 h
        rcases List.mem_append.1 h with h | h
        · exact hm iv2 h
        · rw [List.mem_singleton] at h; subst h; exact ⟨rfl, hc2⟩
      have hmp2 : (merged ++ [[cs, ce]]).Pairwise (fun a b => a.getD 1 0 < b.getD 0 0) := by
        rw [List.pairwise_append]
        refine ⟨hmp, List.pairwise_singleton _ _, ?_⟩
        intro a ha b hb
        rw [List.mem_singleton] at hb; subst hb
        exact hmc a ha
      obtain ⟨out, e1, h1, h2, h3⟩ := ih (merged ++ [[cs, ce]]) [s, e] hr2 hm2 hrp2 hmp2
        rfl hiv2 hrp1 (by
          intro m hm3
          rcases List.mem_append.1 hm3 with h | h
          · have h5 := hmc m h
            have h6 : cs ≤ s := hciv
            show m.getD 1 0 < s
            have h7 : m.getD 1 0 < cs := h5
            omega
          · rw [List.mem_singleton] at h; subst h
            show ce < s
            omega)
      refine ⟨out, e1, h1, h2, ?_⟩
      intro x
      rw [h3 x]
      constructor
      · rintro (⟨iv2, hiv2m, hx⟩ | h | ⟨iv2, hiv2m, hx⟩)
        · rcases List.mem_append.1 hiv2m with h | h
          · exact Or.inl ⟨iv2, h, hx⟩
          · rw [List.mem_singleton] at h; subst h; exact Or.inr (Or.inl hx)
        · exact Or.inr (Or.inr ⟨[s, e], List.mem_cons_self _ _, h⟩)
        · exact Or.inr (Or.inr ⟨iv2, List.mem_cons_of_mem _ hiv2m, hx⟩)
      · rintro (⟨iv2, hiv2m, hx⟩ | h | ⟨iv2, hiv2m, hx⟩)
        · exact Or.inl ⟨iv2, List.mem_append_left _ hiv2m, hx⟩
        · exact Or.inl ⟨[cs, ce], List.mem_append_right _ (List.mem_singleton.2 rfl), h⟩
        · rcases List.mem_cons.1 hiv2m with h | h
          · subst h; exact Or.inr (Or.inl hx)
          · exact Or.inr (Or.inr ⟨iv2, h, hx⟩)

/-- Claim C28: for a list of intervals `[s, e]` with `s ≤ e`, and `sorted` the
outcome of sorting it by start, `MergeIntervals` returns well-formed intervals
in which every interval starts strictly after all earlier ones end (so they are
sorted by start and touching intervals have been merged), and an integer point
is covered by an output interval exactly when it is covered by an input
interval. -/
theorem MergeIntervals_disjoint_cover (intervals sorted : List (List Int))
    (hwf : ∀ iv ∈ intervals, iv.length = 2 ∧ iv.getD 0 0 ≤ iv.getD 1 0)
    (hperm : sorted.Perm intervals)
    (hsorted : sorted.Pairwise (fun a b => a.getD 0 0 ≤ b.getD 0 0)) :
    ∃ out, MergeIntervals intervals sorted = some out ∧
      (∀ iv ∈ out, iv.length = 2 ∧ iv.getD 0 0 ≤ iv.getD 1 0) ∧
      out.Pairwise (fun a b => a.getD 1 0 < b.getD 0 0) ∧
      out.Pairwise (fun a b => a.getD 0 0 < b.getD 0 0) ∧
      ∀ x : Int, (∃ iv ∈ out, iv.getD 0 0 ≤ x ∧ x ≤ iv.getD 1 0) ↔
        (∃ iv ∈ intervals, iv.getD 0 0 ≤ x ∧ x ≤ iv.getD 1 0) := by
  have key : ∃ out, MergeIntervals intervals sorted = some out ∧
      (∀ iv ∈ out, iv.length = 2 ∧ iv.getD 0 0 ≤ iv.getD 1 0) ∧
      out.Pairwise (fun a b => a.getD 1 0 < b.getD 0 0) ∧
      ∀ x : Int, (∃ iv ∈ out, iv.getD 0 0 ≤ x ∧ x ≤ iv.getD 1 0) ↔
        (∃ iv ∈ intervals, iv.getD 0 0 ≤ x ∧ x ≤ iv.getD 1 0) := by
    unfold MergeIntervals
    by_cases c : intervals.length ≤ 1
    · rw [if_pos c]
      refine ⟨intervals, rfl, hwf, ?_, fun x => Iff.rfl⟩
      match intervals, c with
      | [], _ => exact List.Pairwise.nil
      | [a], _ => exact List.pairwise_singleton _ _
    · rw [if_neg c]
      have hany : intervals.any (fun iv => iv.isEmpty) = false := by
        rw [List.any_eq_false]
        intro iv hiv
        have h := (hwf iv hiv).1
        match iv, h with
        | [a, b], _ => simp
      rw [hany]
      simp only [Bool.false_eq_true, if_false]
      have hwfs : ∀ iv ∈ sorted, iv.length = 2 ∧ iv.getD 0 0 ≤ iv.getD 1 0 :=
        fun iv h => hwf iv (hperm.mem_iff.1 h)
      match sorted, hperm, hsorted, hwfs with
      | [], hperm, _, _ =>
        have := hperm.length_eq
        simp at this
        omega
      | first :: rest, hperm, hsorted, hwfs =>
        rw [List.pairwise_cons] at hsorted
        obtain ⟨out, e1, h1, h2, h3⟩ := mergeIntervals_loop_spec rest [] first
          (fun iv h => hwfs iv (List.mem_cons_of_mem _ h))
          (fun iv h => absurd h (List.not_mem_nil _)) hsorted.2 List.Pairwise.nil
          (hwfs first (List.mem_cons_self _ _)).1 (hwfs first (List.mem_cons_self _ _)).2
          hsorted.1 (fun iv h => absurd h (List.not_mem_nil _))
        refine ⟨out, e1, h1, h2, ?_⟩
        intro x
        rw [h3 x]
        constructor
        · rintro (⟨iv, h, _⟩ | h | ⟨iv, h, hx⟩)
          · exact absurd h (List.not_mem_nil _)
          · exact ⟨first, hperm.mem_iff.1 (List.mem_cons_self _ _), h⟩
          · exact ⟨iv, hperm.mem_iff.1 (List.mem_cons_of_mem _ h), hx⟩
        · rintro ⟨iv, h, hx⟩
          rcases List.mem_cons.1 (hperm.mem_iff.2 h) with h | h
          · subst h; exact Or.inr (Or.inl hx)
          · exact Or.inr (Or.inr ⟨iv, h, hx⟩)
  obtain ⟨out, e1, h1, h2, h3⟩ := key
  refine ⟨out, e1, h1, h2, ?_, h3⟩
  have h4 : ∀ l : List (List Int), (∀ iv ∈ l, iv.length = 2 ∧ iv.getD 0 0 ≤ iv.getD 1 0) →
      l.Pairwise (fun a b => a.getD 1 0 < b.getD 0 0) →
      l.Pairwise (fun a b => a.getD 0 0 < b.getD 0 0) := by
    intro l hl hp
    induction hp with
    | nil => exact List.Pairwise.nil
    | cons hab _ ih =>
      refine List.Pairwise.cons ?_ (ih (fun iv h => hl iv (List.mem_cons_of_mem _ h)))
      intro b hb
      exact lt_of_le_of_lt (hl _ (List.mem_cons_self _ _)).2 (hab b hb)
  exact h4 out h1 h2

/-- Witness of claim C28 on the first case of `TestMergeIntervals`. -/
theorem MergeIntervals_disjoint_cover_witness :
    (∀ iv ∈ ([[1, 3], [2, 6], [8, 10], [15, 18]] : List (List Int)),
      iv.length = 2 ∧ iv.getD 0 0 ≤ iv.getD 1 0) ∧
    ([[1, 3], [2, 6], [8, 10], [15, 18]] : List (List Int)).Perm
      [[1, 3], [2, 6], [8, 10], [15, 18]] ∧
    ([[1, 3], [2, 6], [8, 10], [15, 18]] : List (List Int)).Pairwise
      (fun a b => a.getD 0 0 ≤ b.getD 0 0) ∧
    ∃ out, MergeIntervals [[1, 3], [2, 6], [8, 10], [15, 18]]
        [[1, 3], [2, 6], [8, 10], [15, 18]] = some out ∧
      (∀ iv ∈ out, iv.length = 2 ∧ iv.getD 0 0 ≤ iv.getD 1 0) ∧
      out.Pairwise (fun a b => a.getD 1 0 < b.getD 0 0) ∧
      out.Pairwise (fun a b => a.getD 0 0 < b.getD 0 0) ∧
      ∀ x : Int, (∃ iv ∈ out, iv.getD 0 0 ≤ x ∧ x ≤ iv.getD 1 0) ↔
        (∃ iv ∈ ([[1, 3], [2, 6], [8, 10], [15, 18]] : List (List Int)),
          iv.getD 0 0 ≤ x ∧ x ≤ iv.getD 1 0) :=
  ⟨by decide, List.Perm.refl _, by decide,
    MergeIntervals_disjoint_cover [[1, 3], [2, 6], [8, 10], [15, 18]]
      [[1, 3], [2, 6], [8, 10], [15, 18]] (by decide) (List.Perm.refl _) (by decide)⟩

end intervals

/-! ### Permutations by swapping -/

namespace backtracking

theorem swap_swap (nums : List Int) (i j : Nat) (hi : i < nums.length) (hj : j < nums.length) :
    heap.swap (heap.swap nums i j) i j = nums := by
  apply List.ext_getElem?
  intro k
  have hl := heap.swap_length nums i j
  rw [heap.swap_getElem? _ i j k (by omega) (by omega),
    heap.swap_getElem? _ i j i hi hj, heap.swap_getElem? _ i j j hi hj,
    heap.swap_getElem? _ i j k hi hj]
  by_cases h1 : k = j
  · subst h1
    by_cases h2 : i = k
    · subst h2; simp
    · simp [h2]
  · by_cases h2 : k = i
    · subst h2; simp [h1]
    · simp [h1, h2]

theorem swap_prefix (nums l : List Int) (start i : Nat) (hsi : start ≤ i)
    (hi : i < nums.length) :
    (∀ k, k < start + 1 → l[k]? = (heap.swap nums start i)[k]?) ↔
      ((∀ k, k < start → l[k]? = nums[k]?) ∧ l[start]? = nums[i]?) := by
  have hget : ∀ k, (heap.swap nums start i)[k]? =
      if k = i then nums[start]? else if k = start then nums[i]? else nums[k]? :=
    fun k => heap.swap_getElem? nums start i k (by omega) hi
  constructor
  · intro h
    constructor
    · intro k hk
      rw [h k (by omega), hget, if_neg (by omega), if_neg (by omega)]
    · rw [h start (by omega), hget]
      by_cases c : start = i
      · rw [if_pos c, c]
      · rw [if_neg c, if_pos rfl]
  · rintro ⟨h1, h2⟩ k hk
    rw [hget]
    by_cases c : k = start
    · subst c
      by_cases c2 : k = i
      · rw [if_pos c2, h2, c2]
      · rw [if_neg c2, if_pos rfl, h2]
    · rw [if_neg (by omega), if_neg c]
      exact h1 k (by omega)

theorem nodup_getElem?_inj (l : List Int) (hnd : l.Nodup) (i j : Nat) (hi : i < l.length)
    (h : l[i]? = l[j]?) : i = j := by
  have hj : j < l.length := by
    by_contra c
    rw [List.getElem?_eq_getElem hi, List.getElem?_eq_none (by omega)] at h
    exact absurd h (by simp)
  rw [List.getElem?_eq_getElem hi, List.getElem?_eq_getElem hj] at h
  exact (List.Nodup.getElem_inj_iff hnd).1 (Option.some.inj h)

theorem permute_loop (nums : List Int) (result : List (List Int)) (start : Nat)
    (hnd : nums.Nodup)
    (body : List Int × List (List Int) → Nat → Option (List Int × List (List Int)))
    (hbody : ∀ (acc : List (List Int)) (i : Nat), start ≤ i → i < nums.length →
      ∃ out, body (nums, result ++ acc) i = some (nums, result ++ (acc ++ out)) ∧ out.Nodup ∧
        out.length = (nums.length - start - 1).factorial ∧
        ∀ l, l ∈ out ↔ (l.Perm nums ∧ (∀ k, k < start → l[k]? = nums[k]?) ∧
          l[start]? = nums[i]?)) :
    ∀ (cnt a : Nat) (acc : List (List Int)), a + cnt = nums.length → start ≤ a →
      acc.Nodup → acc.length = (a - start) * (nums.length - start - 1).factorial →
      (∀ l, l ∈ acc ↔ (l.Perm nums ∧ (∀ k, k < start → l[k]? = nums[k]?) ∧
        ∃ i, start ≤ i ∧ i < a ∧ l[start]? = nums[i]?)) →
      ∃ out, (List.range' a cnt).foldlM body (nums, result ++ acc) =
          some (nums, result ++ out) ∧ out.Nodup ∧
        out.length = (nums.length - start) * (nums.length - start - 1).factorial ∧
        ∀ l, l ∈ out ↔ (l.Perm nums ∧ (∀ k, k < start → l[k]? = nums[k]?) ∧
          ∃ i, start ≤ i ∧ i < nums.length ∧ l[start]? = nums[i]?) := by
  intro cnt
  induction cnt with
  | zero =>
    intro a acc ha hsa hn hlen hmem
    have e : a = nums.length := by omega
    subst e
    exact ⟨acc, rfl, hn, hlen, hmem⟩
  | succ cnt ih =>
    intro a acc ha hsa hn hlen hmem
    obtain ⟨out, e, hon, holen, homem⟩ := hbody acc a hsa (by omega)
    have hstep : (List.range' a (cnt + 1)).foldlM body (nums, result ++ acc) =
        (List.range' (a + 1) cnt).foldlM body (nums, result ++ (acc ++ out)) := by
      rw [List.range'_succ, List.foldlM_cons, e]
      rfl
    rw [hstep]
    apply ih (a + 1) (acc ++ out) (by omega) (by omega)
    · rw [List.nodup_append]
      refine ⟨hn, hon, ?_⟩
      intro l h1 h2
      obtain ⟨hp, _, i, hi1, hi2, hi3⟩ := (hmem l).1 h1
      obtain ⟨_, _, h3⟩ := (homem l).1 h2
      rw [h3] at hi3
      have := nodup_getElem?_inj nums hnd a i (by omega) hi3
      omega
    · rw [List.length_append, hlen, holen]
      have : a + 1 - start = (a - start) + 1 := by omega
      rw [this, Nat.add_mul, Nat.one_mul]
    · intro l
      rw [List.mem_append, hmem l, homem l]
      constructor
      · rintro (⟨h1, h2, i, hi1, hi2, hi3⟩ | ⟨h1, h2, h3⟩)
        · exact ⟨h1, h2, i, hi1, by omega, hi3⟩
        · exact ⟨h1, h2, a, hsa, by omega, h3⟩
      · rintro ⟨h1, h2, i, hi1, hi2, hi3⟩
        by_cases c : i = a
        · subst c; exact Or.inr ⟨h1, h2, hi3⟩
        · exact Or.inl ⟨h1, h2, i, hi1, by omega, hi3⟩

theorem permuteHelper_spec :
    ∀ (fuel : Nat) (nums : List Int) (start : Nat) (result : List (List Int)),
      nums.Nodup → start ≤ nums.length → nums.length - start ≤ fuel →
      ∃ out, permuteHelper fuel nums start result = some (nums, result ++ out) ∧ out.Nodup ∧
        out.length = (nums.length - start).factorial ∧
        ∀ l, l ∈ out ↔ (l.Perm nums ∧ ∀ k, k < start → l[k]? = nums[k]?) := by
  have hbase : ∀ (fuel : Nat) (nums : List Int) (start : Nat) (result : List (List Int)),
      start = nums.length →
      ∃ out, permuteHelper fuel nums start result = some (nums, result ++ out) ∧ out.Nodup ∧
        out.length = (nums.length - start).factorial ∧
        ∀ l, l ∈ out ↔ (l.Perm nums ∧ ∀ k, k < start → l[k]? = nums[k]?) := by
    intro fuel nums start result hs
    refine ⟨[nums], ?_, List.nodup_singleton _, ?_, ?_⟩
    · unfold permuteHelper
      rw [if_pos hs]
    · rw [hs, Nat.sub_self]; rfl
    · intro l
      rw [List.mem_singleton]
      constructor
      · intro e; subst e; exact ⟨List.Perm.refl _, fun _ _ => rfl⟩
      · rintro ⟨hp, hk⟩
        apply List.ext_getElem?
        intro k
        by_cases c : k < start
        · exact hk k c
        · rw [List.getElem?_eq_none (by rw [hp.length_eq]; omega),
            List.getElem?_eq_none (by omega)]
  intro fuel
  induction fuel with
  | zero =>
    intro nums start result hnd hs hf
    exact hbase 0 nums start result (by omega)
  | succ fuel ih =>
    intro nums start result hnd hs hf
    by_cases c : start = nums.length
    · exact hbase _ nums start result c
    · have hlt : start < nums.length := by omega
      unfold permuteHelper
      rw [if_neg c]
      simp only
      obtain ⟨out, e, hon, holen, homem⟩ := permute_loop nums result start hnd
        (fun (st : List Int × List (List Int)) i =>
          match permuteHelper fuel (heap.swap st.1 start i) (start + 1) st.2 with
          | none => none
          | some (nums1, result1) => some (heap.swap nums1 start i, result1))
        (by
          intro acc i hsi hi
          have hl := heap.swap_length nums start i
          obtain ⟨out, e, hon, holen, homem⟩ := ih (heap.swap nums start i) (start + 1)
            (result ++ acc) ((heap.swap_perm nums start i).nodup_iff.2 hnd) (by omega)
            (by omega)
          refine ⟨out, ?_, hon, ?_, ?_⟩
          · simp only [e]
            rw [swap_swap nums start i hlt hi, List.append_assoc]
          · rw [holen, hl]
            congr 1
          · intro l
            rw [homem l, swap_prefix nums l start i hsi hi]
            constructor
            · rintro ⟨h1, h2, h3⟩
              exact ⟨h1.trans (heap.swap_perm nums start i), h2, h3⟩
            · rintro ⟨h1, h2, h3⟩
              exact ⟨h1.trans (heap.swap_perm nums start i).symm, h2, h3⟩)
        (nums.length - start) start [] (by omega) (le_refl _) List.nodup_nil
        (by rw [Nat.sub_self, Nat.zero_mul]; rfl)
        (by
          intro l
          constructor
          · intro h; exact absurd h (List.not_mem_nil _)
          · rintro ⟨_, _, i, h1, h2, _⟩; omega)
      rw [List.append_nil] at e
      refine ⟨out, e, hon, ?_, ?_⟩
      · rw [holen]
        obtain ⟨m, hm⟩ : ∃ m, nums.length - start = m + 1 := ⟨nums.length - start - 1, by omega⟩
        rw [hm, Nat.add_sub_cancel, Nat.factorial_succ]
      · intro l
        rw [homem l]
        constructor
        · rintro ⟨h1, h2, _⟩; exact ⟨h1, h2⟩
        · rintro ⟨h1, h2⟩
          refine ⟨h1, h2, ?_⟩
          have hll : start < l.length := by rw [h1.length_eq]; exact hlt
          have hmem : l[start] ∈ nums := h1.mem_iff.1 (List.getElem_mem _)
          obtain ⟨i, hi, he⟩ := List.getElem_of_mem hmem
          refine ⟨i, ?_, hi, ?_⟩
          · by_contra hc
            have h3 := h2 i (by omega)
            rw [List.getElem?_eq_getElem hi, he, ← List.getElem?_eq_getElem hll] at h3
            have := nodup_getElem?_inj l (h1.nodup_iff.2 hnd) i start (by omega) h3
            omega
          · rw [List.getElem?_eq_getElem hi, he, List.getElem?_eq_getElem hll]

/-- Claim C29: for a list `nums` of `n` pairwise distinct integers,
`Permutations nums` returns a list of exactly `n!` lists without repetition
whose members are exactly the permutations of `nums`. -/
theorem Permutations_all_exactly_once (nums : List Int) (hnd : nums.Nodup) :
    ∃ result, Permutations nums = some result ∧
      result.length = nums.length.factorial ∧ result.Nodup ∧
      ∀ l, l ∈ result ↔ l.Perm nums := by
  obtain ⟨out, e, hon, holen, homem⟩ := permuteHelper_spec nums.length nums 0 [] hnd
    (Nat.zero_le _) (by omega)
  refine ⟨out, ?_, holen, hon, ?_⟩
  · unfold Permutations
    rw [e]
    rfl
  · intro l
    rw [homem l]
    constructor
    · rintro ⟨h, _⟩; exact h
    · intro h; exact ⟨h, fun k hk => absurd hk (Nat.not_lt_zero k)⟩

/-- Witness of claim C29 on the input `[1, 2, 3]` of `TestPermutations`. -/
theorem Permutations_all_exactly_once_witness :
    ([1, 2, 3] : List Int).Nodup ∧
    ∃ result, Permutations [1, 2, 3] = some result ∧
      result.length = ([1, 2, 3] : List Int).length.factorial ∧ result.Nodup ∧
      ∀ l, l ∈ result ↔ l.Perm [1, 2, 3] :=
  ⟨by decide, Permutations_all_exactly_once [1, 2, 3] (by decide)⟩

end backtracking

namespace monotonicstack

/-! ### Daily temperatures -/

theorem getElem?_eq_some_getD (l : List Int) (i : Nat) (h : i < l.length) :
    l[i]? = some (l.getD i 0) := by
  rw [List.getD_eq_getElem _ _ h, List.getElem?_eq_getElem h]

theorem getD_set (l : List Int) (i j : Nat) (v : Int) :
    (l.set i v).getD j 0 = if i = j ∧ i < l.length then v else l.getD j 0 := by
  rw [List.getD_eq_getElem?_getD, List.getD_eq_getElem?_getD, List.getElem?_set]
  by_cases h : i = j
  · subst h
    by_cases h2 : i < l.length
    · simp [h2]
    · simp [h2]
      rw [List.getElem?_eq_none (by omega)]
      rfl
  · simp [h]

theorem eq_nil_or_append_singleton (stack : List Nat) :
    stack = [] ∨ ∃ init top, stack = init ++ [top] := by
  rcases List.eq_nil_or_concat stack with e | ⟨init, top, e⟩
  · exact Or.inl e
  · exact Or.inr ⟨init, top, by rw [e, List.concat_eq_append]⟩

theorem dailyTemperatures_popLoop_spec (temperatures : List Int) (i : Nat)
    (hi : i < temperatures.length) :
    ∀ (fuel : Nat) (stack : List Nat) (result : List Int), stack.length < fuel →
      DailyTemperatures.Inv temperatures stack result i (i + 1) →
      ∃ stack2 result2,
        DailyTemperatures.popLoop temperatures i fuel stack result = some (stack2, result2) ∧
        DailyTemperatures.Inv temperatures stack2 result2 i (i + 1) ∧
        ∀ s ∈ stack2, temperatures.getD i 0 ≤ temperatures.getD s 0 := by
  intro fuel
  induction fuel with
  | zero => intro stack result h; omega
  | succ fuel ih =>
    intro stack result hf hinv
    unfold DailyTemperatures.popLoop
    rcases eq_nil_or_append_singleton stack with e | ⟨init, top, e⟩
    · subst e
      refine ⟨[], result, rfl, hinv, ?_⟩
      intro s hs
      exact absurd hs (List.not_mem_nil _)
    · subst e
      obtain ⟨h1, h2, h3, h4, h5, h6⟩ := hinv
      have htop : top < i := h3 top (by simp)
      rw [List.getLast?_concat, List.dropLast_concat]
      simp only
      rw [getElem?_eq_some_getD temperatures i hi,
        getElem?_eq_some_getD temperatures top (by omega)]
      simp only
      rw [List.pairwise_append] at h2
      obtain ⟨h2a, _, h2c⟩ := h2
      have hlt : ∀ s ∈ init, s < top := fun s hs => h2c s hs top (by simp)
      by_cases c : temperatures.getD i 0 > temperatures.getD top 0
      · rw [if_pos c]
        apply ih
        · rw [List.length_append, List.length_singleton] at hf; omega
        · refine ⟨by rw [List.length_set]; exact h1, h2a,
            fun s hs => h3 s (List.mem_append_left _ hs), ?_, ?_, ?_⟩
          · intro p hp
            have hne : ¬ (top = p ∧ top < result.length) := by
              have := hlt p hp
              omega
            rw [getD_set, if_neg hne]
            exact h4 p (List.mem_append_left _ hp)
          · intro p hpt hpn
            by_cases hp : p = top
            · subst hp
              refine ⟨i, htop, by omega, c, (h4 p (by simp)).2, ?_⟩
              rw [getD_set, if_pos ⟨rfl, by omega⟩]
            · have hne : ¬ (top = p ∧ top < result.length) := by
                intro h; exact hp h.1.symm
              rw [getD_set, if_neg hne]
              apply h5 p hpt
              intro hm
              rcases List.mem_append.1 hm with h | h
              · exact hpn h
              · rw [List.mem_singleton] at h; exact hp h
          · intro p hp
            have hne : ¬ (top = p ∧ top < result.length) := by omega
            rw [getD_set, if_neg hne]
            exact h6 p hp
      · rw [if_neg c]
        refine ⟨init ++ [top], result, rfl, ⟨h1, List.pairwise_append.2 ⟨h2a, by simp, h2c⟩,
          h3, h4, h5, h6⟩, ?_⟩
        intro s hs
        rcases List.mem_append.1 hs with h | h
        · have g1 := (h4 s hs).2 top (hlt s h) htop
          omega
        · rw [List.mem_singleton] at h; subst h; omega

theorem dailyTemperatures_body_spec (temperatures : List Int) (i : Nat)
    (hi : i < temperatures.length) (stack : List Nat) (result : List Int)
    (hinv : DailyTemperatures.Inv temperatures stack result i i) :
    ∃ stack2 result2,
      DailyTemperatures.body temperatures (stack, result) i = some (stack2, result2) ∧
      DailyTemperatures.Inv temperatures stack2 result2 (i + 1) (i + 1) := by
  have hweak : DailyTemperatures.Inv temperatures stack result i (i + 1) := by
    obtain ⟨h1, h2, h3, h4, h5, h6⟩ := hinv
    refine ⟨h1, h2, h3, h4, ?_, h6⟩
    intro p hp hpn
    obtain ⟨j, g1, g2, g3⟩ := h5 p hp hpn
    exact ⟨j, g1, by omega, g3⟩
  obtain ⟨stack2, result2, e, ⟨h1, h2, h3, h4, h5, h6⟩, hge⟩ :=
    dailyTemperatures_popLoop_spec temperatures i hi (stack.length + 1) stack result
      (by omega) hweak
  refine ⟨stack2 ++ [i], result2, ?_, h1, ?_, ?_, ?_, ?_, ?_⟩
  · unfold DailyTemperatures.body
    simp only [e]
  · rw [List.pairwise_append]
    refine ⟨h2, by simp, ?_⟩
    intro a ha b hb
    rw [List.mem_singleton] at hb; subst hb
    exact h3 a ha
  · intro s hs
    rcases List.mem_append.1 hs with h | h
    · have := h3 s h; omega
    · rw [List.mem_singleton] at h; omega
  · intro p hp
    rcases List.mem_append.1 hp with h | h
    · refine ⟨(h4 p h).1, ?_⟩
      intro j hj1 hj2
      by_cases c : j = i
      · subst c; exact hge p h
      · exact (h4 p h).2 j hj1 (by omega)
    · rw [List.mem_singleton] at h; subst h
      refine ⟨h6 p (le_refl _), ?_⟩
      intro j hj1 hj2; omega
  · intro p hp hpn
    have hpi : p ≠ i := by
      intro h; exact hpn (List.mem_append_right _ (List.mem_singleton.2 h))
    exact h5 p (by omega) (fun h => hpn (List.mem_append_left _ h))
  · intro p hp
    exact h6 p (by omega)

theorem dailyTemperatures_fold (temperatures : List Int) :
    ∀ t, t ≤ temperatures.length →
      ∃ stack result, (List.range t).foldlM (DailyTemperatures.body temperatures)
          ([], List.replicate temperatures.length 0) = some (stack, result) ∧
        DailyTemperatures.Inv temperatures stack result t t := by
  intro t
  induction t with
  | zero =>
    intro _
    refine ⟨[], List.replicate temperatures.length 0, rfl, List.length_replicate _ _,
      List.Pairwise.nil, ?_, ?_, ?_, ?_⟩
    · intro s hs; exact absurd hs (List.not_mem_nil _)
    · intro p hp; exact absurd hp (List.not_mem_nil _)
    · intro p hp; omega
    · intro p _
      rw [List.getD_eq_getElem?_getD, List.getElem?_replicate]
      split <;> rfl
  | succ t ih =>
    intro ht
    obtain ⟨stack, result, e, hinv⟩ := ih (by omega)
    obtain ⟨stack2, result2, e2, hinv2⟩ :=
      dailyTemperatures_body_spec temperatures t (by omega) stack result hinv
    refine ⟨stack2, result2, ?_, hinv2⟩
    rw [List.range_succ, List.foldlM_append, e]
    show (List.foldlM (DailyTemperatures.body temperatures) (stack, result) [t]) = _
    rw [List.foldlM_cons, e2]
    rfl

/-- Claim C27: `DailyTemperatures` returns a list of the same length as its
argument; for every day `i`, if `j` is the smallest later day that is strictly
warmer then entry `i` is `j - i`, and if no later day is strictly warmer then
entry `i` is `0`. -/
theorem DailyTemperatures_first_warmer_day (temperatures : List Int) :
    ∃ result, DailyTemperatures temperatures = some result ∧
      result.length = temperatures.length ∧
      ∀ i, i < temperatures.length →
        (∀ j, i < j → j < temperatures.length →
          temperatures.getD i 0 < temperatures.getD j 0 →
          (∀ j2, i < j2 → j2 < j → temperatures.getD j2 0 ≤ temperatures.getD i 0) →
          result.getD i 0 = (j : Int) - (i : Int)) ∧
        ((∀ j, i < j → j < temperatures.length →
          temperatures.getD j 0 ≤ temperatures.getD i 0) → result.getD i 0 = 0) := by
  obtain ⟨stack, result, e, h1, h2, h3, h4, h5, h6⟩ :=
    dailyTemperatures_fold temperatures temperatures.length (le_refl _)
  refine ⟨result, ?_, h1, ?_⟩
  · unfold DailyTemperatures
    rw [e]
    rfl
  · intro i hi
    constructor
    · intro j hij hj hw hmin
      by_cases hs : i ∈ stack
      · have := (h4 i hs).2 j hij hj
        omega
      · obtain ⟨j0, g1, g2, g3, g4, g5⟩ := h5 i hi hs
        have e1 : j0 = j := by
          by_contra hne
          rcases Nat.lt_or_gt_of_ne hne with h | h
          · have := hmin j0 g1 h; omega
          · have := g4 j hij h; omega
        rw [g5, e1]
    · intro hnone
      by_cases hs : i ∈ stack
      · exact (h4 i hs).1
      · obtain ⟨j0, g1, g2, g3, _, _⟩ := h5 i hi hs
        have := hnone j0 g1 g2
        omega

/-! ### Largest rectangle in a histogram -/

theorem largestRectangle_popLoop_nil (H : List Int) (i fuel : Nat) (maxArea : Int) :
    LargestRectangleArea.popLoop H i (fuel + 1) [] maxArea = some ([], maxArea) := by
  unfold LargestRectangleArea.popLoop
  rfl

theorem largestRectangle_popLoop_concat (H : List Int) (i fuel : Nat) (maxArea : Int)
    (init : List Nat) (top : Nat) (hi : i < H.length) (htop : top < H.length)
    (hp : init.Pairwise (fun a b => a < b)) :
    ∃ lo : Nat, (∀ s ∈ init, s < lo) ∧ (lo = 0 ∨ ∃ s ∈ init, lo = s + 1) ∧
      LargestRectangleArea.popLoop H i (fuel + 1) (init ++ [top]) maxArea =
        if H.getD i 0 < H.getD top 0 then
          LargestRectangleArea.popLoop H i fuel init
            (if goint.mul (H.getD top 0) ((i : Int) - (lo : Int)) > maxArea
              then goint.mul (H.getD top 0) ((i : Int) - (lo : Int)) else maxArea)
        else some (init ++ [top], maxArea) := by
  rcases eq_nil_or_append_singleton init with e | ⟨init2, s, e⟩
  · subst e
    refine ⟨0, fun s hs => absurd hs (List.not_mem_nil _), Or.inl rfl, ?_⟩
    conv_lhs => rw [LargestRectangleArea.popLoop]
    rw [List.getLast?_concat, List.dropLast_concat]
    simp only
    rw [getElem?_eq_some_getD H i hi, getElem?_eq_some_getD H top htop]
    simp only [List.getLast?_nil, Nat.cast_zero, sub_zero]
  · subst e
    refine ⟨s + 1, ?_, Or.inr ⟨s, by simp, rfl⟩, ?_⟩
    · intro s2 hs2
      rw [List.pairwise_append] at hp
      rcases List.mem_append.1 hs2 with h | h
      · have := hp.2.2 s2 h s (by simp)
        omega
      · rw [List.mem_singleton] at h; omega
    · conv_lhs => rw [LargestRectangleArea.popLoop]
      rw [List.getLast?_concat, List.dropLast_concat]
      simp only
      rw [getElem?_eq_some_getD H i hi, getElem?_eq_some_getD H top htop]
      simp only [List.getLast?_concat]
      have e1 : (i : Int) - (s : Int) - 1 = (i : Int) - ((s + 1 : Nat) : Int) := by
        push_cast; omega
      rw [e1]

theorem largestRectangle_popLoop_spec (H : List Int) (hnn : ∀ x, 0 ≤ H.getD x 0)
    (hfit : ∀ x, ((H.length : Int) - 1) * H.getD x 0 ≤ 9223372036854775807) (i : Nat)
    (hi : i < H.length) :
    ∀ (fuel : Nat) (stack : List Nat) (maxArea : Int), stack.length < fuel →
      LargestRectangleArea.Inv H stack maxArea i →
      (∀ x, x < i → (∀ s ∈ stack, s < x) → H.getD i 0 < H.getD x 0) →
      ∃ stack2 maxArea2,
        LargestRectangleArea.popLoop H i fuel stack maxArea = some (stack2, maxArea2) ∧
        LargestRectangleArea.Inv H stack2 maxArea2 i ∧
        (∀ x, x < i → (∀ s ∈ stack2, s < x) → H.getD i 0 < H.getD x 0) ∧
        ∀ s ∈ stack2, H.getD s 0 ≤ H.getD i 0 := by
  intro fuel
  induction fuel with
  | zero => intro stack maxArea h; omega
  | succ fuel ih =>
    intro stack maxArea hf hinv hK
    rcases eq_nil_or_append_singleton stack with e | ⟨init, top, e⟩
    · subst e
      refine ⟨[], maxArea, largestRectangle_popLoop_nil H i fuel maxArea, hinv, hK, ?_⟩
      intro s hs
      exact absurd hs (List.not_mem_nil _)
    · subst e
      obtain ⟨h1, h2, h3, h4, h5, h6, h7⟩ := hinv
      have htop : top < i := h2 top (by simp)
      rw [List.pairwise_append] at h1
      obtain ⟨h1a, _, h1c⟩ := h1
      have hlt : ∀ s ∈ init, s < top := fun s hs => h1c s hs top (by simp)
      obtain ⟨lo, hlo1, hlo2, e⟩ := largestRectangle_popLoop_concat H i fuel maxArea init top
        hi (by omega) h1a
      rw [e]
      by_cases c : H.getD i 0 < H.getD top 0
      · rw [if_pos c]
        have hlotop : lo ≤ top := by
          rcases hlo2 with h | ⟨s, hs, h⟩
          · omega
          · have := hlt s hs; omega
        have hpos : 0 ≤ H.getD top 0 := hnn top
        have hmul : goint.mul (H.getD top 0) ((i : Int) - (lo : Int)) =
            H.getD top 0 * ((i : Int) - (lo : Int)) := by
          have hw0 : (0 : Int) ≤ (i : Int) - (lo : Int) := by omega
          have hw1 : (i : Int) - (lo : Int) ≤ (H.length : Int) - 1 := by omega
          have g1 := mul_nonneg hpos hw0
          have g2 := mul_le_mul_of_nonneg_left hw1 hpos
          have g3 := hfit top
          have g4 : H.getD top 0 * ((H.length : Int) - 1) =
              ((H.length : Int) - 1) * H.getD top 0 := mul_comm _ _
          apply goint.mul_of_fits
          · omega
          · omega
        rw [hmul]
        have hrange : ∀ x, lo ≤ x → x ≤ i - 1 → H.getD top 0 ≤ H.getD x 0 := by
          intro x hx1 hx2
          rcases Nat.lt_trichotomy x top with h | h | h
          · apply h4 top (by simp) x h
            intro s hs hst
            rcases List.mem_append.1 hs with g | g
            · have := hlo1 s g; omega
            · rw [List.mem_singleton] at g; omega
          · rw [h]
          · exact h3 top (by simp) x h (by omega)
        have harea : H.getD top 0 * ((i : Int) - (lo : Int)) =
            (((i - 1 : Nat) : Int) - (lo : Int) + 1) * H.getD top 0 := by
          have : ((i - 1 : Nat) : Int) = (i : Int) - 1 := by omega
          rw [this]; ring
        apply ih
        · rw [List.length_append, List.length_singleton] at hf; omega
        · refine ⟨h1a, fun s hs => h2 s (List.mem_append_left _ hs),
            fun p hp => h3 p (List.mem_append_left _ hp), ?_, ?_, ?_, ?_⟩
          · intro p hp x hx hall
            apply h4 p (List.mem_append_left _ hp) x hx
            intro s hs hsp
            rcases List.mem_append.1 hs with g | g
            · exact hall s g hsp
            · rw [List.mem_singleton] at g
              have := hlt p hp
              omega
          · intro p hpi hpn
            by_cases hpt : p = top
            · subst hpt
              intro a b hap hpb hall hleft
              have hb : b < i := by
                by_contra hc
                have := hall i (by omega) (by omega)
                omega
              have ha : lo ≤ a := by
                by_contra hc
                rcases hlo2 with h | ⟨s, hs, h⟩
                · omega
                · have g1 := hleft s (by omega) (hlt s hs)
                  have g2 := h3 s (List.mem_append_left _ hs) p (hlt s hs) htop
                  omega
              have hw : (b : Int) - (a : Int) + 1 ≤ (i : Int) - (lo : Int) := by omega
              have hmul := mul_le_mul_of_nonneg_right hw hpos
              have hcomm : ((i : Int) - (lo : Int)) * H.getD p 0 =
                  H.getD p 0 * ((i : Int) - (lo : Int)) := mul_comm _ _
              split <;> omega
            · have hcov := h5 p hpi (by
                intro hm
                rcases List.mem_append.1 hm with g | g
                · exact hpn g
                · rw [List.mem_singleton] at g; exact hpt g)
              intro a b hap hpb hall hleft
              have := hcov a b hap hpb hall hleft
              split <;> omega
          · split <;> omega
          · split
            · right
              refine ⟨lo, i - 1, top, hlotop, by omega, by omega, hrange, harea⟩
            · exact h7
        · intro x hxi hall
          by_cases hxt : x < top
          · have g := h4 top (by simp) x hxt (by
              intro s hs hst
              rcases List.mem_append.1 hs with g | g
              · exact hall s g
              · rw [List.mem_singleton] at g; omega)
            omega
          · rcases Nat.eq_or_lt_of_le (Nat.le_of_not_lt hxt) with g | g
            · rw [← g]; exact c
            · have := h3 top (by simp) x g hxi
              omega
      · rw [if_neg c]
        refine ⟨init ++ [top], maxArea, rfl,
          ⟨List.pairwise_append.2 ⟨h1a, by simp, h1c⟩, h2, h3, h4, h5, h6, h7⟩, hK, ?_⟩
        intro s hs
        rcases List.mem_append.1 hs with g | g
        · have := h3 s hs top (hlt s g) htop
          omega
        · rw [List.mem_singleton] at g; subst g; omega

theorem largestRectangle_body_spec (H : List Int) (hnn : ∀ x, 0 ≤ H.getD x 0)
    (hfit : ∀ x, ((H.length : Int) - 1) * H.getD x 0 ≤ 9223372036854775807) (i : Nat)
    (hi : i < H.length) (stack : List Nat) (maxArea : Int)
    (hinv : LargestRectangleArea.Inv H stack maxArea i)
    (htopi : ∀ x, x < i → ∃ s ∈ stack, x ≤ s) :
    ∃ stack2 maxArea2,
      LargestRectangleArea.body H (stack, maxArea) i = some (stack2, maxArea2) ∧
      LargestRectangleArea.Inv H stack2 maxArea2 (i + 1) ∧
      ∀ x, x < i + 1 → ∃ s ∈ stack2, x ≤ s := by
  obtain ⟨stack2, maxArea2, e, ⟨h1, h2, h3, h4, h5, h6, h7⟩, hK, hle⟩ :=
    largestRectangle_popLoop_spec H hnn hfit i hi (stack.length + 1) stack maxArea (by omega)
      hinv
      (by
        intro x hx hall
        obtain ⟨s, hs, hxs⟩ := htopi x hx
        have := hall s hs
        omega)
  refine ⟨stack2 ++ [i], maxArea2, ?_, ⟨?_, ?_, ?_, ?_, ?_, h6, h7⟩, ?_⟩
  · unfold LargestRectangleArea.body
    simp only [e]
  · rw [List.pairwise_append]
    refine ⟨h1, by simp, ?_⟩
    intro a ha b hb
    rw [List.mem_singleton] at hb; subst hb
    exact h2 a ha
  · intro s hs
    rcases List.mem_append.1 hs with h | h
    · have := h2 s h; omega
    · rw [List.mem_singleton] at h; omega
  · intro p hp x hpx hx
    rcases List.mem_append.1 hp with h | h
    · by_cases c : x = i
      · subst c; exact hle p h
      · exact h3 p h x hpx (by omega)
    · rw [List.mem_singleton] at h; omega
  · intro p hp x hxp hall
    rcases List.mem_append.1 hp with h | h
    · apply h4 p h x hxp
      intro s hs hsp
      exact hall s (List.mem_append_left _ hs) hsp
    · rw [List.mem_singleton] at h; subst h
      have := hK x hxp (fun s hs => hall s (List.mem_append_left _ hs) (h2 s hs))
      omega
  · intro p hp hpn
    have hpi : p ≠ i := by
      intro h; exact hpn (List.mem_append_right _ (List.mem_singleton.2 h))
    exact h5 p (by omega) (fun h => hpn (List.mem_append_left _ h))
  · intro x hx
    exact ⟨i, List.mem_append_right _ (List.mem_singleton.2 rfl), by omega⟩

theorem largestRectangle_fold (H : List Int) (hnn : ∀ x, 0 ≤ H.getD x 0)
    (hfit : ∀ x, ((H.length : Int) - 1) * H.getD x 0 ≤ 9223372036854775807) :
    ∀ t, t ≤ H.length →
      ∃ stack maxArea, (List.range t).foldlM (LargestRectangleArea.body H) ([], 0) =
          some (stack, maxArea) ∧
        LargestRectangleArea.Inv H stack maxArea t ∧
        ∀ x, x < t → ∃ s ∈ stack, x ≤ s := by
  intro t
  induction t with
  | zero =>
    intro _
    refine ⟨[], 0, rfl, ⟨List.Pairwise.nil, ?_, ?_, ?_, ?_, le_refl _, Or.inl rfl⟩, ?_⟩
    · intro s hs; exact absurd hs (List.not_mem_nil _)
    · intro p hp; exact absurd hp (List.not_mem_nil _)
    · intro p hp; exact absurd hp (List.not_mem_nil _)
    · intro p hp; omega
    · intro x hx; omega
  | succ t ih =>
    intro ht
    obtain ⟨stack, maxArea, e, hinv, htop⟩ := ih (by omega)
    obtain ⟨stack2, maxArea2, e2, hinv2, htop2⟩ :=
      largestRectangle_body_spec H hnn hfit t (by omega) stack maxArea hinv htop
    refine ⟨stack2, maxArea2, ?_, hinv2, htop2⟩
    rw [List.range_succ, List.foldlM_append, e]
    show (List.foldlM (LargestRectangleArea.body H) (stack, maxArea) [t]) = _
    rw [List.foldlM_cons, e2]
    rfl

theorem leftmost_min (f : Nat → Int) (a : Nat) :
    ∀ d, ∃ p, a ≤ p ∧ p ≤ a + d ∧ (∀ x, a ≤ x → x ≤ a + d → f p ≤ f x) ∧
      ∀ x, a ≤ x → x < p → f p < f x := by
  intro d
  induction d with
  | zero =>
    refine ⟨a, le_refl _, le_refl _, ?_, ?_⟩
    · intro x h1 h2
      have : x = a := by omega
      rw [this]
    · intro x h1 h2; omega
  | succ d ih =>
    obtain ⟨p, h1, h2, h3, h4⟩ := ih
    by_cases c : f (a + (d + 1)) < f p
    · refine ⟨a + (d + 1), by omega, le_refl _, ?_, ?_⟩
      · intro x hx1 hx2
        rcases Nat.eq_or_lt_of_le hx2 with h | h
        · rw [h]
        · have := h3 x hx1 (by omega); omega
      · intro x hx1 hx2
        have := h3 x hx1 (by omega); omega
    · refine ⟨p, h1, by omega, ?_, h4⟩
      intro x hx1 hx2
      rcases Nat.eq_or_lt_of_le hx2 with h | h
      · rw [h]; omega
      · exact h3 x hx1 (by omega)

/-- Counterexample to claim C22 as stated: on the non-negative heights
`[4611686018427387904, 4611686018427387904]` the area
`4611686018427387904 * 2` of the whole range wraps to a negative `int` and is
not taken as `maxArea`; the call returns `4611686018427387904`, less than the
area `(1 - 0 + 1) * 4611686018427387904` of the range `[0, 1]`. -/
theorem LargestRectangleArea_overflow_counterexample :
    (∀ x ∈ ([4611686018427387904, 4611686018427387904] : List Int), 0 ≤ x) ∧
    LargestRectangleArea [4611686018427387904, 4611686018427387904] =
      some 4611686018427387904 ∧
    (∀ x, x < 2 → (4611686018427387904 : Int) ≤
      ([4611686018427387904, 4611686018427387904] : List Int).getD x 0) ∧
    (4611686018427387904 : Int) <
      (((1 : Nat) : Int) - ((0 : Nat) : Int) + 1) * 4611686018427387904 := by
  decide

/-- Claim C22 as amended: for a list of `n` non-negative heights in which `n`
times each height fits in an `int` (is at most `math.MaxInt64`, so that every
area does), `LargestRectangleArea` returns a value `r` such that every index
range `a ≤ b < n` has `(b - a + 1) * m ≤ r` for every lower bound `m` of the
heights in the range (in particular for their minimum), `r` is the area
`(b - a + 1) * heights[p]` of a range whose lowest bar is `p` when the list is
not empty, and `r = 0` for the empty list: `r` is the maximum of
`(b - a + 1) * min(heights[a..b])`. -/
theorem LargestRectangleArea_max (heights : List Int) (hnn : ∀ x ∈ heights, 0 ≤ x)
    (hfit : ∀ x ∈ heights, (heights.length : Int) * x ≤ 9223372036854775807) :
    ∃ r, LargestRectangleArea heights = some r ∧
      (∀ a b : Nat, a ≤ b → b < heights.length → ∀ m : Int,
        (∀ x, a ≤ x → x ≤ b → m ≤ heights.getD x 0) →
        ((b : Int) - (a : Int) + 1) * m ≤ r) ∧
      (0 < heights.length → ∃ a b p : Nat, a ≤ p ∧ p ≤ b ∧ b < heights.length ∧
        (∀ x, a ≤ x → x ≤ b → heights.getD p 0 ≤ heights.getD x 0) ∧
        r = ((b : Int) - (a : Int) + 1) * heights.getD p 0) ∧
      (heights.length = 0 → r = 0) := by
  by_cases hn : heights.length = 0
  · refine ⟨0, ?_, ?_, ?_, fun _ => rfl⟩
    · unfold LargestRectangleArea
      rw [if_pos hn]
    · intro a b _ hb; omega
    · intro h; omega
  · have hH : ∀ x, x < heights.length → (heights ++ [0]).getD x 0 = heights.getD x 0 := by
      intro x hx
      rw [List.getD_eq_getElem?_getD, List.getD_eq_getElem?_getD,
        List.getElem?_append_left hx]
    have hHn : (heights ++ [0]).getD heights.length 0 = 0 := by
      rw [List.getD_eq_getElem?_getD, List.getElem?_append_right (le_refl _)]
      simp
    have hHnn : ∀ x, 0 ≤ (heights ++ [0]).getD x 0 := by
      intro x
      by_cases hx : x < (heights ++ [0]).length
      · rw [List.getD_eq_getElem _ _ hx]
        rcases List.mem_append.1 (List.getElem_mem hx) with h | h
        · exact hnn _ h
        · rw [List.mem_singleton] at h; rw [h]
      · rw [List.getD_eq_default _ _ (by omega)]
    have hlen : (heights ++ [0]).length = heights.length + 1 := by
      rw [List.length_append, List.length_singleton]
    have hHfit : ∀ x, (((heights ++ [0]).length : Int) - 1) * (heights ++ [0]).getD x 0 ≤
        9223372036854775807 := by
      intro x
      have e1 : (((heights ++ [0]).length : Int) - 1) = (heights.length : Int) := by
        rw [hlen]; push_cast; omega
      rw [e1]
      by_cases hx : x < (heights ++ [0]).length
      · rw [List.getD_eq_getElem _ _ hx]
        rcases List.mem_append.1 (List.getElem_mem hx) with h | h
        · exact hfit _ h
        · rw [List.mem_singleton] at h; rw [h, mul_zero]; decide
      · rw [List.getD_eq_default _ _ (by omega), mul_zero]; decide
    obtain ⟨stack, r, e, ⟨h1, h2, h3, h4, h5, h6, h7⟩, _⟩ :=
      largestRectangle_fold (heights ++ [0]) hHnn hHfit (heights.length + 1) (by omega)
    have hub : ∀ a b : Nat, a ≤ b → b < heights.length → ∀ m : Int,
        (∀ x, a ≤ x → x ≤ b → m ≤ heights.getD x 0) →
        ((b : Int) - (a : Int) + 1) * m ≤ r := by
      intro a b hab hb m hm
      obtain ⟨p, g1, g2, g3, g4⟩ :=
        leftmost_min (fun x => (heights ++ [0]).getD x 0) a (b - a)
      have hba : a + (b - a) = b := by omega
      rw [hba] at g2 g3
      have hmp : m ≤ (heights ++ [0]).getD p 0 := by
        rw [hH p (by omega)]; exact hm p g1 g2
      have hw : (0 : Int) ≤ (b : Int) - (a : Int) + 1 := by omega
      have hmul := mul_le_mul_of_nonneg_left hmp hw
      by_cases hs : p ∈ stack
      · have g5 := h3 p hs heights.length (by omega) (by omega)
        rw [hHn] at g5
        have g6 := hHnn p
        have g7 : (heights ++ [0]).getD p 0 = 0 := by omega
        rw [g7, mul_zero] at hmul
        omega
      · have := h5 p (by omega) hs a b g1 g2 g3 g4
        omega
    refine ⟨r, ?_, hub, ?_, fun h => absurd h hn⟩
    · unfold LargestRectangleArea
      rw [if_neg hn, e]
      rfl
    · intro _
      rcases h7 with h0 | ⟨a, b, p, g1, g2, g3, g4, g5⟩
      · refine ⟨0, 0, 0, le_refl _, le_refl _, by omega, ?_, ?_⟩
        · intro x hx1 hx2
          have : x = 0 := by omega
          rw [this]
        · have g1 := hub 0 0 (le_refl _) (by omega) (heights.getD 0 0)
            (by
              intro x hx1 hx2
              have : x = 0 := by omega
              rw [this])
          have g2 := hHnn 0
          rw [hH 0 (by omega)] at g2
          have e0 : ((0 : Nat) : Int) - ((0 : Nat) : Int) + 1 = 1 := by decide
          rw [e0, one_mul] at g1 ⊢
          omega
      · rw [hlen] at g3
        refine ⟨a, b, p, g1, g2, by omega, ?_, ?_⟩
        · intro x hx1 hx2
          rw [← hH p (by omega), ← hH x (by omega)]
          exact g4 x hx1 hx2
        · rw [← hH p (by omega)]; exact g5

/-- Witness of the amended claim C22 on the first case of
`TestLargestRectangleArea`. -/
theorem LargestRectangleArea_max_witness :
    (∀ x ∈ ([2, 1, 5, 6, 2, 3] : List Int), 0 ≤ x) ∧
    (∀ x ∈ ([2, 1, 5, 6, 2, 3] : List Int),
      (([2, 1, 5, 6, 2, 3] : List Int).length : Int) * x ≤ 9223372036854775807) ∧
    ∃ r, LargestRectangleArea [2, 1, 5, 6, 2, 3] = some r ∧
      (∀ a b : Nat, a ≤ b → b < ([2, 1, 5, 6, 2, 3] : List Int).length → ∀ m : Int,
        (∀ x, a ≤ x → x ≤ b → m ≤ ([2, 1, 5, 6, 2, 3] : List Int).getD x 0) →
        ((b : Int) - (a : Int) + 1) * m ≤ r) ∧
      (0 < ([2, 1, 5, 6, 2, 3] : List Int).length → ∃ a b p : Nat, a ≤ p ∧ p ≤ b ∧
        b < ([2, 1, 5, 6, 2, 3] : List Int).length ∧
        (∀ x, a ≤ x → x ≤ b → ([2, 1, 5, 6, 2, 3] : List Int).getD p 0 ≤
          ([2, 1, 5, 6, 2, 3] : List Int).getD x 0) ∧
        r = ((b : Int) - (a : Int) + 1) * ([2, 1, 5, 6, 2, 3] : List Int).getD p 0) ∧
      (([2, 1, 5, 6, 2, 3] : List Int).length = 0 → r = 0) :=
  ⟨by decide, by decide,
    LargestRectangleArea_max [2, 1, 5, 6, 2, 3] (by decide) (by decide)⟩

end monotonicstack

/-! ### Knapsack: top-down against bottom-up -/

namespace dp

/-- Claim C31: on the item of weight `0` and value `5` with capacity `0`,
`KnapsackTopDown` returns `0` while `KnapsackBottomUp` returns `5`, the largest
value of a selection within the capacity; on the items of weights `[0, 1]` and
values `[5, 1]` with capacity `1` they return `5` and `6`.  The base case
`capacity <= 0` of `knapsackHelper` returns `0` without looking at the items of
weight `0` that still fit. -/
theorem KnapsackTopDown_misses_zero_weight_items :
    KnapsackTopDown [0] [5] 0 = some 0 ∧ KnapsackBottomUp [0] [5] 0 = some 5 ∧
    knapsackBest [0] [5] 0 = 5 ∧
    KnapsackTopDown [0, 1] [5, 1] 1 = some 5 ∧ KnapsackBottomUp [0, 1] [5, 1] 1 = some 6 ∧
    knapsackBest [0, 1] [5, 1] 1 = 6 := by
  decide

end dp

/-! ### The heap invariant under `heap.Push` and `heap.Pop` -/

namespace topk

theorem minHeap_isHeap_iff (h : List Int) :
    heap.IsHeap id h ↔
      ∀ i, i < h.length → 0 < i → heap.lessAt MinHeap.less h i ((i - 1) / 2) = false := by
  unfold heap.IsHeap heap.IsHeapUpTo
  constructor
  · intro hh i hi h0
    have h1 := hh i h0 hi
    cases hc : heap.lessAt MinHeap.less h i ((i - 1) / 2) with
    | false => rfl
    | true =>
      have := (heap.lessAt_iff id MinHeap.less minHeap_less_iff h i ((i - 1) / 2) hi
        (by omega)).1 hc
      omega
  · intro hh i h0 hi
    have h1 := hh i hi h0
    by_contra hc
    have h2 := (heap.lessAt_iff id MinHeap.less minHeap_less_iff h i ((i - 1) / 2) hi
      (by omega)).2 (by omega)
    rw [h1] at h2
    exact absurd h2 (by decide)

/-- Claim C32: if no element of a `MinHeap` `h` is `Less` than its parent (the
parent of position `i` is position `(i - 1) / 2`), then the same holds for `h`
after `heap.Push(h, x)` and, when `h` is not empty, for `h` after
`heap.Pop(h)`; in both resulting heaps the root is a minimum of the contents. -/
theorem MinHeap_push_pop_keep_invariant (h : List Int) (x : Int)
    (hh : ∀ i, i < h.length → 0 < i → heap.lessAt MinHeap.less h i ((i - 1) / 2) = false) :
    ((∀ i, i < (heap.push MinHeap.less h x).length → 0 < i →
        heap.lessAt MinHeap.less (heap.push MinHeap.less h x) i ((i - 1) / 2) = false) ∧
      ∃ r, (heap.push MinHeap.less h x)[0]? = some r ∧
        ∀ a ∈ heap.push MinHeap.less h x, r ≤ a) ∧
    (h ≠ [] → ∃ y h1, heap.pop MinHeap.less h = some (y, h1) ∧
      (∀ i, i < h1.length → 0 < i →
        heap.lessAt MinHeap.less h1 i ((i - 1) / 2) = false) ∧
      ∀ r, h1[0]? = some r → ∀ a ∈ h1, r ≤ a) := by
  have hheap := (minHeap_isHeap_iff h).2 hh
  have hpush := heap.push_heap id MinHeap.less minHeap_less_iff h x hheap
  refine ⟨⟨(minHeap_isHeap_iff _).1 hpush, ?_⟩, ?_⟩
  · have hl := heap.push_length MinHeap.less h x
    have h0 : 0 < (heap.push MinHeap.less h x).length := by omega
    exact ⟨_, List.getElem?_eq_getElem h0,
      heap.root_min id _ hpush _ (List.getElem?_eq_getElem h0)⟩
  · intro hne
    obtain ⟨y, h1, e, _, _, _, hk⟩ := heap.pop_spec id MinHeap.less minHeap_less_iff h hne
    exact ⟨y, h1, e, (minHeap_isHeap_iff _).1 (hk hheap),
      fun r hr => heap.root_min id h1 (hk hheap) r hr⟩

/-- Witness of claim C32 on the heap `[1, 3, 2]` and the new element `0`. -/
theorem MinHeap_push_pop_keep_invariant_witness :
    (∀ i, i < ([1, 3, 2] : List Int).length → 0 < i →
      heap.lessAt MinHeap.less [1, 3, 2] i ((i - 1) / 2) = false) ∧
    ((∀ i, i < (heap.push MinHeap.less [1, 3, 2] 0).length → 0 < i →
        heap.lessAt MinHeap.less (heap.push MinHeap.less [1, 3, 2] 0) i ((i - 1) / 2) = false) ∧
      ∃ r, (heap.push MinHeap.less [1, 3, 2] 0)[0]? = some r ∧
        ∀ a ∈ heap.push MinHeap.less [1, 3, 2] 0, r ≤ a) ∧
    (([1, 3, 2] : List Int) ≠ [] → ∃ y h1, heap.pop MinHeap.less [1, 3, 2] = some (y, h1) ∧
      (∀ i, i < h1.length → 0 < i →
        heap.lessAt MinHeap.less h1 i ((i - 1) / 2) = false) ∧
      ∀ r, h1[0]? = some r → ∀ a ∈ h1, r ≤ a) :=
  ⟨by decide, MinHeap_push_pop_keep_invariant [1, 3, 2] 0 (by decide)⟩

/-- Claim C33: for a non-empty `MinHeap` `h` in which no element is `Less` than
its parent, `heap.Pop(h)` returns an element `y` of `h` that no element of `h`
is below and leaves a heap `h1` with `y :: h1` a rearrangement of `h` (the
contents of `h` minus one copy of `y`, one element fewer); `heap.Push(h, x)`
leaves a rearrangement of `x :: h` (one element more). -/
theorem MinHeap_pop_push_contents (h : List Int) (x : Int)
    (hh : ∀ i, i < h.length → 0 < i → heap.lessAt MinHeap.less h i ((i - 1) / 2) = false) :
    (h ≠ [] → ∃ y h1, heap.pop MinHeap.less h = some (y, h1) ∧ y ∈ h ∧ (∀ a ∈ h, y ≤ a) ∧
      (y :: h1).Perm h ∧ h1.length + 1 = h.length) ∧
    (heap.push MinHeap.less h x).Perm (x :: h) ∧
    (heap.push MinHeap.less h x).length = h.length + 1 := by
  have hheap := (minHeap_isHeap_iff h).2 hh
  refine ⟨?_, heap.push_perm MinHeap.less h x, heap.push_length MinHeap.less h x⟩
  intro hne
  obtain ⟨y, h1, e, h0, hp, hl, _⟩ := heap.pop_spec id MinHeap.less minHeap_less_iff h hne
  exact ⟨y, h1, e, hp.mem_iff.1 (List.mem_cons_self _ _),
    heap.root_min id h hheap y h0, hp, hl⟩

/-- Witness of claim C33 on the heap `[1, 3, 2]` and the new element `0`. -/
theorem MinHeap_pop_push_contents_witness :
    (∀ i, i < ([1, 3, 2] : List Int).length → 0 < i →
      heap.lessAt MinHeap.less [1, 3, 2] i ((i - 1) / 2) = false) ∧
    (([1, 3, 2] : List Int) ≠ [] → ∃ y h1, heap.pop MinHeap.less [1, 3, 2] = some (y, h1) ∧
      y ∈ ([1, 3, 2] : List Int) ∧ (∀ a ∈ ([1, 3, 2] : List Int), y ≤ a) ∧
      (y :: h1).Perm [1, 3, 2] ∧ h1.length + 1 = ([1, 3, 2] : List Int).length) ∧
    (heap.push MinHeap.less [1, 3, 2] 0).Perm (0 :: [1, 3, 2]) ∧
    (heap.push MinHeap.less [1, 3, 2] 0).length = ([1, 3, 2] : List Int).length + 1 :=
  ⟨by decide, MinHeap_pop_push_contents [1, 3, 2] 0 (by decide)⟩

end topk

/-! ### Size of the heap in the insert-then-evict loops -/

namespace heap

variable {α : Type}

theorem selectLoop_prefix_size (key : α → Int) (less : α → α → Bool)
    (hk : ∀ a b, less a b = true ↔ key a < key b) (k : Int) (hk1 : 1 ≤ k) (xs : List α)
    (i : Nat) (hi : i ≤ xs.length) :
    ∃ h, (xs.take i).foldlM (pushEvict less k) [] = some h ∧
      (xs.drop i).foldlM (pushEvict less k) h = xs.foldlM (pushEvict less k) [] ∧
      (h.length : Int) = Min.min (i : Int) k := by
  obtain ⟨h, rest, e, _, _, hl, _⟩ := selectLoop_spec key less hk k (xs.take i)
  refine ⟨h, e, ?_, ?_⟩
  · conv_rhs => rw [← List.take_append_drop i xs, List.foldlM_append, e]
    rfl
  · rw [hl, List.length_take]
    omega

end heap

namespace topk

/-- Claim C34: in the insert-then-evict loops of `FindKthLargest` and
`KClosestPoints` with `k ≥ 1`, the heap `h` at the iteration boundary after the
first `i` input items (the loop run on the first `i` items; continuing from
`h` with the remaining items gives the final heap) holds exactly `min(i, k)`
elements: never more than `k`, and exactly `k` once `i ≥ k`. -/
theorem insert_evict_heap_size (k : Int) (hk : 1 ≤ k) (nums : List Int)
    (points : List (List Int)) (hpts : ∀ p ∈ points, p.length = 2) :
    (∀ i, i ≤ nums.length → ∃ h, FindKthLargest.loop (nums.take i) k = some h ∧
      (nums.drop i).foldlM (heap.pushEvict MinHeap.less k) h = FindKthLargest.loop nums k ∧
      (h.length : Int) = Min.min (i : Int) k ∧ (h.length : Int) ≤ k ∧
      (k ≤ i → (h.length : Int) = k)) ∧
    (∀ i, i ≤ points.length → ∃ h, KClosestPoints.loop (points.take i) k = some h ∧
      (points.drop i).foldlM (KClosestPoints.body k) h = KClosestPoints.loop points k ∧
      (h.length : Int) = Min.min (i : Int) k ∧ (h.length : Int) ≤ k ∧
      (k ≤ i → (h.length : Int) = k)) := by
  constructor
  · intro i hi
    obtain ⟨h, e1, e2, e3⟩ :=
      heap.selectLoop_prefix_size id MinHeap.less minHeap_less_iff k hk nums i hi
    refine ⟨h, ?_, ?_, e3, by omega, fun hki => by omega⟩
    · unfold FindKthLargest.loop
      rw [heap.init_nil]
      exact e1
    · unfold FindKthLargest.loop
      rw [heap.init_nil]
      exact e2
  · intro i hi
    have hlen : i ≤ (points.map toPoint).length := by rw [List.length_map]; exact hi
    obtain ⟨h, e1, e2, e3⟩ :=
      heap.selectLoop_prefix_size (fun p : Point => -p.distance) PointHeap.less
        pointHeap_less_iff k hk (points.map toPoint) i hlen
    refine ⟨h, ?_, ?_, e3, by omega, fun hki => by omega⟩
    · unfold KClosestPoints.loop
      rw [heap.init_nil, kClosestPoints_loop_eq k (points.take i) []
        (fun p hp => hpts p (List.mem_of_mem_take hp)), List.map_take]
      exact e1
    · unfold KClosestPoints.loop
      rw [heap.init_nil, kClosestPoints_loop_eq k (points.drop i) h
        (fun p hp => hpts p (List.mem_of_mem_drop hp)),
        kClosestPoints_loop_eq k points [] hpts, List.map_drop]
      exact e2

/-- Witness of claim C34 on the first cases of `TestFindKthLargest` and
`TestKClosestPoints`. -/
theorem insert_evict_heap_size_witness :
    (1 : Int) ≤ 2 ∧ (∀ p ∈ ([[1, 3], [-2, 2], [5, -1]] : List (List Int)), p.length = 2) ∧
    (∀ i, i ≤ ([3, 2, 1, 5, 6, 4] : List Int).length →
      ∃ h, FindKthLargest.loop (([3, 2, 1, 5, 6, 4] : List Int).take i) 2 = some h ∧
      (([3, 2, 1, 5, 6, 4] : List Int).drop i).foldlM (heap.pushEvict MinHeap.less 2) h =
        FindKthLargest.loop [3, 2, 1, 5, 6, 4] 2 ∧
      (h.length : Int) = Min.min (i : Int) 2 ∧ (h.length : Int) ≤ 2 ∧
      ((2 : Int) ≤ i → (h.length : Int) = 2)) ∧
    (∀ i, i ≤ ([[1, 3], [-2, 2], [5, -1]] : List (List Int)).length →
      ∃ h, KClosestPoints.loop (([[1, 3], [-2, 2], [5, -1]] : List (List Int)).take i) 2 = some h ∧
      (([[1, 3], [-2, 2], [5, -1]] : List (List Int)).drop i).foldlM (KClosestPoints.body 2) h =
        KClosestPoints.loop [[1, 3], [-2, 2], [5, -1]] 2 ∧
      (h.length : Int) = Min.min (i : Int) 2 ∧ (h.length : Int) ≤ 2 ∧
      ((2 : Int) ≤ i → (h.length : Int) = 2)) :=
  ⟨by decide, by decide,
    insert_evict_heap_size 2 (by decide) [3, 2, 1, 5, 6, 4] [[1, 3], [-2, 2], [5, -1]] (by decide)⟩

end topk

namespace monotonicstack

/-! ### Stock spanner: order of the stored prices and number of pops -/

theorem StockSpanner.nextLoop_prices (price : Int) :
    ∀ (fuel : Nat) (ss : StockSpanner) (span : Int) (s1 : StockSpanner) (sp : Int),
      StockSpanner.nextLoop fuel price ss span = some (s1, sp) →
      ss.prices.Pairwise (fun a b => a > b) →
      s1.prices.Pairwise (fun a b => a > b) ∧ (∀ x ∈ s1.prices, x > price) ∧
        StockSpanner.popCount fuel price ss + s1.prices.length = ss.prices.length := by
  intro fuel
  induction fuel with
  | zero =>
    intro ss span s1 sp e
    simp [StockSpanner.nextLoop] at e
  | succ fuel ih =>
    intro ss span s1 sp e hp
    unfold StockSpanner.nextLoop at e
    unfold StockSpanner.popCount
    rcases List.eq_nil_or_concat ss.prices with e0 | ⟨init, top, e0⟩
    · rw [e0] at e ⊢
      simp only [List.getLast?_nil, Option.some.injEq, Prod.mk.injEq] at e ⊢
      obtain ⟨e1, _⟩ := e
      subst e1
      rw [e0]
      exact ⟨List.Pairwise.nil, fun x hx => absurd hx (List.not_mem_nil _), rfl⟩
    · rw [List.concat_eq_append] at e0
      rw [e0, List.getLast?_concat] at e
      rw [e0, List.getLast?_concat]
      simp only at e ⊢
      rw [e0, List.pairwise_append] at hp
      obtain ⟨hp1, _, hp3⟩ := hp
      by_cases c : price ≥ top
      · rw [if_pos c] at e
        rw [if_pos c]
        cases hs : ss.spans.getLast? with
        | none => rw [hs] at e; simp at e
        | some s =>
          rw [hs] at e
          simp only at e ⊢
          rw [List.dropLast_concat] at e ⊢
          obtain ⟨g1, g2, g3⟩ := ih _ _ s1 sp e hp1
          refine ⟨g1, g2, ?_⟩
          simp only at g3
          rw [List.length_append, List.length_singleton]
          omega
      · rw [if_neg c] at e
        rw [if_neg c]
        simp only [Option.some.injEq, Prod.mk.injEq] at e
        obtain ⟨e1, _⟩ := e
        subst e1
        rw [e0]
        refine ⟨List.pairwise_append.2 ⟨hp1, List.pairwise_singleton _ _, hp3⟩, ?_, by omega⟩
        intro x hx
        rcases List.mem_append.1 hx with h | h
        · have := hp3 x h top (List.mem_singleton.2 rfl)
          omega
        · rw [List.mem_singleton] at h; omega

theorem StockSpanner.Next_prices (price : Int) (ss s2 : StockSpanner) (r : Int)
    (e : ss.Next price = some (s2, r)) (hp : ss.prices.Pairwise (fun a b => a > b)) :
    s2.prices.Pairwise (fun a b => a > b) ∧
      StockSpanner.popCount (ss.prices.length + 1) price ss + s2.prices.length =
        ss.prices.length + 1 := by
  unfold StockSpanner.Next at e
  cases hl : StockSpanner.nextLoop (ss.prices.length + 1) price ss 1 with
  | none => rw [hl] at e; simp at e
  | some res =>
    obtain ⟨s1, sp⟩ := res
    rw [hl] at e
    simp only [Option.some.injEq, Prod.mk.injEq] at e
    obtain ⟨e1, _⟩ := e
    subst e1
    obtain ⟨g1, g2, g3⟩ := StockSpanner.nextLoop_prices price _ ss 1 s1 sp hl hp
    refine ⟨?_, ?_⟩
    · rw [List.pairwise_append]
      refine ⟨g1, List.pairwise_singleton _ _, ?_⟩
      intro a ha b hb
      rw [List.mem_singleton] at hb
      subst hb
      exact g2 a ha
    · simp only [List.length_append, List.length_singleton]
      omega

theorem StockSpanner.feed_prices :
    ∀ (P : List Int) (ss s2 : StockSpanner) (rs : List Int),
      ss.feed P = some (s2, rs) → ss.prices.Pairwise (fun a b => a > b) →
      s2.prices.Pairwise (fun a b => a > b) ∧
        StockSpanner.sessionPops ss P + s2.prices.length = ss.prices.length + P.length := by
  intro P
  induction P with
  | nil =>
    intro ss s2 rs e hp
    simp only [StockSpanner.feed, Option.some.injEq, Prod.mk.injEq] at e
    obtain ⟨e1, _⟩ := e
    subst e1
    refine ⟨hp, ?_⟩
    simp only [StockSpanner.sessionPops, List.length_nil]
    omega
  | cons p P ih =>
    intro ss s2 rs e hp
    unfold StockSpanner.feed at e
    unfold StockSpanner.sessionPops
    cases hn : ss.Next p with
    | none => rw [hn] at e; simp at e
    | some res =>
      obtain ⟨s1, r⟩ := res
      rw [hn] at e
      simp only at e ⊢
      cases hf : StockSpanner.feed s1 P with
      | none => rw [hf] at e; simp at e
      | some res2 =>
        obtain ⟨s3, rs3⟩ := res2
        rw [hf] at e
        simp only [Option.some.injEq, Prod.mk.injEq] at e
        obtain ⟨e1, _⟩ := e
        subst e1
        obtain ⟨g1, g2⟩ := StockSpanner.Next_prices p ss s1 r hn hp
        obtain ⟨g3, g4⟩ := ih s1 s3 rs3 hf g1
        refine ⟨g3, ?_⟩
        rw [List.length_cons]
        omega

/-- Claim C35: for every sequence of prices fed to a fresh `StockSpanner`, the
session runs to its end and the stored prices are then strictly decreasing
from the bottom of the stack (the front of `prices`) to its top; a session may
end after any call, so this holds after every call to `Next`. -/
theorem StockSpanner_prices_strictly_decreasing (P : List Int) :
    ∃ ss spans, NewStockSpanner.feed P = some (ss, spans) ∧
      ss.prices.Pairwise (fun a b => a > b) := by
  obtain ⟨ss, spans, e, _, _⟩ := StockSpanner.feed_spec P [] NewStockSpanner
    StockSpanner.inv_new
  exact ⟨ss, spans, e,
    (StockSpanner.feed_prices P NewStockSpanner ss spans e List.Pairwise.nil).1⟩

/-- Claim C36: in a session of `n` calls to `Next` on a fresh `StockSpanner`
every call pushes its price once, and the total number of pops of the session
plus the final stack size is `n`; so the number of pops is `n` minus the final
stack size and at most `n`. -/
theorem StockSpanner_pops_bounded (P : List Int) :
    ∃ ss spans, NewStockSpanner.feed P = some (ss, spans) ∧
      StockSpanner.sessionPops NewStockSpanner P + ss.prices.length = P.length ∧
      StockSpanner.sessionPops NewStockSpanner P ≤ P.length := by
  obtain ⟨ss, spans, e, _, _⟩ := StockSpanner.feed_spec P [] NewStockSpanner
    StockSpanner.inv_new
  have h := (StockSpanner.feed_prices P NewStockSpanner ss spans e List.Pairwise.nil).2
  have h0 : NewStockSpanner.prices.length = 0 := rfl
  exact ⟨ss, spans, e, by omega, by omega⟩

end monotonicstack

namespace topk

/-! ### `KthSmallestInMatrix`: one cursor per row -/

theorem cursors_ne_nil (matrix : List (List Int)) (n : Nat) (h P : List MatrixCell)
    (hinv : KthSmallestInMatrix.Cursors matrix n h P) (hlt : P.length < n * n) : h ≠ [] := by
  intro e
  subst e
  obtain ⟨_, _, h3⟩ := hinv
  have hsub : List.range n ×ˢ List.range n ⊆
      P.map (fun p => (p.row, p.col)) := by
    intro rj hrj
    obtain ⟨r, j⟩ := rj
    rw [List.mem_product, List.mem_range, List.mem_range] at hrj
    rcases h3 r j hrj.1 hrj.2 with ⟨p, hp, e1, e2⟩ | ⟨c, hc, _⟩
    · rw [List.mem_map]
      exact ⟨p, hp, by rw [e1, e2]⟩
    · exact absurd hc (List.not_mem_nil _)
  have hnd : (List.range n ×ˢ List.range n).Nodup :=
    List.Nodup.product (List.nodup_range n) (List.nodup_range n)
  have hle := (List.subperm_of_subset hnd hsub).length_le
  rw [List.length_product, List.length_range, List.length_map] at hle
  omega

theorem cursors_step (matrix : List (List Int))
    (hrows : ∀ row ∈ matrix, matrix.length ≤ row.length) (h P : List MatrixCell)
    (hinv : KthSmallestInMatrix.Cursors matrix matrix.length h P) (hne : h ≠ []) :
    ∃ (cell : MatrixCell) (hrest h1 : List MatrixCell),
      heap.pop MatrixHeap.less h = some (cell, hrest) ∧
      KthSmallestInMatrix.step matrix matrix.length h = some h1 ∧
      KthSmallestInMatrix.Cursors matrix matrix.length h1 (P ++ [cell]) := by
  obtain ⟨h1, h2, h3⟩ := hinv
  obtain ⟨c0, hrest, e, _, hp, _, _⟩ :=
    heap.pop_spec MatrixCell.val MatrixHeap.less matrixHeap_less_iff h hne
  have hc0 : c0 ∈ h := hp.mem_iff.1 (List.mem_cons_self _ _)
  have hrest_mem : ∀ c ∈ hrest, c ∈ h := fun c hc => hp.mem_iff.1 (List.mem_cons_of_mem _ hc)
  obtain ⟨hr0, hj0, hv0⟩ := h2 c0 hc0
  have hnd : ((c0 :: hrest).map MatrixCell.row).Nodup := (hp.map _).nodup_iff.2 h1
  rw [List.map_cons, List.nodup_cons] at hnd
  obtain ⟨hnot, hnd2⟩ := hnd
  have hcov : ∀ r j, r < matrix.length → j < matrix.length →
      (∃ p ∈ P ++ [c0], p.row = r ∧ p.col = j) ∨ (∃ c ∈ hrest, c.row = r ∧ c.col ≤ j) ∨
        (r = c0.row ∧ c0.col + 1 ≤ j) := by
    intro r j hr hj
    rcases h3 r j hr hj with ⟨p, hp1, hp2⟩ | ⟨c, hc, hc1, hc2⟩
    · exact Or.inl ⟨p, List.mem_append_left _ hp1, hp2⟩
    · rcases List.mem_cons.1 (hp.mem_iff.2 hc) with g | g
      · subst g
        by_cases hcj : c.col = j
        · exact Or.inl ⟨c, List.mem_append_right _ (List.mem_singleton.2 rfl), hc1, hcj⟩
        · exact Or.inr (Or.inr ⟨hc1.symm, by omega⟩)
      · exact Or.inr (Or.inl ⟨c, g, hc1, hc2⟩)
  by_cases c : c0.col < matrix.length - 1
  · have hrow : matrix.length ≤ (matrix.getD c0.row []).length :=
      hrows _ (getD_mem_of_matrixAt matrix c0.row c0.col c0.val hv0)
    have hlt : c0.col + 1 < (matrix.getD c0.row []).length := by omega
    have hat : matrixAt matrix c0.row (c0.col + 1) =
        some ((matrix.getD c0.row [])[c0.col + 1]) := by
      rw [matrixAt_eq, List.getElem?_eq_getElem hlt]
    have hpush := heap.push_perm MatrixHeap.less hrest
      ⟨(matrix.getD c0.row [])[c0.col + 1], c0.row, c0.col + 1⟩
    refine ⟨c0, hrest, heap.push MatrixHeap.less hrest
      ⟨(matrix.getD c0.row [])[c0.col + 1], c0.row, c0.col + 1⟩, e, ?_, ?_, ?_, ?_⟩
    · unfold KthSmallestInMatrix.step
      rw [e]
      simp only
      rw [if_pos c, hat]
    · refine ((hpush.map _).nodup_iff).2 ?_
      rw [List.map_cons, List.nodup_cons]
      exact ⟨hnot, hnd2⟩
    · intro d hd
      rcases List.mem_cons.1 (hpush.mem_iff.1 hd) with g | g
      · subst g
        exact ⟨hr0, by simp only; omega, hat⟩
      · exact h2 d (hrest_mem d g)
    · intro r j hr hj
      rcases hcov r j hr hj with g | ⟨d, hd, g⟩ | ⟨g1, g2⟩
      · exact Or.inl g
      · exact Or.inr ⟨d, hpush.mem_iff.2 (List.mem_cons_of_mem _ hd), g⟩
      · exact Or.inr ⟨_, hpush.mem_iff.2 (List.mem_cons_self _ _), g1.symm, g2⟩
  · refine ⟨c0, hrest, hrest, e, ?_, hnd2, fun d hd => h2 d (hrest_mem d hd), ?_⟩
    · unfold KthSmallestInMatrix.step
      rw [e]
      simp only
      rw [if_neg c]
    · intro r j hr hj
      rcases hcov r j hr hj with g | g | ⟨g1, g2⟩
      · exact Or.inl g
      · exact Or.inr g
      · omega

theorem cursors_loop (matrix : List (List Int))
    (hrows : ∀ row ∈ matrix, matrix.length ≤ row.length) :
    ∀ (t : Nat) (h P : List MatrixCell),
      KthSmallestInMatrix.Cursors matrix matrix.length h P →
      P.length + t ≤ matrix.length * matrix.length →
      ∃ (h1 P1 : List MatrixCell),
        KthSmallestInMatrix.loop matrix matrix.length t h = some h1 ∧
        KthSmallestInMatrix.extracted matrix matrix.length t h = some P1 ∧
        P1.length = t ∧ KthSmallestInMatrix.Cursors matrix matrix.length h1 (P ++ P1) := by
  intro t
  induction t with
  | zero =>
    intro h P hinv _
    refine ⟨h, [], rfl, rfl, rfl, ?_⟩
    rw [List.append_nil]
    exact hinv
  | succ t ih =>
    intro h P hinv hlen
    have hne := cursors_ne_nil matrix matrix.length h P hinv (by omega)
    obtain ⟨cell, hrest, h1, e1, e2, hinv1⟩ := cursors_step matrix hrows h P hinv hne
    obtain ⟨h2, P2, e3, e4, e5, hinv2⟩ := ih h1 (P ++ [cell]) hinv1
      (by rw [List.length_append, List.length_singleton]; omega)
    refine ⟨h2, cell :: P2, ?_, ?_, ?_, ?_⟩
    · simp only [KthSmallestInMatrix.loop, e2]
      exact e3
    · simp only [KthSmallestInMatrix.extracted, e1, e2, e4]
    · rw [List.length_cons, e5]
    · rw [List.append_assoc] at hinv2
      exact hinv2

theorem cursors_seed (matrix : List (List Int))
    (hrows : ∀ row ∈ matrix, matrix.length ≤ row.length) :
    ∃ h0 : List MatrixCell, KthSmallestInMatrix.seed matrix matrix.length = some h0 ∧
      KthSmallestInMatrix.Cursors matrix matrix.length h0 [] := by
  have hfold := seed_fold matrix hrows (List.range matrix.length) []
    (fun i hi => List.mem_range.1 hi)
  obtain ⟨_, g2⟩ := heap.foldl_push_spec MatrixCell.val MatrixHeap.less matrixHeap_less_iff
    ((List.range matrix.length).map
      (fun i => (⟨(matrix.getD i []).getD 0 0, i, 0⟩ : MatrixCell))) [] (heap.isHeap_nil _)
  rw [List.nil_append] at g2
  refine ⟨((List.range matrix.length).map
      (fun i => (⟨(matrix.getD i []).getD 0 0, i, 0⟩ : MatrixCell))).foldl
        (heap.push MatrixHeap.less) [], ?_, ?_, ?_, ?_⟩
  · unfold KthSmallestInMatrix.seed
    rw [heap.init_nil]
    exact hfold
  · refine ((g2.map _).nodup_iff).2 ?_
    rw [List.map_map]
    have e : (MatrixCell.row ∘ fun i => (⟨(matrix.getD i []).getD 0 0, i, 0⟩ : MatrixCell))
        = id := by
      funext i; rfl
    rw [e, List.map_id]
    exact List.nodup_range _
  · intro c hc
    obtain ⟨i, hi, rfl⟩ := List.mem_map.1 (g2.mem_iff.1 hc)
    have hil : i < matrix.length := List.mem_range.1 hi
    have hrow : matrix.length ≤ (matrix.getD i []).length := by
      apply hrows
      rw [List.getD_eq_getElem?_getD, List.getElem?_eq_getElem hil]
      exact List.getElem_mem _
    refine ⟨hil, by simp only; omega, ?_⟩
    simp only
    rw [matrixAt_eq, List.getD_eq_getElem?_getD (matrix.getD i []),
      List.getElem?_eq_getElem (by omega : 0 < (matrix.getD i []).length)]
    rfl
  · intro r j hr hj
    right
    exact ⟨⟨(matrix.getD r []).getD 0 0, r, 0⟩,
      g2.mem_iff.2 (List.mem_map.2 ⟨r, List.mem_range.2 hr, rfl⟩), rfl, Nat.zero_le _⟩

/-- Claim C37: on the `2 × 3` matrix `[[1, 2, 3], [4, 5, 6]]`, after two
iterations of the merge loop of `KthSmallestInMatrix` the heap holds only the
cursor of row `1`, while the entry `3` at column `2` of row `0` has not been
extracted: the successor of a cursor is pushed only while `cell.col < n-1`
with `n := len(matrix)`, the number of rows. -/
theorem KthSmallestInMatrix_row_without_cursor :
    (KthSmallestInMatrix.seed [[1, 2, 3], [4, 5, 6]] 2).bind
        (KthSmallestInMatrix.loop [[1, 2, 3], [4, 5, 6]] 2 2) = some [⟨4, 1, 0⟩] ∧
    (KthSmallestInMatrix.seed [[1, 2, 3], [4, 5, 6]] 2).bind
        (KthSmallestInMatrix.extracted [[1, 2, 3], [4, 5, 6]] 2 2) =
      some [⟨1, 0, 0⟩, ⟨2, 0, 1⟩] ∧
    matrixAt [[1, 2, 3], [4, 5, 6]] 0 2 = some 3 ∧
    (∀ p ∈ ([⟨1, 0, 0⟩, ⟨2, 0, 1⟩] : List MatrixCell), ¬ (p.row = 0 ∧ p.col = 2)) ∧
    ∀ c ∈ ([⟨4, 1, 0⟩] : List MatrixCell), c.row ≠ 0 := by
  decide

/-- On a square `n × n` matrix the merge loop of `KthSmallestInMatrix` keeps
its cursors as intended: after every number `t ≤ n * n` of iterations (the heap
`h`, the extracted cells `P`), the cursors of `h` are in different rows, each
cursor `(val, row, col)` has `val = matrix[row][col]`, and every row with a
position that has not been extracted has a cursor in `h`, at or before that
position. -/
theorem cursors_square (matrix : List (List Int))
    (hsq : ∀ row ∈ matrix, row.length = matrix.length) (t : Nat)
    (ht : t ≤ matrix.length * matrix.length) :
    ∃ h0 h P, KthSmallestInMatrix.seed matrix matrix.length = some h0 ∧
      KthSmallestInMatrix.loop matrix matrix.length t h0 = some h ∧
      KthSmallestInMatrix.extracted matrix matrix.length t h0 = some P ∧
      P.length = t ∧
      (h.map MatrixCell.row).Nodup ∧
      (∀ c ∈ h, c.row < matrix.length ∧ c.col < matrix.length ∧
        matrixAt matrix c.row c.col = some c.val) ∧
      ∀ r j, r < matrix.length → j < matrix.length →
        (∀ p ∈ P, ¬ (p.row = r ∧ p.col = j)) → ∃ c ∈ h, c.row = r ∧ c.col ≤ j := by
  have hrows : ∀ row ∈ matrix, matrix.length ≤ row.length :=
    fun row hr => le_of_eq (hsq row hr).symm
  obtain ⟨h0, e0, hinv0⟩ := cursors_seed matrix hrows
  obtain ⟨h, P, e1, e2, e3, h1, h2, h3⟩ := cursors_loop matrix hrows t h0 [] hinv0
    (by rw [List.length_nil]; omega)
  rw [List.nil_append] at h3
  refine ⟨h0, h, P, e0, e1, e2, e3, h1, h2, ?_⟩
  intro r j hr hj hnot
  rcases h3 r j hr hj with ⟨p, hp, g⟩ | g
  · exact absurd g (hnot p hp)
  · exact g

end topk
